import Mathlib

/-! # Room impulse response by the image method (`src/pyrir/cyrir/rir.c`)

A shallow embedding of `rir.c` and theorems about it.

Modelling conventions.
* C `double` values are real numbers (`ℝ`): rounding, infinities and NaN are not modelled.
  A real division by zero evaluates to `0` in Lean; theorems whose truth depends on such a
  division state the non-zero side condition explicitly.
* `M_PI` is the real number `π`.
* Where a property is sensitive to rounding, the part *Binary64 arithmetic* evaluates the
  same expressions of `rir.c` with a rounding to binary64 after every operation (names ending
  in `D`); the properties that hold only in exact arithmetic are marked as such.
* C `int`/`long` values are unbounded integers (`ℤ`); the conversions `(int)`/`(long)` of a
  `double` truncate toward zero.
* The caller-owned array `impulse` is a `List ℝ`.  Every array access is checked: a read or
  a write outside the list makes the embedded function return `none`.
* `beta_arr` (documented length 6) is a function on `Fin 6`.
-/

noncomputable section

namespace Rir

/-! ## Numeric helpers -/

/-- The constant `M_PI` of `math.h`. -/
def M_PI : ℝ := Real.pi

/-- C conversion of a `double` to `long`/`int`: truncation toward zero. -/
def toLong (x : ℝ) : ℤ := if 0 ≤ x then ⌊x⌋ else ⌈x⌉

/-- The macro `#define ROUND(x) (((x) >= 0) ? ((long)((x) + 0.5)) : ((long)((x) - 0.5)))`. -/
def ROUND (x : ℝ) : ℤ := if x ≥ 0 then toLong (x + 0.5) else toLong (x - 0.5)

/-- The function `double sinc(double x)`. -/
def sinc (x : ℝ) : ℝ := if x = 0 then 1.0 else Real.sin x / x

/-- The function `atan2(y, x)` of `math.h` over the reals: the argument of `x + y i` in `(-π, π]`. -/
def atan2 (y x : ℝ) : ℝ := Complex.arg ⟨x, y⟩

/-- The value `pow(b, abs(e))` for an `int` exponent `e`; `pow(b, 0) = 1` for every `b`. -/
def powAbs (b : ℝ) (e : ℤ) : ℝ := b ^ e.natAbs

/-! ## Beam patterns -/

/-- The function `double dipole(double x, double y, double z, double angle1, double angle2)`. -/
def dipole (x y z angle1 angle2 : ℝ) : ℝ :=
  let theta := Real.arccos (z / Real.sqrt (x * x + y * y + z * z))
  let phi := atan2 y x
  Real.sin (0.5 * M_PI - angle2) * Real.sin theta * Real.cos (angle1 - phi)
    + Real.cos (0.5 * M_PI - angle2) * Real.cos theta

/-- The function `double omni(...)`: always `1.0`. -/
def omni (_x _y _z _angle1 _angle2 : ℝ) : ℝ := 1.0

/-- The function `double subcardioid(...)`. -/
def subcardioid (x y z angle1 angle2 : ℝ) : ℝ :=
  let gain := dipole x y z angle1 angle2
  0.75 + 0.25 * gain

/-- The function `double cardioid(...)`. -/
def cardioid (x y z angle1 angle2 : ℝ) : ℝ :=
  let gain := dipole x y z angle1 angle2
  0.5 + 0.5 * gain

/-- The function `double hypercardioid(...)`. -/
def hypercardioid (x y z angle1 angle2 : ℝ) : ℝ :=
  let gain := dipole x y z angle1 angle2
  0.25 + 0.75 * gain

/-- The function-pointer dispatch on `mic_type` at the top of `comp_rir`. -/
def beam_ptr (mic_type : Char) : ℝ → ℝ → ℝ → ℝ → ℝ → ℝ :=
  if mic_type = 'd' then dipole
  else if mic_type = 'c' then cardioid
  else if mic_type = 's' then subcardioid
  else if mic_type = 'h' then hypercardioid
  else omni

/-! ## Arguments of `comp_rir` -/

/-- The scalar and array arguments of `comp_rir` other than the buffer `impulse`. -/
structure Args where
  sound_speed : ℝ
  fs : ℝ
  size_x : ℝ
  size_y : ℝ
  size_z : ℝ
  mic_x : ℝ
  mic_y : ℝ
  mic_z : ℝ
  src_x : ℝ
  src_y : ℝ
  src_z : ℝ
  beta_arr : Fin 6 → ℝ
  mic_azimuth : ℝ
  mic_elevation : ℝ
  impulse_len : ℤ
  high_pass : ℤ
  mic_type : Char
  reflect_order : ℤ

/-- The constant `const double Fc = 1`. -/
def Fc : ℝ := 1

/-- The constant `const int Tw = 2 * ROUND(0.004*fs)`. -/
def Tw (fs : ℝ) : ℤ := 2 * ROUND (0.004 * fs)

/-- The constant `const double cTs = sound_speed / fs`. -/
def cTs (a : Args) : ℝ := a.sound_speed / a.fs

/-- The values of a C loop `for (v = lo; v <= hi; v++)`. -/
def forIncl (lo hi : ℤ) : List ℤ := (List.range (hi + 1 - lo).toNat).map (fun (t : ℕ) => lo + (t : ℤ))

/-- The values of a C loop `for (n = 0; n < hi; n++)`. -/
def forBelow (hi : ℤ) : List ℕ := List.range hi.toNat

/-! ## The accumulation of one image -/

/-- The first inner loop: `LPI[n] = 0.5 * (1 - cos(2*M_PI*((n+1-(dist-fdist))/Tw))) * Fc *
sinc(M_PI*Fc*(n+1-(dist-fdist)-(0.5*Tw)))` for `n = 0 .. Tw-1`. -/
def fillLPI (Tw : ℤ) (dist fdist : ℝ) : List ℝ :=
  (forBelow Tw).map (fun (n : ℕ) =>
    0.5 * (1 - Real.cos (2 * M_PI * (((n : ℝ) + 1 - (dist - fdist)) / (Tw : ℝ)))) * Fc
      * sinc (M_PI * Fc * ((n : ℝ) + 1 - (dist - fdist) - (0.5 * (Tw : ℝ)))))

/-- One iteration of the second inner loop:
`if (startPosition + n >= 0 && startPosition + n < impulse_len)
   impulse[startPosition + n] += gain * LPI[n];` -/
def addTap (impulse_len startPosition : ℤ) (gain : ℝ) (LPI : List ℝ)
    (impulse : List ℝ) (n : ℕ) : Option (List ℝ) :=
  if startPosition + (n : ℤ) ≥ 0 ∧ startPosition + (n : ℤ) < impulse_len then
    match LPI[n]?, impulse[(startPosition + (n : ℤ)).toNat]? with
    | some t, some old =>
        some (impulse.set (startPosition + (n : ℤ)).toNat (old + gain * t))
    | _, _ => none
  else some impulse

/-- The body of the innermost (`k`) loop after `Rp_plus_Rm[2]` and `refl[2]` are set:
the computation of `dist`, the reflection-order test, the horizon test and the injection. -/
def imageBody (a : Args) (mx my mz q j k : ℤ) (Rp0 Rp1 Rp2 refl0 refl1 refl2 : ℝ)
    (impulse : List ℝ) : Option (List ℝ) :=
  let dist := Real.sqrt (Rp0 ^ 2 + Rp1 ^ 2 + Rp2 ^ 2)
  if |2 * mx - q| + |2 * my - j| + |2 * mz - k| ≤ a.reflect_order ∨ a.reflect_order = -1 then
    let fdist : ℝ := (⌊dist⌋ : ℝ)
    if fdist < (a.impulse_len : ℝ) then
      let gain := beam_ptr a.mic_type Rp0 Rp1 Rp2 a.mic_azimuth a.mic_elevation
        * refl0 * refl1 * refl2 / (4 * M_PI * dist * cTs a)
      let LPI := fillLPI (Tw a.fs) dist fdist
      let startPosition : ℤ := toLong fdist - (Tw a.fs).tdiv 2 + 1
      (forBelow (Tw a.fs)).foldlM (addTap a.impulse_len startPosition gain LPI) impulse
    else some impulse
  else some impulse

/-- The image-method part of `comp_rir`: the six nested loops over
`mx, my, mz, q, j, k`. -/
def imageMethod (a : Args) (impulse : List ℝ) : Option (List ℝ) :=
  let s0 := a.src_x / cTs a
  let s1 := a.src_y / cTs a
  let s2 := a.src_z / cTs a
  let L0 := a.size_x / cTs a
  let L1 := a.size_y / cTs a
  let L2 := a.size_z / cTs a
  let r0 := a.mic_x / cTs a
  let r1 := a.mic_y / cTs a
  let r2 := a.mic_z / cTs a
  let n1 : ℤ := toLong (⌈(a.impulse_len : ℝ) / (2 * L0)⌉ : ℝ)
  let n2 : ℤ := toLong (⌈(a.impulse_len : ℝ) / (2 * L1)⌉ : ℝ)
  let n3 : ℤ := toLong (⌈(a.impulse_len : ℝ) / (2 * L2)⌉ : ℝ)
  (forIncl (-n1) n1).foldlM (fun (impulse : List ℝ) (mx : ℤ) =>
    let Rm0 := 2 * (mx : ℝ) * L0
    (forIncl (-n2) n2).foldlM (fun (impulse : List ℝ) (my : ℤ) =>
      let Rm1 := 2 * (my : ℝ) * L1
      (forIncl (-n3) n3).foldlM (fun (impulse : List ℝ) (mz : ℤ) =>
        let Rm2 := 2 * (mz : ℝ) * L2
        (forIncl 0 1).foldlM (fun (impulse : List ℝ) (q : ℤ) =>
          let Rp0 := (1 - 2 * (q : ℝ)) * s0 - r0 + Rm0
          let refl0 := powAbs (a.beta_arr 0) (mx - q) * powAbs (a.beta_arr 1) mx
          (forIncl 0 1).foldlM (fun (impulse : List ℝ) (j : ℤ) =>
            let Rp1 := (1 - 2 * (j : ℝ)) * s1 - r1 + Rm1
            let refl1 := powAbs (a.beta_arr 2) (my - j) * powAbs (a.beta_arr 3) my
            (forIncl 0 1).foldlM (fun (impulse : List ℝ) (k : ℤ) =>
              let Rp2 := (1 - 2 * (k : ℝ)) * s2 - r2 + Rm2
              let refl2 := powAbs (a.beta_arr 4) (mz - k) * powAbs (a.beta_arr 5) mz
              imageBody a mx my mz q j k Rp0 Rp1 Rp2 refl0 refl1 refl2 impulse)
            impulse) impulse) impulse) impulse) impulse) impulse

/-! ## The high-pass filter -/

/-- The constant `const double W = 2 * M_PI * 100 / fs` of the `if (high_pass)` block. -/
def hpW (fs : ℝ) : ℝ := 2 * M_PI * 100 / fs

/-- The constant `const double R1 = exp(-W)`. -/
def hpR1 (fs : ℝ) : ℝ := Real.exp (-(hpW fs))

/-- The constant `const double B1 = 2 * R1*cos(W)`. -/
def hpB1 (fs : ℝ) : ℝ := 2 * hpR1 fs * Real.cos (hpW fs)

/-- The constant `const double B2 = -R1 * R1`. -/
def hpB2 (fs : ℝ) : ℝ := -(hpR1 fs) * hpR1 fs

/-- The constant `const double A1 = -(1 + R1)`. -/
def hpA1 (fs : ℝ) : ℝ := -(1 + hpR1 fs)

/-- The loop state of the filter: the array `Y[3]` and the buffer. -/
structure HpState where
  Y0 : ℝ
  Y1 : ℝ
  Y2 : ℝ
  impulse : List ℝ

/-- One iteration of the filter loop:
`X0 = impulse[idx]; Y[2] = Y[1]; Y[1] = Y[0]; Y[0] = B1*Y[1] + B2*Y[2] + X0;
 impulse[idx] = Y[0] + A1*Y[1] + R1*Y[2];` -/
def hpStep (fs : ℝ) (st : HpState) (idx : ℕ) : Option HpState :=
  match st.impulse[idx]? with
  | some X0 =>
      let Y2 := st.Y1
      let Y1 := st.Y0
      let Y0 := hpB1 fs * Y1 + hpB2 fs * Y2 + X0
      some ⟨Y0, Y1, Y2, st.impulse.set idx (Y0 + hpA1 fs * Y1 + hpR1 fs * Y2)⟩
  | none => none

/-- The body of `if (high_pass) { ... }`: `Y` is zeroed, then the loop runs over
`idx = 0 .. impulse_len - 1`. -/
def highPass (fs : ℝ) (impulse_len : ℤ) (impulse : List ℝ) : Option (List ℝ) :=
  ((forBelow impulse_len).foldlM (hpStep fs) ⟨0, 0, 0, impulse⟩).map (fun st => st.impulse)

/-! ## `comp_rir` -/

/-- The function `void comp_rir(...)`: the image method followed by the optional high-pass filter.
The result is the content of `impulse` after the call, `none` if an array access was out
of range. -/
def comp_rir (a : Args) (impulse : List ℝ) : Option (List ℝ) :=
  match imageMethod a impulse with
  | some impulse1 => if a.high_pass ≠ 0 then highPass a.fs a.impulse_len impulse1 else some impulse1
  | none => none

/-! ## Buffer accumulation -/

/-- The buffer transformer `f` succeeds on every buffer of length at least `N`, keeps the
length, and adds `c i` to the sample at index `i`. -/
def Adds (N : ℤ) (f : List ℝ → Option (List ℝ)) (c : ℕ → ℝ) : Prop :=
  ∀ buf : List ℝ, N ≤ (buf.length : ℤ) →
    ∃ out, f buf = some out ∧ out.length = buf.length ∧
      ∀ i, out.getD i 0 = buf.getD i 0 + c i

/-! ## Per-image quantities -/

/-- One mirror image: lattice index `(mx, my, mz)` and sign combination `(q, j, k)`. -/
structure Image where
  mx : ℤ
  my : ℤ
  mz : ℤ
  q : ℤ
  j : ℤ
  k : ℤ
deriving DecidableEq

/-- The direct-path image `mx = my = mz = 0`, `q = j = k = 0`. -/
def Image.direct : Image := ⟨0, 0, 0, 0, 0, 0⟩

/-- The value of `Rp_plus_Rm[0]` for an image. -/
def offX (a : Args) (img : Image) : ℝ :=
  (1 - 2 * (img.q : ℝ)) * (a.src_x / cTs a) - a.mic_x / cTs a
    + 2 * (img.mx : ℝ) * (a.size_x / cTs a)

/-- The value of `Rp_plus_Rm[1]` for an image. -/
def offY (a : Args) (img : Image) : ℝ :=
  (1 - 2 * (img.j : ℝ)) * (a.src_y / cTs a) - a.mic_y / cTs a
    + 2 * (img.my : ℝ) * (a.size_y / cTs a)

/-- The value of `Rp_plus_Rm[2]` for an image. -/
def offZ (a : Args) (img : Image) : ℝ :=
  (1 - 2 * (img.k : ℝ)) * (a.src_z / cTs a) - a.mic_z / cTs a
    + 2 * (img.mz : ℝ) * (a.size_z / cTs a)

/-- The value of `refl[0]` for an image. -/
def reflX (a : Args) (img : Image) : ℝ :=
  powAbs (a.beta_arr 0) (img.mx - img.q) * powAbs (a.beta_arr 1) img.mx

/-- The value of `refl[1]` for an image. -/
def reflY (a : Args) (img : Image) : ℝ :=
  powAbs (a.beta_arr 2) (img.my - img.j) * powAbs (a.beta_arr 3) img.my

/-- The value of `refl[2]` for an image. -/
def reflZ (a : Args) (img : Image) : ℝ :=
  powAbs (a.beta_arr 4) (img.mz - img.k) * powAbs (a.beta_arr 5) img.mz

/-- The value of `dist` for an image (in samples). -/
def imgDist (a : Args) (img : Image) : ℝ :=
  Real.sqrt (offX a img ^ 2 + offY a img ^ 2 + offZ a img ^ 2)

/-- The reflection order `abs(2*mx - q) + abs(2*my - j) + abs(2*mz - k)`. -/
def imgOrder (img : Image) : ℤ :=
  |2 * img.mx - img.q| + |2 * img.my - img.j| + |2 * img.mz - img.k|

/-- The reflection-order test of `comp_rir`. -/
def passesOrder (reflect_order : ℤ) (img : Image) : Prop :=
  imgOrder img ≤ reflect_order ∨ reflect_order = -1

instance (reflect_order : ℤ) (img : Image) : Decidable (passesOrder reflect_order img) := by
  unfold passesOrder
  infer_instance

/-- The image is injected: it passes the reflection-order test and `fdist < impulse_len`. -/
def injected (a : Args) (img : Image) : Prop :=
  passesOrder a.reflect_order img ∧ ((⌊imgDist a img⌋ : ℤ) : ℝ) < (a.impulse_len : ℝ)

instance (a : Args) (img : Image) : Decidable (injected a img) := by
  unfold injected
  infer_instance

/-- The value of `gain` for an image. -/
def imgGain (a : Args) (img : Image) : ℝ :=
  beam_ptr a.mic_type (offX a img) (offY a img) (offZ a img) a.mic_azimuth a.mic_elevation
    * reflX a img * reflY a img * reflZ a img / (4 * M_PI * imgDist a img * cTs a)

/-- The value of `startPosition` for an image. -/
def imgStart (a : Args) (img : Image) : ℤ :=
  ⌊imgDist a img⌋ - (Tw a.fs).tdiv 2 + 1

/-- The value stored in `LPI[t]` for an image, taken as `0` when `t` is outside `[0, Tw)`. -/
def imgTap (a : Args) (img : Image) (t : ℤ) : ℝ :=
  if 0 ≤ t ∧ t < Tw a.fs then
    (fillLPI (Tw a.fs) (imgDist a img) ((⌊imgDist a img⌋ : ℤ) : ℝ)).getD t.toNat 0
  else 0

/-- What an injected image adds to `impulse[i]`. -/
def pulse (a : Args) (img : Image) (i : ℕ) : ℝ :=
  if (i : ℤ) < a.impulse_len then imgGain a img * imgTap a img ((i : ℤ) - imgStart a img) else 0

/-- What one pass of the innermost loop body adds to `impulse[i]`. -/
def contribution (a : Args) (img : Image) (i : ℕ) : ℝ :=
  if injected a img then pulse a img i else 0

/-- The value of `n1`: `(int)ceil(impulse_len / (2 * L[0]))`. -/
def n1 (a : Args) : ℤ := toLong (⌈(a.impulse_len : ℝ) / (2 * (a.size_x / cTs a))⌉ : ℝ)

/-- The value of `n2`: `(int)ceil(impulse_len / (2 * L[1]))`. -/
def n2 (a : Args) : ℤ := toLong (⌈(a.impulse_len : ℝ) / (2 * (a.size_y / cTs a))⌉ : ℝ)

/-- The value of `n3`: `(int)ceil(impulse_len / (2 * L[2]))`. -/
def n3 (a : Args) : ℤ := toLong (⌈(a.impulse_len : ℝ) / (2 * (a.size_z / cTs a))⌉ : ℝ)

/-- The image with the given loop variables. -/
def Image.ofTuple (t : ℤ × ℤ × ℤ × ℤ × ℤ × ℤ) : Image :=
  ⟨t.1, t.2.1, t.2.2.1, t.2.2.2.1, t.2.2.2.2.1, t.2.2.2.2.2⟩

/-- The images the six loops enumerate: `mx ∈ [-n1, n1]`, `my ∈ [-n2, n2]`,
`mz ∈ [-n3, n3]`, `q, j, k ∈ [0, 1]`. -/
def latticeBox (a : Args) : Finset Image :=
  (Finset.Icc (-n1 a) (n1 a) ×ˢ Finset.Icc (-n2 a) (n2 a) ×ˢ Finset.Icc (-n3 a) (n3 a)
    ×ˢ Finset.Icc (0 : ℤ) 1 ×ˢ Finset.Icc (0 : ℤ) 1 ×ˢ Finset.Icc (0 : ℤ) 1).image Image.ofTuple

/-- The enumerated images that are injected into the buffer. -/
def imageSet (a : Args) : Finset Image := (latticeBox a).filter (fun img => injected a img)

/-- The innermost loop body for an image, with `Rp_plus_Rm` and `refl` as the enclosing
loops have set them. -/
def imageStep (a : Args) (img : Image) (impulse : List ℝ) : Option (List ℝ) :=
  imageBody a img.mx img.my img.mz img.q img.j img.k (offX a img) (offY a img) (offZ a img)
    (reflX a img) (reflY a img) (reflZ a img) impulse

/-- The scene is physically valid: positive sound speed, sample rate and room lengths. -/
def ValidRoom (a : Args) : Prop :=
  0 < a.sound_speed ∧ 0 < a.fs ∧ 0 < a.size_x ∧ 0 < a.size_y ∧ 0 < a.size_z

/-! ## Concrete scenes -/

/-- The scenario of the specification: room `(4, 3, 2)` m, microphone `(2, 1.5, 1)`, source
`(2.5, 1.5, 1)`, `sound_speed = 340`, `fs = 16000`, all coefficients `0`,
`reflect_order = 0`, omni microphone, `impulse_len = 4000`, `high_pass = 0`. -/
def scenario : Args where
  sound_speed := 340
  fs := 16000
  size_x := 4
  size_y := 3
  size_z := 2
  mic_x := 2
  mic_y := 1.5
  mic_z := 1
  src_x := 2.5
  src_y := 1.5
  src_z := 1
  beta_arr := fun _ => 0
  mic_azimuth := 0
  mic_elevation := 0
  impulse_len := 4000
  high_pass := 0
  mic_type := 'o'
  reflect_order := 0

/-- A scene whose direct path is exactly one sample long: `cTs = 500 / 250 = 2` m per
sample, source 2 m from the microphone along `x`, `Tw = 2`. -/
def unitDelay : Args where
  sound_speed := 500
  fs := 250
  size_x := 10
  size_y := 10
  size_z := 10
  mic_x := 2
  mic_y := 1
  mic_z := 1
  src_x := 4
  src_y := 1
  src_z := 1
  beta_arr := fun _ => 0
  mic_azimuth := 0
  mic_elevation := 0
  impulse_len := 4
  high_pass := 0
  mic_type := 'o'
  reflect_order := 0

/-! ## The high-pass filter against the recurrence of the specification -/

/-- The recurrence as the specification words it, from feedback state `(Y1, Y2)`: for each
input sample `X0`, `Y0 = B1·Y1 + B2·Y2 + X0`, output `Y0 + A1·Y1 + R1·Y2`, then `Y2 ← Y1`,
`Y1 ← Y0`; with `W = 2π·100/fs`, `R1 = exp(-W)`, `B1 = 2·R1·cos(W)`, `B2 = -R1²`,
`A1 = -(1 + R1)`. -/
def specFilter (fs : ℝ) : ℝ → ℝ → List ℝ → List ℝ
  | _, _, [] => []
  | Y1, Y2, X0 :: rest =>
      let W := 2 * Real.pi * 100 / fs
      let R1 := Real.exp (-W)
      let B1 := 2 * R1 * Real.cos W
      let B2 := -R1 ^ 2
      let A1 := -(1 + R1)
      let Y0 := B1 * Y1 + B2 * Y2 + X0
      (Y0 + A1 * Y1 + R1 * Y2) :: specFilter fs Y0 Y1 rest

/-! ## Variations of the arguments -/

/-- The arguments `a` with the microphone orientation replaced. -/
def withOrientation (a : Args) (azimuth elevation : ℝ) : Args :=
  { a with mic_azimuth := azimuth, mic_elevation := elevation }

/-- The gain as the specification words it: `BeamPattern(offset, orientation) * refl_x *
refl_y * refl_z / (4π * dist)` with `dist` in samples. -/
def gainPerSampleDistance (a : Args) (img : Image) : ℝ :=
  beam_ptr a.mic_type (offX a img) (offY a img) (offZ a img) a.mic_azimuth a.mic_elevation
    * reflX a img * reflY a img * reflZ a img / (4 * Real.pi * imgDist a img)

/-- The arguments `a` with `reflect_order` replaced by `k`. -/
def withOrder (a : Args) (k : ℤ) : Args := { a with reflect_order := k }

/-! ## Scene conditions -/

/-- The room lengths `L[0], L[1], L[2]` (in samples) are positive. -/
def PositiveLengths (a : Args) : Prop :=
  0 < a.size_x / cTs a ∧ 0 < a.size_y / cTs a ∧ 0 < a.size_z / cTs a

/-- In sample units (the arrays `s`, `r`, `L` of `comp_rir`), source and microphone
coordinates lie in `[0, L_axis]` on every axis. -/
def InRoom (a : Args) : Prop :=
  (0 ≤ a.src_x / cTs a ∧ a.src_x / cTs a ≤ a.size_x / cTs a) ∧
  (0 ≤ a.src_y / cTs a ∧ a.src_y / cTs a ≤ a.size_y / cTs a) ∧
  (0 ≤ a.src_z / cTs a ∧ a.src_z / cTs a ≤ a.size_z / cTs a) ∧
  (0 ≤ a.mic_x / cTs a ∧ a.mic_x / cTs a ≤ a.size_x / cTs a) ∧
  (0 ≤ a.mic_y / cTs a ∧ a.mic_y / cTs a ≤ a.size_y / cTs a) ∧
  (0 ≤ a.mic_z / cTs a ∧ a.mic_z / cTs a ≤ a.size_z / cTs a)

/-- In sample units, source and microphone lie strictly inside the room:
`0 < coordinate < L_axis` on every axis. -/
def StrictlyInRoom (a : Args) : Prop :=
  (0 < a.src_x / cTs a ∧ a.src_x / cTs a < a.size_x / cTs a) ∧
  (0 < a.src_y / cTs a ∧ a.src_y / cTs a < a.size_y / cTs a) ∧
  (0 < a.src_z / cTs a ∧ a.src_z / cTs a < a.size_z / cTs a) ∧
  (0 < a.mic_x / cTs a ∧ a.mic_x / cTs a < a.size_x / cTs a) ∧
  (0 < a.mic_y / cTs a ∧ a.mic_y / cTs a < a.size_y / cTs a) ∧
  (0 < a.mic_z / cTs a ∧ a.mic_z / cTs a < a.size_z / cTs a)

/-- The sign combination of the image is one the loops enumerate: `q, j, k ∈ {0, 1}`. -/
def Image.binarySigns (img : Image) : Prop :=
  (img.q = 0 ∨ img.q = 1) ∧ (img.j = 0 ∨ img.j = 1) ∧ (img.k = 0 ∨ img.k = 1)

/-- The arguments `a` with the microphone and source positions exchanged. -/
def swapPositions (a : Args) : Args :=
  { a with mic_x := a.src_x, mic_y := a.src_y, mic_z := a.src_z,
           src_x := a.mic_x, src_y := a.mic_y, src_z := a.mic_z }

/-- The map `(m, 0) ↦ (-m, 0)`, `(m, 1) ↦ (m, 1)` on the lattice index of one axis. -/
def flipIndex (m s : ℤ) : ℤ := if s = 0 then -m else m

/-- The map `(m, 0) ↦ (-m, 0)`, `(m, 1) ↦ (m, 1)` applied on each axis of an image. -/
def Image.flip (img : Image) : Image :=
  ⟨flipIndex img.mx img.q, flipIndex img.my img.j, flipIndex img.mz img.k,
    img.q, img.j, img.k⟩

/-! ## Binary64 arithmetic

The definitions above idealise `double` as `ℝ`.  The definitions of this part evaluate
fragments of `rir.c` the way the program does: every arithmetic operation and every
`math.h` call is followed by a rounding to binary64 (round to nearest, ties to even), and no
multiplication is fused with an addition.  The `math.h` functions are taken as correctly
rounded.  Overflow and subnormal numbers are not modelled; the values met below are in the
normal range. -/

/-- Rounding of a real to the nearest integer, ties to the even integer. -/
def roundEven (t : ℝ) : ℤ :=
  if t - (⌊t⌋ : ℝ) < 1 / 2 then ⌊t⌋
  else if 1 / 2 < t - (⌊t⌋ : ℝ) then ⌊t⌋ + 1
  else if Even ⌊t⌋ then ⌊t⌋ else ⌊t⌋ + 1

/-- The binary64 value of a real in the normal range: round to nearest, ties to even, with a
53-bit significand whose unit is `2 ^ (floor(log2 |x|) - 52)`. -/
def fl (x : ℝ) : ℝ :=
  if x = 0 then 0
  else (roundEven (x / (2 : ℝ) ^ (Int.log 2 |x| - 52)) : ℝ) * (2 : ℝ) ^ (Int.log 2 |x| - 52)

/-- The double that the literal `3.14159265358979323846` of `M_PI` denotes. -/
def M_PI_D : ℝ := fl 3.14159265358979323846

/-- The constant `cTs = sound_speed / fs` in binary64. -/
def cTsD (a : Args) : ℝ := fl (a.sound_speed / a.fs)

/-- The value of `Rp_plus_Rm` on one axis in binary64: `(1 - 2*q)*s - r + Rm` with
`s = src / cTs`, `r = mic / cTs`, `Rm = 2*m*L` and `L = size / cTs`. -/
def offsetD (c src mic size : ℝ) (m q : ℤ) : ℝ :=
  fl (fl (fl (((1 - 2 * q : ℤ) : ℝ) * fl (src / c)) - fl (mic / c))
    + fl (((2 * m : ℤ) : ℝ) * fl (size / c)))

/-- The value of `Rp_plus_Rm[0]` in binary64. -/
def offXD (a : Args) (img : Image) : ℝ :=
  offsetD (cTsD a) a.src_x a.mic_x a.size_x img.mx img.q

/-- The value of `Rp_plus_Rm[1]` in binary64. -/
def offYD (a : Args) (img : Image) : ℝ :=
  offsetD (cTsD a) a.src_y a.mic_y a.size_y img.my img.j

/-- The value of `Rp_plus_Rm[2]` in binary64. -/
def offZD (a : Args) (img : Image) : ℝ :=
  offsetD (cTsD a) a.src_z a.mic_z a.size_z img.mz img.k

/-- The value of `dist = sqrt(pow(x, 2) + pow(y, 2) + pow(z, 2))` in binary64. -/
def distD (a : Args) (img : Image) : ℝ :=
  fl (Real.sqrt (fl (fl (fl (offXD a img ^ 2) + fl (offYD a img ^ 2)) + fl (offZD a img ^ 2))))

/-- The divisor `4 * M_PI * dist * cTs` of the gain in binary64. -/
def gainDivisorD (a : Args) (img : Image) : ℝ :=
  fl (fl (fl (4 * M_PI_D) * distD a img) * cTsD a)

/-- The divisor `sqrt(x * x + y * y + z * z)` of `z / R` in `dipole`, in binary64. -/
def radiusD (x y z : ℝ) : ℝ :=
  fl (Real.sqrt (fl (fl (fl (x * x) + fl (y * y)) + fl (z * z))))

/-- The room of the scenario with the source at `x = 1.6` and the microphone at
`x = 1.6000000000000003` (the next double), both at `y = 1.5`, `z = 1`. -/
def nearby : Args where
  sound_speed := 340
  fs := 16000
  size_x := 4
  size_y := 3
  size_z := 2
  mic_x := 7205759403792795 / 4503599627370496
  mic_y := 1.5
  mic_z := 1
  src_x := 3602879701896397 / 2251799813685248
  src_y := 1.5
  src_z := 1
  beta_arr := fun _ => 0
  mic_azimuth := 0
  mic_elevation := 0
  impulse_len := 4000
  high_pass := 0
  mic_type := 'o'
  reflect_order := 0

/-- The constant `W = 2 * M_PI * 100 / fs` of the filter in binary64. -/
def hpWD (fs : ℝ) : ℝ := fl (fl (fl (2 * M_PI_D) * 100) / fs)

/-- The constant `R1 = exp(-W)` of the filter in binary64. -/
def hpR1D (fs : ℝ) : ℝ := fl (Real.exp (-(hpWD fs)))

/-- The constant `A1 = -(1 + R1)` of the filter in binary64. -/
def hpA1D (fs : ℝ) : ℝ := -(fl (1 + hpR1D fs))

/-- The sample `Y[0] + A1 * Y[1] + R1 * Y[2]` that the filter loop writes, in binary64. -/
def writtenD (fs y0 y1 y2 : ℝ) : ℝ :=
  fl (fl (y0 + fl (hpA1D fs * y1)) + fl (hpR1D fs * y2))

/-- The macro `ROUND(x)` in binary64: the sum `x + 0.5` (or `x - 0.5`) is rounded before the
conversion to `long`. -/
def ROUND_D (x : ℝ) : ℤ := if x ≥ 0 then toLong (fl (x + 0.5)) else toLong (fl (x - 0.5))

/-- The constant `Tw = 2 * ROUND(0.004*fs)` in binary64. -/
def TwD (fs : ℝ) : ℤ := 2 * ROUND_D (fl (fl 0.004 * fs))

/-- The function `sinc` in binary64. -/
def sincD (x : ℝ) : ℝ := if x = 0 then 1 else fl (fl (Real.sin x) / x)

/-- The value stored in `LPI[n]` in binary64:
`0.5 * (1 - cos(2*M_PI*((n+1-(dist-fdist))/Tw))) * Fc * sinc(M_PI*Fc*(n+1-(dist-fdist)-(0.5*Tw)))`. -/
def lpiTapD (Tw : ℤ) (dist fdist : ℝ) (n : ℕ) : ℝ :=
  fl (fl (fl (0.5 * fl (1 - fl (Real.cos (fl (fl (2 * M_PI_D)
          * fl (fl ((((n : ℤ) + 1 : ℤ) : ℝ) - fl (dist - fdist)) / (Tw : ℝ))))))) * Fc)
    * sincD (fl (fl (M_PI_D * Fc)
        * fl (fl ((((n : ℤ) + 1 : ℤ) : ℝ) - fl (dist - fdist)) - fl (0.5 * (Tw : ℝ))))))

/-- The value of `refl` on one axis in binary64: `pow(b0, abs(m - q)) * pow(b1, abs(m))`. -/
def reflD (b0 b1 : ℝ) (m q : ℤ) : ℝ :=
  fl (fl (b0 ^ (m - q).natAbs) * fl (b1 ^ m.natAbs))

/-- The value of `gain` in binary64 for a microphone type that selects `omni`:
`omni(...) * refl[0] * refl[1] * refl[2] / (4 * M_PI * dist * cTs)`. -/
def omniGainD (a : Args) (img : Image) : ℝ :=
  fl (fl (fl (fl (omni (offXD a img) (offYD a img) (offZD a img) a.mic_azimuth a.mic_elevation
          * reflD (a.beta_arr 0) (a.beta_arr 1) img.mx img.q)
        * reflD (a.beta_arr 2) (a.beta_arr 3) img.my img.j)
      * reflD (a.beta_arr 4) (a.beta_arr 5) img.mz img.k)
    / gainDivisorD a img)

/-- The statement `impulse[i] += gain * LPI[n]` in binary64: the new value of the sample. -/
def addTapD (old gain tap : ℝ) : ℝ := fl (old + fl (gain * tap))

/-- A scene with `cTs = 1000 / 1000 = 1`, `Tw = 8` and the source 4 m, that is 4 samples,
from the microphone along `x`. -/
def fourDelay : Args where
  sound_speed := 1000
  fs := 1000
  size_x := 10
  size_y := 10
  size_z := 10
  mic_x := 1
  mic_y := 1
  mic_z := 1
  src_x := 5
  src_y := 1
  src_z := 1
  beta_arr := fun _ => 0
  mic_azimuth := 0
  mic_elevation := 0
  impulse_len := 16
  high_pass := 0
  mic_type := 'o'
  reflect_order := 0

/-- Partial sum of the cosine series: `sum_{k < n} (-1)^k x^(2k) / (2k)!`. -/
def cosT (x : ℝ) (n : ℕ) : ℝ :=
  Finset.sum (Finset.range n) fun (k : ℕ) => (-1) ^ k * x ^ (2 * k) / ((2 * k).factorial : ℝ)

/-- Partial sum of the sine series: `sum_{k < n} (-1)^k x^(2k+1) / (2k+1)!`. -/
def sinT (x : ℝ) (n : ℕ) : ℝ :=
  Finset.sum (Finset.range n) fun (k : ℕ) => (-1) ^ k * x ^ (2 * k + 1) / ((2 * k + 1).factorial : ℝ)

/-- The function `dipole` in binary64: each operation and each `math.h` call is rounded. -/
def dipoleD (x y z angle1 angle2 : ℝ) : ℝ :=
  let theta := fl (Real.arccos (fl (z / radiusD x y z)))
  let phi := fl (atan2 y x)
  fl (fl (fl (fl (Real.sin (fl (fl (0.5 * M_PI_D) - angle2))) * fl (Real.sin theta))
          * fl (Real.cos (fl (angle1 - phi))))
      + fl (fl (Real.cos (fl (fl (0.5 * M_PI_D) - angle2))) * fl (Real.cos theta)))

/-- The function `hypercardioid` in binary64. -/
def hypercardioidD (x y z angle1 angle2 : ℝ) : ℝ :=
  let gain := dipoleD x y z angle1 angle2
  fl (0.25 + fl (0.75 * gain))

/-! # Theorems -/

/-! ## Buffer accumulation lemmas -/

theorem adds_some (N : ℤ) : Adds N (fun b => some b) (fun _ => 0) := by
  intro buf _
  exact ⟨buf, rfl, rfl, fun i => by simp⟩

theorem adds_congr {N : ℤ} {f : List ℝ → Option (List ℝ)} {c c' : ℕ → ℝ}
    (h : Adds N f c) (hc : ∀ i, c i = c' i) : Adds N f c' := by
  intro buf hb
  obtain ⟨out, h1, h2, h3⟩ := h buf hb
  exact ⟨out, h1, h2, fun i => by rw [h3 i, hc i]⟩

theorem adds_foldlM {β : Type} (N : ℤ) (step : List ℝ → β → Option (List ℝ))
    (c : β → ℕ → ℝ) (l : List β)
    (h : ∀ x ∈ l, Adds N (fun b => step b x) (c x)) :
    Adds N (fun b => l.foldlM step b) (fun i => (l.map (fun x => c x i)).sum) := by
  induction l with
  | nil =>
    intro buf _
    exact ⟨buf, rfl, rfl, fun i => by simp⟩
  | cons x l ih =>
    intro buf hb
    obtain ⟨b1, h1, h2, h3⟩ := h x (List.mem_cons_self x l) buf hb
    have ih' := ih (fun y hy => h y (List.mem_cons_of_mem x hy))
    obtain ⟨out, g1, g2, g3⟩ := ih' b1 (by rw [h2]; exact hb)
    refine ⟨out, ?_, by rw [g2, h2], fun i => ?_⟩
    · simp only [List.foldlM_cons]
      simp only at h1 g1
      rw [h1]
      exact g1
    · rw [g3 i, h3 i]
      simp only [List.map_cons, List.sum_cons]
      ring

theorem getD_set_self_add (buf : List ℝ) (m : ℕ) (hm : m < buf.length) (v : ℝ) (i : ℕ) :
    (buf.set m (buf[m] + v)).getD i 0 = buf.getD i 0 + (if i = m then v else 0) := by
  by_cases h : i = m
  · subst h
    simp [List.getD_eq_getElem?_getD, List.getElem?_set, hm]
  · have h' : m ≠ i := fun e => h e.symm
    simp [List.getD_eq_getElem?_getD, List.getElem?_set, h, h']

theorem addTap_adds (N start : ℤ) (gain : ℝ) (LPI : List ℝ) (n : ℕ) (hn : n < LPI.length) :
    Adds N (fun b => addTap N start gain LPI b n)
      (fun i => if start + (n : ℤ) ≥ 0 ∧ start + (n : ℤ) < N ∧ (i : ℤ) = start + (n : ℤ)
        then gain * LPI.getD n 0 else 0) := by
  intro buf hb
  unfold addTap
  dsimp only
  by_cases hc : start + (n : ℤ) ≥ 0 ∧ start + (n : ℤ) < N
  · have hm : (start + (n : ℤ)).toNat < buf.length := by omega
    rw [if_pos hc]
    have e1 : LPI[n]? = some LPI[n] := List.getElem?_eq_getElem hn
    have e2 : buf[(start + (n : ℤ)).toNat]? = some buf[(start + (n : ℤ)).toNat] :=
      List.getElem?_eq_getElem hm
    rw [e1, e2]
    refine ⟨_, rfl, by simp, fun i => ?_⟩
    rw [getD_set_self_add buf _ hm]
    congr 1
    have e3 : LPI.getD n 0 = LPI[n] := by
      simp [List.getD_eq_getElem?_getD, hn]
    rw [e3]
    by_cases hi : i = (start + (n : ℤ)).toNat
    · have : (i : ℤ) = start + (n : ℤ) := by omega
      simp [hi, hc.1, hc.2]
    · have : ¬ (i : ℤ) = start + (n : ℤ) := by omega
      simp [hi, this]
  · rw [if_neg hc]
    refine ⟨buf, rfl, rfl, fun i => ?_⟩
    have : ¬ (start + (n : ℤ) ≥ 0 ∧ start + (n : ℤ) < N ∧ (i : ℤ) = start + (n : ℤ)) := by
      intro h; exact hc ⟨h.1, h.2.1⟩
    simp [this]

theorem toLong_intCast (n : ℤ) : toLong (n : ℝ) = n := by
  unfold toLong
  split <;> simp

theorem fillLPI_length (T : ℤ) (d f : ℝ) : (fillLPI T d f).length = T.toNat := by
  simp [fillLPI, forBelow]

theorem sum_range_shift (T : ℕ) (start : ℤ) (i : ℕ) (g : ℕ → ℝ) :
    ((List.range T).map (fun (n : ℕ) => if (i : ℤ) = start + (n : ℤ) then g n else 0)).sum
      = if start ≤ (i : ℤ) ∧ (i : ℤ) - start < (T : ℤ) then g ((i : ℤ) - start).toNat else 0 := by
  induction T with
  | zero =>
    have : ¬ (start ≤ (i : ℤ) ∧ (i : ℤ) - start < ((0 : ℕ) : ℤ)) := by
      intro h; have := h.1; have := h.2; omega
    rw [if_neg this]
    simp
  | succ T ih =>
    rw [List.range_succ, List.map_append, List.sum_append, ih]
    simp only [List.map_cons, List.map_nil, List.sum_cons, List.sum_nil, add_zero]
    by_cases h1 : (i : ℤ) = start + (T : ℤ)
    · have e : ((i : ℤ) - start).toNat = T := by omega
      have h2 : ¬ (start ≤ (i : ℤ) ∧ (i : ℤ) - start < (T : ℤ)) := by
        intro h; have := h.2; omega
      have h3 : start ≤ (i : ℤ) ∧ (i : ℤ) - start < ((T + 1 : ℕ) : ℤ) := by
        constructor <;> push_cast <;> omega
      rw [if_neg h2, if_pos h1, if_pos h3, e, zero_add]
    · rw [if_neg h1, add_zero]
      by_cases h2 : start ≤ (i : ℤ) ∧ (i : ℤ) - start < (T : ℤ)
      · have h3 : start ≤ (i : ℤ) ∧ (i : ℤ) - start < ((T + 1 : ℕ) : ℤ) := by
          constructor
          · exact h2.1
          · have := h2.2; push_cast; omega
        rw [if_pos h2, if_pos h3]
      · have h3 : ¬ (start ≤ (i : ℤ) ∧ (i : ℤ) - start < ((T + 1 : ℕ) : ℤ)) := by
          intro h
          apply h2
          refine ⟨h.1, ?_⟩
          have := h.2
          push_cast at this
          omega
        rw [if_neg h2, if_neg h3]

theorem sum_taps (T : ℕ) (N start : ℤ) (i : ℕ) (g : ℕ → ℝ) :
    ((List.range T).map (fun (n : ℕ) =>
        if start + (n : ℤ) ≥ 0 ∧ start + (n : ℤ) < N ∧ (i : ℤ) = start + (n : ℤ)
          then g n else 0)).sum
      = if (i : ℤ) < N then
          (if 0 ≤ (i : ℤ) - start ∧ (i : ℤ) - start < (T : ℤ)
            then g ((i : ℤ) - start).toNat else 0)
        else 0 := by
  have e : (fun (n : ℕ) =>
        if start + (n : ℤ) ≥ 0 ∧ start + (n : ℤ) < N ∧ (i : ℤ) = start + (n : ℤ)
          then g n else 0)
      = (fun (n : ℕ) => if (i : ℤ) = start + (n : ℤ)
          then (fun m => if (i : ℤ) < N then g m else 0) n else 0) := by
    funext n
    by_cases h1 : (i : ℤ) = start + (n : ℤ)
    · by_cases h2 : (i : ℤ) < N
      · have h3 : start + (n : ℤ) ≥ 0 ∧ start + (n : ℤ) < N ∧ (i : ℤ) = start + (n : ℤ) := by
          refine ⟨by omega, by omega, h1⟩
        rw [if_pos h3, if_pos h1]
        simp [h2]
      · have h3 : ¬ (start + (n : ℤ) ≥ 0 ∧ start + (n : ℤ) < N
            ∧ (i : ℤ) = start + (n : ℤ)) := by
          intro h; have := h.2.1; omega
        rw [if_neg h3, if_pos h1]
        simp [h2]
    · have h3 : ¬ (start + (n : ℤ) ≥ 0 ∧ start + (n : ℤ) < N
          ∧ (i : ℤ) = start + (n : ℤ)) := fun h => h1 h.2.2
      rw [if_neg h3, if_neg h1]
  rw [e, sum_range_shift]
  by_cases h2 : (i : ℤ) < N
  · simp only [if_pos h2]
    have hiff : (start ≤ (i : ℤ) ∧ (i : ℤ) - start < (T : ℤ))
        ↔ (0 ≤ (i : ℤ) - start ∧ (i : ℤ) - start < (T : ℤ)) := by
      constructor <;> intro h <;> exact ⟨by have := h.1; omega, h.2⟩
    simp only [hiff]
  · simp only [if_neg h2]
    simp

theorem imageStep_adds (a : Args) (img : Image) :
    Adds a.impulse_len (imageStep a img) (contribution a img) := by
  unfold imageStep imageBody
  dsimp only
  by_cases hp : |2 * img.mx - img.q| + |2 * img.my - img.j| + |2 * img.mz - img.k|
      ≤ a.reflect_order ∨ a.reflect_order = -1
  · by_cases hf : ((⌊Real.sqrt (offX a img ^ 2 + offY a img ^ 2 + offZ a img ^ 2)⌋ : ℤ) : ℝ)
        < (a.impulse_len : ℝ)
    · have hinj : injected a img := ⟨hp, hf⟩
      simp only [if_pos hp, if_pos hf]
      refine adds_congr (adds_foldlM a.impulse_len _ _ _ (fun n hn => addTap_adds _ _ _ _ n ?_)) ?_
      · rw [fillLPI_length]
        simpa [forBelow] using hn
      · intro i
        simp only [contribution, if_pos hinj, pulse, forBelow, toLong_intCast]
        rw [sum_taps]
        unfold imgGain imgTap imgStart imgDist
        have hT : ∀ t : ℤ, (0 ≤ t ∧ t < (((Tw a.fs).toNat : ℕ) : ℤ)) ↔ (0 ≤ t ∧ t < Tw a.fs) := by
          intro t; omega
        simp only [hT, mul_ite, mul_zero]
    · have hinj : ¬ injected a img := fun h => hf h.2
      simp only [if_pos hp, if_neg hf]
      exact adds_congr (adds_some _) (fun i => by simp [contribution, hinj])
  · have hinj : ¬ injected a img := fun h => hp h.1
    simp only [if_neg hp]
    exact adds_congr (adds_some _) (fun i => by simp [contribution, hinj])

/-! ## The nested loops -/

theorem mem_forIncl (lo hi m : ℤ) : m ∈ forIncl lo hi ↔ lo ≤ m ∧ m ≤ hi := by
  unfold forIncl
  simp only [List.mem_map, List.mem_range]
  constructor
  · rintro ⟨t, ht, rfl⟩
    omega
  · intro h
    exact ⟨(m - lo).toNat, by omega, by omega⟩

theorem nodup_forIncl (lo hi : ℤ) : (forIncl lo hi).Nodup := by
  unfold forIncl
  refine List.Nodup.map ?_ (List.nodup_range _)
  intro x y h
  simpa using h

theorem sum_forIncl (lo hi : ℤ) (f : ℤ → ℝ) :
    ((forIncl lo hi).map f).sum = ∑ m ∈ Finset.Icc lo hi, f m := by
  rw [← List.sum_toFinset f (nodup_forIncl lo hi)]
  congr 1
  ext m
  simp [mem_forIncl]

theorem adds_forIncl (N lo hi : ℤ) (step : List ℝ → ℤ → Option (List ℝ)) (c : ℤ → ℕ → ℝ)
    (h : ∀ m, Adds N (fun b => step b m) (c m)) :
    Adds N (fun b => (forIncl lo hi).foldlM step b)
      (fun i => ∑ m ∈ Finset.Icc lo hi, c m i) :=
  adds_congr (adds_foldlM N step c (forIncl lo hi) (fun m _ => h m))
    (fun i => sum_forIncl lo hi (fun m => c m i))

theorem imageMethod_adds_nested (a : Args) :
    Adds a.impulse_len (imageMethod a) (fun i =>
      ∑ mx ∈ Finset.Icc (-n1 a) (n1 a), ∑ my ∈ Finset.Icc (-n2 a) (n2 a),
        ∑ mz ∈ Finset.Icc (-n3 a) (n3 a), ∑ q ∈ Finset.Icc (0 : ℤ) 1,
          ∑ j ∈ Finset.Icc (0 : ℤ) 1, ∑ k ∈ Finset.Icc (0 : ℤ) 1,
            contribution a ⟨mx, my, mz, q, j, k⟩ i) := by
  unfold imageMethod
  exact adds_forIncl _ _ _ _ _ (fun mx =>
    adds_forIncl _ _ _ _ _ (fun my =>
      adds_forIncl _ _ _ _ _ (fun mz =>
        adds_forIncl _ _ _ _ _ (fun q =>
          adds_forIncl _ _ _ _ _ (fun j =>
            adds_forIncl _ _ _ _ _ (fun k =>
              imageStep_adds a ⟨mx, my, mz, q, j, k⟩))))))

theorem ofTuple_injective : Function.Injective Image.ofTuple := by
  rintro ⟨a1, a2, a3, a4, a5, a6⟩ ⟨b1, b2, b3, b4, b5, b6⟩ h
  simp only [Image.ofTuple, Image.mk.injEq] at h
  obtain ⟨h1, h2, h3, h4, h5, h6⟩ := h
  subst h1 h2 h3 h4 h5 h6
  rfl

theorem sum_latticeBox (a : Args) (f : Image → ℝ) :
    ∑ img ∈ latticeBox a, f img =
      ∑ mx ∈ Finset.Icc (-n1 a) (n1 a), ∑ my ∈ Finset.Icc (-n2 a) (n2 a),
        ∑ mz ∈ Finset.Icc (-n3 a) (n3 a), ∑ q ∈ Finset.Icc (0 : ℤ) 1,
          ∑ j ∈ Finset.Icc (0 : ℤ) 1, ∑ k ∈ Finset.Icc (0 : ℤ) 1,
            f ⟨mx, my, mz, q, j, k⟩ := by
  unfold latticeBox
  rw [Finset.sum_image (fun x _ y _ h => ofTuple_injective h)]
  simp only [Finset.sum_product, Image.ofTuple]

theorem mem_latticeBox (a : Args) (img : Image) :
    img ∈ latticeBox a ↔
      |img.mx| ≤ n1 a ∧ |img.my| ≤ n2 a ∧ |img.mz| ≤ n3 a ∧
        (img.q = 0 ∨ img.q = 1) ∧ (img.j = 0 ∨ img.j = 1) ∧ (img.k = 0 ∨ img.k = 1) := by
  unfold latticeBox
  simp only [Finset.mem_image, Finset.mem_product, Finset.mem_Icc, abs_le]
  constructor
  · rintro ⟨⟨t1, t2, t3, t4, t5, t6⟩, h, rfl⟩
    simp only [Image.ofTuple] at h ⊢
    refine ⟨h.1, h.2.1, h.2.2.1, ?_, ?_, ?_⟩ <;> omega
  · intro h
    refine ⟨(img.mx, img.my, img.mz, img.q, img.j, img.k), ?_, rfl⟩
    simp only
    refine ⟨h.1, h.2.1, h.2.2.1, ?_, ?_, ?_⟩ <;> omega

theorem mem_imageSet (a : Args) (img : Image) :
    img ∈ imageSet a ↔ img ∈ latticeBox a ∧ injected a img := by
  simp [imageSet]

theorem imageMethod_adds (a : Args) :
    Adds a.impulse_len (imageMethod a) (fun i => ∑ img ∈ imageSet a, pulse a img i) := by
  refine adds_congr (imageMethod_adds_nested a) (fun i => ?_)
  rw [← sum_latticeBox a (fun img => contribution a img i)]
  unfold imageSet contribution
  rw [Finset.sum_filter]

theorem getD_replicate_zero (N i : ℕ) : (List.replicate N (0 : ℝ)).getD i 0 = 0 := by
  by_cases h : i < N
  · simp [List.getD_eq_getElem?_getD, List.getElem?_replicate, h]
  · simp [List.getD_eq_getElem?_getD, List.getElem?_replicate, h]

theorem ext_getD (l1 l2 : List ℝ) (hl : l1.length = l2.length)
    (h : ∀ i, l1.getD i 0 = l2.getD i 0) : l1 = l2 := by
  apply List.ext_getElem hl
  intro i h1 h2
  have := h i
  simpa [List.getD_eq_getElem?_getD, h1, h2] using this

theorem comp_rir_no_filter (a : Args) (hp : a.high_pass = 0) (buf : List ℝ) :
    comp_rir a buf = imageMethod a buf := by
  unfold comp_rir
  cases imageMethod a buf with
  | none => rfl
  | some o => simp [hp]

/-- The per-sample form of the output of `comp_rir` without filter on a zeroed buffer. -/
theorem comp_rir_zero_buffer (a : Args) (N : ℕ) (hN : a.impulse_len = (N : ℤ))
    (hp : a.high_pass = 0) :
    ∃ out, comp_rir a (List.replicate N 0) = some out ∧ out.length = N ∧
      ∀ i, out.getD i 0 = ∑ img ∈ imageSet a, pulse a img i := by
  obtain ⟨out, h1, h2, h3⟩ := imageMethod_adds a (List.replicate N 0) (by simp [hN])
  refine ⟨out, by rw [comp_rir_no_filter a hp]; exact h1, by simpa using h2, fun i => ?_⟩
  rw [h3 i, getD_replicate_zero, zero_add]

theorem pulse_of_lt (a : Args) (img : Image) (i : ℕ) (h : (i : ℤ) < a.impulse_len) :
    pulse a img i = imgGain a img * imgTap a img ((i : ℤ) - imgStart a img) := by
  simp [pulse, h]

/-! ## The direct path and the reflection order -/

theorem image_eq_direct_iff (img : Image) :
    img = Image.direct ↔
      img.mx = 0 ∧ img.my = 0 ∧ img.mz = 0 ∧ img.q = 0 ∧ img.j = 0 ∧ img.k = 0 := by
  cases img
  simp [Image.direct]

theorem imgOrder_nonneg (img : Image) : 0 ≤ imgOrder img := by
  unfold imgOrder
  positivity

theorem axis_order_zero (m s : ℤ) (hs : s = 0 ∨ s = 1) : |2 * m - s| = 0 ↔ m = 0 ∧ s = 0 := by
  rw [abs_eq_zero]
  omega

theorem imgOrder_le_zero_iff (img : Image) (hq : img.q = 0 ∨ img.q = 1)
    (hj : img.j = 0 ∨ img.j = 1) (hk : img.k = 0 ∨ img.k = 1) :
    imgOrder img ≤ 0 ↔ img = Image.direct := by
  rw [image_eq_direct_iff]
  unfold imgOrder
  have hx := axis_order_zero img.mx img.q hq
  have hy := axis_order_zero img.my img.j hj
  have hz := axis_order_zero img.mz img.k hk
  have px := abs_nonneg (2 * img.mx - img.q)
  have py := abs_nonneg (2 * img.my - img.j)
  have pz := abs_nonneg (2 * img.mz - img.k)
  constructor
  · intro h
    have ex : |2 * img.mx - img.q| = 0 := by omega
    have ey : |2 * img.my - img.j| = 0 := by omega
    have ez : |2 * img.mz - img.k| = 0 := by omega
    have := hx.1 ex
    have := hy.1 ey
    have := hz.1 ez
    tauto
  · intro h
    have ex := hx.2 ⟨h.1, h.2.2.2.1⟩
    have ey := hy.2 ⟨h.2.1, h.2.2.2.2.1⟩
    have ez := hz.2 ⟨h.2.2.1, h.2.2.2.2.2⟩
    omega

theorem toLong_nonneg_of_nonneg (x : ℝ) (h : 0 ≤ x) : 0 ≤ toLong x := by
  unfold toLong
  rw [if_pos h]
  exact Int.floor_nonneg.mpr h

theorem halfExtent_nonneg (N L : ℝ) (hN : 0 ≤ N) (hL : 0 < L) :
    0 ≤ toLong ((⌈N / (2 * L)⌉ : ℤ) : ℝ) := by
  apply toLong_nonneg_of_nonneg
  have h1 : 0 ≤ N / (2 * L) := by positivity
  have h2 : (0 : ℤ) ≤ ⌈N / (2 * L)⌉ := Int.ceil_nonneg h1
  exact_mod_cast h2

theorem cTs_pos (a : Args) (h : ValidRoom a) : 0 < cTs a := div_pos h.1 h.2.1

theorem direct_mem_latticeBox (a : Args) (h : ValidRoom a) (hN : 0 ≤ a.impulse_len) :
    Image.direct ∈ latticeBox a := by
  have hc := cTs_pos a h
  have hNr : (0 : ℝ) ≤ (a.impulse_len : ℝ) := by exact_mod_cast hN
  rw [mem_latticeBox]
  have e1 : 0 ≤ n1 a := halfExtent_nonneg _ _ hNr (div_pos h.2.2.1 hc)
  have e2 : 0 ≤ n2 a := halfExtent_nonneg _ _ hNr (div_pos h.2.2.2.1 hc)
  have e3 : 0 ≤ n3 a := halfExtent_nonneg _ _ hNr (div_pos h.2.2.2.2 hc)
  simp [Image.direct, e1, e2, e3]

theorem imageSet_order_zero (a : Args) (hr : a.reflect_order = 0) (img : Image)
    (h : img ∈ imageSet a) : img = Image.direct := by
  rw [mem_imageSet, mem_latticeBox] at h
  obtain ⟨⟨_, _, _, hq, hj, hk⟩, ho, _⟩ := h
  unfold passesOrder at ho
  rw [hr] at ho
  rcases ho with ho | ho
  · exact (imgOrder_le_zero_iff img hq hj hk).1 ho
  · omega

theorem sum_imageSet_order_zero (a : Args) (hr : a.reflect_order = 0)
    (hd : Image.direct ∈ latticeBox a) (i : ℕ) :
    ∑ img ∈ imageSet a, pulse a img i = contribution a Image.direct i := by
  unfold contribution
  by_cases hi : injected a Image.direct
  · have e : imageSet a = {Image.direct} := by
      ext img
      rw [Finset.mem_singleton]
      constructor
      · exact imageSet_order_zero a hr img
      · rintro rfl
        exact (mem_imageSet a _).2 ⟨hd, hi⟩
    rw [e, Finset.sum_singleton, if_pos hi]
  · have e : imageSet a = ∅ := by
      ext img
      simp only [Finset.not_mem_empty, iff_false]
      intro h
      have := imageSet_order_zero a hr img h
      subst this
      exact hi ((mem_imageSet a _).1 h).2
    rw [e, Finset.sum_empty, if_neg hi]

theorem powAbs_zero (e : ℤ) : powAbs 0 e = if e = 0 then 1 else 0 := by
  unfold powAbs
  rw [zero_pow_eq]
  simp

theorem refl_axis_zero (m s : ℤ) :
    powAbs 0 (m - s) * powAbs 0 m = if m = 0 ∧ s = 0 then 1 else 0 := by
  rw [powAbs_zero, powAbs_zero]
  by_cases h1 : m = 0
  · by_cases h2 : s = 0
    · simp [h1, h2]
    · have : ¬ (m - s = 0) := by omega
      simp [h1, h2, this]
  · simp [h1]

theorem toLong_of_floor (x : ℝ) (z : ℤ) (h0 : 0 ≤ x) (h1 : (z : ℝ) ≤ x) (h2 : x < (z : ℝ) + 1) :
    toLong x = z := by
  unfold toLong
  rw [if_pos h0]
  exact Int.floor_eq_iff.2 ⟨h1, h2⟩

theorem scenario_valid : ValidRoom scenario := by
  unfold ValidRoom scenario
  norm_num

theorem unitDelay_valid : ValidRoom unitDelay := by
  unfold ValidRoom unitDelay
  norm_num

theorem scenario_Tw : Tw scenario.fs = 128 := by
  have h : ROUND (0.004 * scenario.fs) = 64 := by
    unfold ROUND scenario
    have e : (0.004 : ℝ) * 16000 = 64 := by norm_num
    simp only [e]
    rw [if_pos (by norm_num)]
    exact toLong_of_floor _ 64 (by norm_num) (by norm_num) (by norm_num)
  unfold Tw
  rw [h]
  rfl

theorem unitDelay_Tw : Tw unitDelay.fs = 2 := by
  have h : ROUND (0.004 * unitDelay.fs) = 1 := by
    unfold ROUND unitDelay
    have e : (0.004 : ℝ) * 250 = 1 := by norm_num
    simp only [e]
    rw [if_pos (by norm_num)]
    exact toLong_of_floor _ 1 (by norm_num) (by norm_num) (by norm_num)
  unfold Tw
  rw [h]
  rfl

theorem scenario_dist : imgDist scenario Image.direct = 400 / 17 := by
  have hx : offX scenario Image.direct = 400 / 17 := by
    unfold offX cTs scenario Image.direct
    norm_num
  have hy : offY scenario Image.direct = 0 := by
    unfold offY cTs scenario Image.direct
    norm_num
  have hz : offZ scenario Image.direct = 0 := by
    unfold offZ cTs scenario Image.direct
    norm_num
  unfold imgDist
  rw [hx, hy, hz]
  have e : ((400 : ℝ) / 17) ^ 2 + 0 ^ 2 + 0 ^ 2 = (400 / 17) ^ 2 := by norm_num
  rw [e]
  exact Real.sqrt_sq (by norm_num)

theorem unitDelay_dist : imgDist unitDelay Image.direct = 1 := by
  have hx : offX unitDelay Image.direct = 1 := by
    unfold offX cTs unitDelay Image.direct
    norm_num
  have hy : offY unitDelay Image.direct = 0 := by
    unfold offY cTs unitDelay Image.direct
    norm_num
  have hz : offZ unitDelay Image.direct = 0 := by
    unfold offZ cTs unitDelay Image.direct
    norm_num
  unfold imgDist
  rw [hx, hy, hz]
  norm_num

theorem scenario_floor : ⌊imgDist scenario Image.direct⌋ = 23 := by
  rw [scenario_dist]
  exact Int.floor_eq_iff.2 ⟨by norm_num, by norm_num⟩

theorem unitDelay_floor : ⌊imgDist unitDelay Image.direct⌋ = 1 := by
  rw [unitDelay_dist]
  exact Int.floor_eq_iff.2 ⟨by norm_num, by norm_num⟩

theorem beam_ptr_other (c : Char) (hd : c ≠ 'd') (hc : c ≠ 'c') (hs : c ≠ 's') (hh : c ≠ 'h') :
    beam_ptr c = omni := by
  unfold beam_ptr
  rw [if_neg hd, if_neg hc, if_neg hs, if_neg hh]

theorem direct_passes_zero : passesOrder 0 Image.direct := by
  left
  simp [imgOrder, Image.direct]

theorem scenario_injected : injected scenario Image.direct := by
  refine ⟨direct_passes_zero, ?_⟩
  rw [scenario_floor]
  unfold scenario
  norm_num

theorem unitDelay_injected : injected unitDelay Image.direct := by
  refine ⟨direct_passes_zero, ?_⟩
  rw [unitDelay_floor]
  unfold unitDelay
  norm_num

theorem direct_refl_one (a : Args) :
    reflX a Image.direct = 1 ∧ reflY a Image.direct = 1 ∧ reflZ a Image.direct = 1 := by
  simp [reflX, reflY, reflZ, powAbs, Image.direct]

theorem scenario_gain : imgGain scenario Image.direct = 1 / (4 * Real.pi * 0.5) := by
  obtain ⟨h1, h2, h3⟩ := direct_refl_one scenario
  unfold imgGain
  rw [h1, h2, h3, scenario_dist]
  have hb : beam_ptr scenario.mic_type = omni :=
    beam_ptr_other _ (by decide) (by decide) (by decide) (by decide)
  rw [hb]
  unfold omni M_PI cTs scenario
  have hpi : Real.pi ≠ 0 := Real.pi_ne_zero
  field_simp
  ring

theorem unitDelay_gain : imgGain unitDelay Image.direct = 1 / (8 * Real.pi) := by
  obtain ⟨h1, h2, h3⟩ := direct_refl_one unitDelay
  unfold imgGain
  rw [h1, h2, h3, unitDelay_dist]
  have hb : beam_ptr unitDelay.mic_type = omni :=
    beam_ptr_other _ (by decide) (by decide) (by decide) (by decide)
  rw [hb]
  unfold omni M_PI cTs unitDelay
  have hpi : Real.pi ≠ 0 := Real.pi_ne_zero
  field_simp
  ring

theorem fillLPI_getD (T : ℤ) (d f : ℝ) (n : ℕ) (hn : n < T.toNat) :
    (fillLPI T d f).getD n 0 =
      0.5 * (1 - Real.cos (2 * M_PI * (((n : ℝ) + 1 - (d - f)) / (T : ℝ)))) * Fc
        * sinc (M_PI * Fc * ((n : ℝ) + 1 - (d - f) - (0.5 * (T : ℝ)))) := by
  simp [fillLPI, forBelow, List.getD_eq_getElem?_getD, hn]

theorem unitDelay_start : imgStart unitDelay Image.direct = 1 := by
  unfold imgStart
  rw [unitDelay_floor, unitDelay_Tw]
  rfl

theorem unitDelay_tap : imgTap unitDelay Image.direct 0 = 1 := by
  unfold imgTap
  rw [unitDelay_Tw, if_pos (by norm_num), unitDelay_floor, unitDelay_dist]
  rw [Int.toNat_zero, fillLPI_getD _ _ _ 0 (by decide)]
  have e1 : 2 * M_PI * ((((0 : ℕ) : ℝ) + 1 - (1 - ((1 : ℤ) : ℝ))) / ((2 : ℤ) : ℝ)) = Real.pi := by
    unfold M_PI
    push_cast
    ring
  have e2 : M_PI * Fc * (((0 : ℕ) : ℝ) + 1 - (1 - ((1 : ℤ) : ℝ)) - 0.5 * ((2 : ℤ) : ℝ)) = 0 := by
    push_cast
    ring
  rw [e1, e2, Real.cos_pi]
  unfold sinc Fc
  norm_num

theorem scenario_start : imgStart scenario Image.direct = -40 := by
  unfold imgStart
  rw [scenario_floor, scenario_Tw]
  rfl

/-! ## Support of one image -/

theorem Tw_tdiv_two (fs : ℝ) : (Tw fs).tdiv 2 = ROUND (0.004 * fs) := by
  unfold Tw
  exact Int.mul_tdiv_cancel_left _ (by decide)

theorem Tw_eq_two_mul_half (fs : ℝ) : Tw fs = 2 * (Tw fs).tdiv 2 := by
  rw [Tw_tdiv_two]
  rfl

theorem contribution_outside (a : Args) (img : Image) (i : ℕ)
    (h : ¬ (⌊imgDist a img⌋ - (Tw a.fs).tdiv 2 + 1 ≤ (i : ℤ)
      ∧ (i : ℤ) ≤ ⌊imgDist a img⌋ + (Tw a.fs).tdiv 2 ∧ (i : ℤ) < a.impulse_len)) :
    contribution a img i = 0 := by
  unfold contribution
  split
  · unfold pulse
    split
    · rename_i hi
      have ht : ¬ (0 ≤ (i : ℤ) - imgStart a img ∧ (i : ℤ) - imgStart a img < Tw a.fs) := by
        intro hc
        apply h
        have e := Tw_eq_two_mul_half a.fs
        unfold imgStart at hc
        refine ⟨by omega, by omega, hi⟩
      unfold imgTap
      rw [if_neg ht, mul_zero]
    · rfl
  · rfl

theorem specFilter_length (fs : ℝ) (xs : List ℝ) :
    ∀ y1 y2 : ℝ, (specFilter fs y1 y2 xs).length = xs.length := by
  induction xs with
  | nil => intro _ _; rfl
  | cons x xs ih =>
    intro y1 y2
    simp only [specFilter, List.length_cons, ih]

theorem hpStep_append (fs : ℝ) (pre rest post : List ℝ) (x y0 y1 y2 : ℝ) :
    hpStep fs ⟨y0, y1, y2, pre ++ x :: rest ++ post⟩ pre.length =
      some ⟨hpB1 fs * y0 + hpB2 fs * y1 + x, y0, y1,
        (pre ++ [hpB1 fs * y0 + hpB2 fs * y1 + x + hpA1 fs * y0 + hpR1 fs * y1])
          ++ rest ++ post⟩ := by
  unfold hpStep
  have e : (pre ++ x :: rest ++ post)[pre.length]? = some x := by
    rw [List.append_assoc, List.getElem?_append_right (le_refl _)]
    simp
  simp only [e]
  congr 2
  simp [List.append_assoc]

theorem hp_fold (fs : ℝ) (xs : List ℝ) :
    ∀ (pre post : List ℝ) (y0 y1 y2 : ℝ),
      ∃ st, (List.range' pre.length xs.length).foldlM (hpStep fs)
          ⟨y0, y1, y2, pre ++ xs ++ post⟩ = some st
        ∧ st.impulse = pre ++ specFilter fs y0 y1 xs ++ post := by
  induction xs with
  | nil =>
    intro pre post y0 y1 y2
    exact ⟨_, rfl, rfl⟩
  | cons x xs ih =>
    intro pre post y0 y1 y2
    simp only [List.length_cons, List.range'_succ, List.foldlM_cons]
    rw [hpStep_append]
    obtain ⟨st, h1, h2⟩ := ih
      (pre ++ [hpB1 fs * y0 + hpB2 fs * y1 + x + hpA1 fs * y0 + hpR1 fs * y1]) post
      (hpB1 fs * y0 + hpB2 fs * y1 + x) y0 y1
    simp only [List.length_append, List.length_singleton] at h1
    refine ⟨st, h1, ?_⟩
    rw [h2]
    have e : specFilter fs y0 y1 (x :: xs)
        = (hpB1 fs * y0 + hpB2 fs * y1 + x + hpA1 fs * y0 + hpR1 fs * y1)
          :: specFilter fs (hpB1 fs * y0 + hpB2 fs * y1 + x) y0 xs := by
      simp only [specFilter]
      congr 1
      · unfold hpB1 hpB2 hpA1 hpR1 hpW M_PI
        ring
      · unfold hpB1 hpB2 hpR1 hpW M_PI
        congr 1
        ring
    rw [e]
    simp [List.append_assoc]

theorem highPass_eq_spec (fs : ℝ) (buf : List ℝ) (N : ℕ) (hN : N ≤ buf.length) :
    highPass fs (N : ℤ) buf = some (specFilter fs 0 0 (buf.take N) ++ buf.drop N) := by
  obtain ⟨st, h1, h2⟩ := hp_fold fs (buf.take N) [] (buf.drop N) 0 0 0
  unfold highPass forBelow
  simp only [List.nil_append, List.take_append_drop, List.length_nil, List.length_take,
    Nat.min_eq_left hN] at h1 h2
  rw [Int.toNat_natCast, List.range_eq_range', h1]
  simp [h2]

theorem specFilter_zero (fs : ℝ) (n : ℕ) :
    specFilter fs 0 0 (List.replicate n 0) = List.replicate n 0 := by
  induction n with
  | zero => rfl
  | succ n ih =>
    rw [List.replicate_succ]
    simp only [specFilter, mul_zero, add_zero]
    rw [ih]

theorem highPass_toNat (fs : ℝ) (N : ℤ) (buf : List ℝ) :
    highPass fs N buf = highPass fs ((N.toNat : ℕ) : ℤ) buf := by
  unfold highPass forBelow
  rw [Int.toNat_natCast]

theorem highPass_replicate_zero (fs : ℝ) (N : ℤ) (m : ℕ) (hN : N ≤ (m : ℤ)) :
    highPass fs N (List.replicate m 0) = some (List.replicate m 0) := by
  have hle : N.toNat ≤ m := by omega
  rw [highPass_toNat, highPass_eq_spec fs _ N.toNat (by simpa using hle)]
  rw [List.take_replicate, List.drop_replicate, specFilter_zero, List.append_replicate_replicate]
  congr 2
  omega

theorem imageBody_orientation (a : Args) (azimuth elevation : ℝ)
    (h : beam_ptr a.mic_type = omni) (mx my mz q j k : ℤ)
    (Rp0 Rp1 Rp2 refl0 refl1 refl2 : ℝ) (buf : List ℝ) :
    imageBody (withOrientation a azimuth elevation) mx my mz q j k Rp0 Rp1 Rp2
        refl0 refl1 refl2 buf
      = imageBody a mx my mz q j k Rp0 Rp1 Rp2 refl0 refl1 refl2 buf := by
  have h2 : beam_ptr (withOrientation a azimuth elevation).mic_type = omni := h
  unfold imageBody
  simp only [h, h2, omni]
  rfl

theorem imageMethod_orientation (a : Args) (azimuth elevation : ℝ)
    (h : beam_ptr a.mic_type = omni) (buf : List ℝ) :
    imageMethod (withOrientation a azimuth elevation) buf = imageMethod a buf := by
  unfold imageMethod
  simp only [imageBody_orientation a azimuth elevation h]
  rfl

theorem comp_rir_orientation (a : Args) (azimuth elevation : ℝ)
    (h : beam_ptr a.mic_type = omni) (buf : List ℝ) :
    comp_rir (withOrientation a azimuth elevation) buf = comp_rir a buf := by
  unfold comp_rir
  rw [imageMethod_orientation a azimuth elevation h]
  rfl

theorem dipole_sq_le_one (x y z angle1 angle2 : ℝ) : dipole x y z angle1 angle2 ^ 2 ≤ 1 := by
  unfold dipole
  dsimp only
  generalize Real.arccos (z / Real.sqrt (x * x + y * y + z * z)) = θ
  generalize angle1 - atan2 y x = δ
  generalize 0.5 * M_PI - angle2 = A
  have hA := Real.sin_sq_add_cos_sq A
  have hθ := Real.sin_sq_add_cos_sq θ
  have hδ := Real.sin_sq_add_cos_sq δ
  have hw : Real.cos δ ^ 2 ≤ 1 := by nlinarith [sq_nonneg (Real.sin δ)]
  have hu : 0 ≤ Real.sin θ ^ 2 := sq_nonneg _
  have hcs : (Real.sin A * Real.sin θ * Real.cos δ + Real.cos A * Real.cos θ) ^ 2
      + (Real.sin A * Real.cos θ - Real.cos A * Real.sin θ * Real.cos δ) ^ 2
      = (Real.sin A ^ 2 + Real.cos A ^ 2) * (Real.sin θ ^ 2 * Real.cos δ ^ 2 + Real.cos θ ^ 2) := by
    ring
  rw [hA, one_mul] at hcs
  have h1 : Real.sin θ ^ 2 * Real.cos δ ^ 2 ≤ Real.sin θ ^ 2 := by
    calc Real.sin θ ^ 2 * Real.cos δ ^ 2 ≤ Real.sin θ ^ 2 * 1 :=
          mul_le_mul_of_nonneg_left hw hu
      _ = Real.sin θ ^ 2 := mul_one _
  nlinarith [sq_nonneg (Real.sin A * Real.cos θ - Real.cos A * Real.sin θ * Real.cos δ)]

theorem dipole_bounds (x y z angle1 angle2 : ℝ) :
    -1 ≤ dipole x y z angle1 angle2 ∧ dipole x y z angle1 angle2 ≤ 1 :=
  abs_le.1 (sq_le_one_iff_abs_le_one _ |>.1 (dipole_sq_le_one x y z angle1 angle2))

/-! ## Claims -/

/-- C1: with `high_pass = 0` and an all-zero buffer of length `N = impulse_len`, `comp_rir`
returns a buffer of length `N` whose sample `i` is the sum, over the set of images with
`|mx| ≤ n1`, `|my| ≤ n2`, `|mz| ≤ n3`, `q, j, k ∈ {0, 1}` that pass the reflection-order test
and have `floor(dist) < N`, of `gain * tap (i - startPosition)` (the tap being `0` outside
`[0, Tw)`); the value is the same for every enumeration order of that set, and injecting the
enumerated images one by one in any other order yields the same buffer. -/
theorem comp_rir_superposition (a : Args) (N : ℕ) (hN : a.impulse_len = (N : ℤ))
    (hp : a.high_pass = 0) :
    ∃ out, comp_rir a (List.replicate N 0) = some out ∧ out.length = N ∧
      (∀ img, img ∈ imageSet a ↔
        (|img.mx| ≤ n1 a ∧ |img.my| ≤ n2 a ∧ |img.mz| ≤ n3 a ∧
          (img.q = 0 ∨ img.q = 1) ∧ (img.j = 0 ∨ img.j = 1) ∧ (img.k = 0 ∨ img.k = 1)) ∧
        (imgOrder img ≤ a.reflect_order ∨ a.reflect_order = -1) ∧
        ⌊imgDist a img⌋ < (N : ℤ)) ∧
      (∀ i, i < N → out.getD i 0 =
        ∑ img ∈ imageSet a, imgGain a img * imgTap a img ((i : ℤ) - imgStart a img)) ∧
      (∀ l : List Image, l.Nodup → (∀ img, img ∈ l ↔ img ∈ imageSet a) →
        ∀ i, i < N → out.getD i 0 =
          (l.map (fun img => imgGain a img * imgTap a img ((i : ℤ) - imgStart a img))).sum) ∧
      (∀ l : List Image, l.Nodup → (∀ img, img ∈ l ↔ img ∈ latticeBox a) →
        l.foldlM (fun b img => imageStep a img b) (List.replicate N 0) = some out) := by
  obtain ⟨out, h1, h2, h3⟩ := comp_rir_zero_buffer a N hN hp
  have hsum : ∀ i, i < N → out.getD i 0 =
      ∑ img ∈ imageSet a, imgGain a img * imgTap a img ((i : ℤ) - imgStart a img) := by
    intro i hi
    rw [h3 i]
    refine Finset.sum_congr rfl (fun img _ => pulse_of_lt a img i ?_)
    rw [hN]; exact_mod_cast hi
  refine ⟨out, h1, h2, ?_, hsum, ?_, ?_⟩
  · intro img
    rw [mem_imageSet, mem_latticeBox]
    unfold injected passesOrder
    rw [hN]
    have e : (((⌊imgDist a img⌋ : ℤ) : ℝ) < (((N : ℕ) : ℤ) : ℝ))
        ↔ ⌊imgDist a img⌋ < (N : ℤ) := by
      exact_mod_cast Iff.rfl
    rw [e]
  · intro l hl hmem i hi
    rw [hsum i hi, ← List.sum_toFinset _ hl]
    congr 1
    ext img
    simp [hmem]
  · intro l hl hmem
    obtain ⟨o2, g1, g2, g3⟩ :=
      adds_foldlM a.impulse_len (fun b img => imageStep a img b) (contribution a) l
        (fun img _ => imageStep_adds a img) (List.replicate N 0) (by simp [hN])
    simp only at g1
    rw [g1]
    congr 1
    apply ext_getD
    · rw [g2, h2]; simp
    · intro i
      rw [g3 i, h3 i, getD_replicate_zero, zero_add]
      dsimp only
      rw [← List.sum_toFinset _ hl]
      have e : l.toFinset = latticeBox a := by
        ext img
        simp [hmem]
      rw [e]
      unfold imageSet contribution
      rw [Finset.sum_filter]

/-- C3 (anechoic reduction): when all six entries of `beta_arr` are `0`, the product
`refl[0] * refl[1] * refl[2]` is `1` for the direct-path image and `0` for every other
image; and with `reflect_order = 0`, `high_pass = 0` and a zeroed buffer of length
`N = impulse_len` in a valid room, no image other than the direct path is injected and the
output of `comp_rir` is exactly what the direct-path image adds. -/
theorem anechoic_reduction (a : Args) (N : ℕ) (hN : a.impulse_len = (N : ℤ))
    (hp : a.high_pass = 0) (hr : a.reflect_order = 0) (hβ : ∀ w, a.beta_arr w = 0)
    (hroom : ValidRoom a) :
    (∀ img : Image,
      reflX a img * reflY a img * reflZ a img = if img = Image.direct then 1 else 0) ∧
    (∀ img, img ∈ imageSet a → img = Image.direct) ∧
    ∃ out, comp_rir a (List.replicate N 0) = some out ∧ out.length = N ∧
      ∀ i, out.getD i 0 =
        if ⌊imgDist a Image.direct⌋ < (N : ℤ) ∧ i < N then
          imgGain a Image.direct * imgTap a Image.direct ((i : ℤ) - imgStart a Image.direct)
        else 0 := by
  refine ⟨fun img => ?_, imageSet_order_zero a hr, ?_⟩
  · unfold reflX reflY reflZ
    simp only [hβ, refl_axis_zero]
    by_cases h : img = Image.direct
    · rw [if_pos h]
      rw [image_eq_direct_iff] at h
      simp [h.1, h.2.1, h.2.2.1, h.2.2.2.1, h.2.2.2.2.1, h.2.2.2.2.2]
    · rw [if_neg h]
      rw [image_eq_direct_iff] at h
      by_cases hx : img.mx = 0 ∧ img.q = 0
      · by_cases hy : img.my = 0 ∧ img.j = 0
        · have hz : ¬ (img.mz = 0 ∧ img.k = 0) := by tauto
          simp [hz]
        · simp [hy]
      · simp [hx]
  · obtain ⟨out, h1, h2, h3⟩ := comp_rir_zero_buffer a N hN hp
    refine ⟨out, h1, h2, fun i => ?_⟩
    have hd : Image.direct ∈ latticeBox a :=
      direct_mem_latticeBox a hroom (by rw [hN]; exact Int.natCast_nonneg N)
    rw [h3 i, sum_imageSet_order_zero a hr hd i]
    unfold contribution pulse injected passesOrder
    have ho : imgOrder Image.direct ≤ a.reflect_order ∨ a.reflect_order = -1 := by
      left; rw [hr]; simp [imgOrder, Image.direct]
    have e : (((⌊imgDist a Image.direct⌋ : ℤ) : ℝ) < (a.impulse_len : ℝ))
        ↔ ⌊imgDist a Image.direct⌋ < (N : ℤ) := by
      rw [hN]; exact_mod_cast Iff.rfl
    have e2 : ((i : ℤ) < a.impulse_len) ↔ i < N := by
      rw [hN]; exact_mod_cast Iff.rfl
    simp only [ho, true_and, e, e2]
    by_cases c1 : ⌊imgDist a Image.direct⌋ < (N : ℤ)
    · by_cases c2 : i < N
      · simp [c1, c2]
      · simp [c1, c2]
    · simp [c1]

/-- C2, counterexample: in the scene `unitDelay` (`cTs = 2`) the direct path is injected
with `dist = 1` sample and kernel tap `1` at buffer index `1`; `comp_rir` writes `1 / (8π)`
there, whereas the gain `Beam * refl / (4π * dist)` of the claim is `1 / (4π)`. -/
theorem gain_counterexample :
    Image.direct ∈ imageSet unitDelay ∧
    imgDist unitDelay Image.direct = 1 ∧
    imgTap unitDelay Image.direct ((1 : ℤ) - imgStart unitDelay Image.direct) = 1 ∧
    gainPerSampleDistance unitDelay Image.direct = 1 / (4 * Real.pi) ∧
    ∃ out, comp_rir unitDelay (List.replicate 4 0) = some out ∧
      out.getD 1 0 = 1 / (8 * Real.pi) ∧
      out.getD 1 0 ≠ gainPerSampleDistance unitDelay Image.direct
        * imgTap unitDelay Image.direct ((1 : ℤ) - imgStart unitDelay Image.direct) := by
  have hN : unitDelay.impulse_len = ((4 : ℕ) : ℤ) := rfl
  have hd : Image.direct ∈ latticeBox unitDelay :=
    direct_mem_latticeBox unitDelay unitDelay_valid (by rw [hN]; norm_num)
  have htap : imgTap unitDelay Image.direct ((1 : ℤ) - imgStart unitDelay Image.direct) = 1 := by
    rw [unitDelay_start]
    exact unitDelay_tap
  have hspec : gainPerSampleDistance unitDelay Image.direct = 1 / (4 * Real.pi) := by
    obtain ⟨h1, h2, h3⟩ := direct_refl_one unitDelay
    unfold gainPerSampleDistance
    rw [h1, h2, h3, unitDelay_dist]
    have hb : beam_ptr unitDelay.mic_type = omni :=
      beam_ptr_other _ (by decide) (by decide) (by decide) (by decide)
    rw [hb]
    unfold omni
    norm_num
  refine ⟨(mem_imageSet _ _).2 ⟨hd, unitDelay_injected⟩, unitDelay_dist, htap, hspec, ?_⟩
  obtain ⟨out, h1, _, h3⟩ := comp_rir_zero_buffer unitDelay 4 hN rfl
  have hval : out.getD 1 0 = 1 / (8 * Real.pi) := by
    rw [h3 1, sum_imageSet_order_zero unitDelay rfl hd 1]
    unfold contribution
    rw [if_pos unitDelay_injected, pulse_of_lt unitDelay Image.direct 1 (by rw [hN]; norm_num)]
    have e : (((1 : ℕ) : ℤ) - imgStart unitDelay Image.direct) = 0 := by
      rw [unitDelay_start]; rfl
    rw [e, unitDelay_tap, unitDelay_gain, mul_one]
  refine ⟨out, h1, hval, ?_⟩
  rw [hval, hspec, htap, mul_one]
  have hpi : Real.pi ≠ 0 := Real.pi_ne_zero
  intro h
  field_simp at h
  rcases h with h | h
  · norm_num at h
  · exact hpi h

/-- C2, amended: for every injected image, the innermost loop body adds to each sample
`i < impulse_len` the kernel tap times
`BeamPattern(offset, orientation) * refl_x * refl_y * refl_z / (4π * dist * cTs)`, where
`dist` is the Euclidean length of the offset vector in samples (positions and room sizes
divided by `cTs`), so that `dist * cTs` is the distance in metres. -/
theorem injected_gain (a : Args) (img : Image) (buf : List ℝ)
    (hb : a.impulse_len ≤ (buf.length : ℤ)) (hinj : injected a img) :
    (∃ out, imageStep a img buf = some out ∧
      ∀ i : ℕ, (i : ℤ) < a.impulse_len → out.getD i 0 = buf.getD i 0 +
        (beam_ptr a.mic_type (offX a img) (offY a img) (offZ a img)
            a.mic_azimuth a.mic_elevation
          * reflX a img * reflY a img * reflZ a img / (4 * Real.pi * imgDist a img * cTs a))
        * imgTap a img ((i : ℤ) - imgStart a img)) ∧
    imgDist a img = Real.sqrt (offX a img ^ 2 + offY a img ^ 2 + offZ a img ^ 2) ∧
    offX a img = ((1 - 2 * (img.q : ℝ)) * a.src_x - a.mic_x + 2 * (img.mx : ℝ) * a.size_x)
      / (a.sound_speed / a.fs) ∧
    offY a img = ((1 - 2 * (img.j : ℝ)) * a.src_y - a.mic_y + 2 * (img.my : ℝ) * a.size_y)
      / (a.sound_speed / a.fs) ∧
    offZ a img = ((1 - 2 * (img.k : ℝ)) * a.src_z - a.mic_z + 2 * (img.mz : ℝ) * a.size_z)
      / (a.sound_speed / a.fs) := by
  refine ⟨?_, rfl, ?_, ?_, ?_⟩
  · obtain ⟨out, h1, _, h3⟩ := imageStep_adds a img buf hb
    refine ⟨out, h1, fun i hi => ?_⟩
    rw [h3 i]
    unfold contribution
    rw [if_pos hinj, pulse_of_lt a img i hi]
    rfl
  · unfold offX cTs; ring
  · unfold offY cTs; ring
  · unfold offZ cTs; ring

/-- C2, amended, at a concrete input: the direct path of `unitDelay` on a zeroed buffer of
length 4. -/
theorem injected_gain_witness :
    unitDelay.impulse_len ≤ ((List.replicate 4 (0 : ℝ)).length : ℤ) ∧
    injected unitDelay Image.direct ∧
    ∃ out, imageStep unitDelay Image.direct (List.replicate 4 0) = some out ∧
      ∀ i : ℕ, (i : ℤ) < unitDelay.impulse_len →
        out.getD i 0 = (List.replicate 4 (0 : ℝ)).getD i 0 +
          (beam_ptr unitDelay.mic_type (offX unitDelay Image.direct)
              (offY unitDelay Image.direct) (offZ unitDelay Image.direct)
              unitDelay.mic_azimuth unitDelay.mic_elevation
            * reflX unitDelay Image.direct * reflY unitDelay Image.direct
            * reflZ unitDelay Image.direct
            / (4 * Real.pi * imgDist unitDelay Image.direct * cTs unitDelay))
          * imgTap unitDelay Image.direct ((i : ℤ) - imgStart unitDelay Image.direct) :=
  ⟨by simp [unitDelay], unitDelay_injected,
    (injected_gain unitDelay Image.direct (List.replicate 4 0) (by simp [unitDelay])
      unitDelay_injected).1⟩

/-- C1 at a concrete input: the scenario of the specification with `N = 4000`. -/
theorem comp_rir_superposition_witness :
    scenario.impulse_len = ((4000 : ℕ) : ℤ) ∧ scenario.high_pass = 0 ∧
    ∃ out, comp_rir scenario (List.replicate 4000 0) = some out ∧ out.length = 4000 ∧
      ∀ i, i < 4000 → out.getD i 0 =
        ∑ img ∈ imageSet scenario,
          imgGain scenario img * imgTap scenario img ((i : ℤ) - imgStart scenario img) := by
  obtain ⟨out, h1, h2, _, h4, _⟩ := comp_rir_superposition scenario 4000 rfl rfl
  exact ⟨rfl, rfl, out, h1, h2, h4⟩

/-- C3 at a concrete input: the scenario of the specification with `N = 4000`. -/
theorem anechoic_reduction_witness :
    scenario.impulse_len = ((4000 : ℕ) : ℤ) ∧ scenario.high_pass = 0 ∧
    scenario.reflect_order = 0 ∧ (∀ w, scenario.beta_arr w = 0) ∧ ValidRoom scenario ∧
    ∃ out, comp_rir scenario (List.replicate 4000 0) = some out ∧ out.length = 4000 ∧
      ∀ i, out.getD i 0 =
        if ⌊imgDist scenario Image.direct⌋ < ((4000 : ℕ) : ℤ) ∧ i < 4000 then
          imgGain scenario Image.direct
            * imgTap scenario Image.direct ((i : ℤ) - imgStart scenario Image.direct)
        else 0 :=
  ⟨rfl, rfl, rfl, fun _ => rfl, scenario_valid,
    (anechoic_reduction scenario 4000 rfl rfl rfl (fun _ => rfl) scenario_valid).2.2⟩

theorem injected_withOrder (a : Args) (k : ℤ) (img : Image) :
    injected (withOrder a k) img ↔
      passesOrder k img ∧ ((⌊imgDist a img⌋ : ℤ) : ℝ) < (a.impulse_len : ℝ) := Iff.rfl

theorem passesOrder_nonneg (k : ℤ) (hk : 0 ≤ k) (img : Image) :
    passesOrder k img ↔ imgOrder img ≤ k := by
  unfold passesOrder
  constructor
  · rintro (h | h)
    · exact h
    · omega
  · exact Or.inl

/-- C4 (reflection-order monotonicity): for limits `0 ≤ k ≤ k'`, `high_pass = 0` and a
zeroed buffer of length `N = impulse_len`, every image injected with `reflect_order = k` is
injected with `reflect_order = k'` and adds the same values; the two outputs differ, sample
by sample, by the sum of what the enumerated images with reflection order in `(k, k']` and
`floor(dist) < N` add; and every image injected with `reflect_order = k` is injected with
the sentinel `reflect_order = -1`. -/
theorem reflection_order_monotone (a : Args) (N : ℕ) (k k' : ℤ)
    (hN : a.impulse_len = (N : ℤ)) (hp : a.high_pass = 0) (hk : 0 ≤ k) (hkk : k ≤ k') :
    (∀ img, injected (withOrder a k) img →
      injected (withOrder a k') img ∧
      ∀ i, contribution (withOrder a k) img i = contribution (withOrder a k') img i) ∧
    (∃ out out', comp_rir (withOrder a k) (List.replicate N 0) = some out ∧
      comp_rir (withOrder a k') (List.replicate N 0) = some out' ∧
      ∀ i, out'.getD i 0 - out.getD i 0 =
        ∑ img ∈ (latticeBox a).filter (fun img =>
            (k < imgOrder img ∧ imgOrder img ≤ k') ∧ ⌊imgDist a img⌋ < (N : ℤ)),
          pulse a img i) ∧
    (∀ img, injected (withOrder a k) img → injected (withOrder a (-1)) img) := by
  have hk' : 0 ≤ k' := le_trans hk hkk
  have hmono : ∀ img, injected (withOrder a k) img → injected (withOrder a k') img := by
    intro img h
    rw [injected_withOrder, passesOrder_nonneg k hk] at h
    rw [injected_withOrder, passesOrder_nonneg k' hk']
    exact ⟨le_trans h.1 hkk, h.2⟩
  refine ⟨fun img h => ⟨hmono img h, fun i => ?_⟩, ?_, ?_⟩
  · unfold contribution
    rw [if_pos h, if_pos (hmono img h)]
    rfl
  · obtain ⟨out, h1, _, h3⟩ := comp_rir_zero_buffer (withOrder a k) N hN hp
    obtain ⟨out', g1, _, g3⟩ := comp_rir_zero_buffer (withOrder a k') N hN hp
    refine ⟨out, out', h1, g1, fun i => ?_⟩
    rw [h3 i, g3 i]
    have hsub : imageSet (withOrder a k) ⊆ imageSet (withOrder a k') := by
      intro img h
      rw [mem_imageSet] at h ⊢
      exact ⟨h.1, hmono img h.2⟩
    have hsd : imageSet (withOrder a k') \ imageSet (withOrder a k)
        = (latticeBox a).filter (fun img =>
            (k < imgOrder img ∧ imgOrder img ≤ k') ∧ ⌊imgDist a img⌋ < (N : ℤ)) := by
      ext img
      have e : (((⌊imgDist a img⌋ : ℤ) : ℝ) < (a.impulse_len : ℝ))
          ↔ ⌊imgDist a img⌋ < (N : ℤ) := by
        rw [hN]; exact_mod_cast Iff.rfl
      have hl : img ∈ latticeBox (withOrder a k') ↔ img ∈ latticeBox a := Iff.rfl
      have hl2 : img ∈ latticeBox (withOrder a k) ↔ img ∈ latticeBox a := Iff.rfl
      rw [Finset.mem_sdiff, mem_imageSet, mem_imageSet, Finset.mem_filter, hl, hl2,
        injected_withOrder, injected_withOrder, passesOrder_nonneg k hk,
        passesOrder_nonneg k' hk', e]
      constructor
      · rintro ⟨⟨m, o, d⟩, hnot⟩
        refine ⟨m, ⟨?_, o⟩, d⟩
        by_contra hc
        exact hnot ⟨m, by omega, d⟩
      · rintro ⟨m, ⟨o1, o2⟩, d⟩
        refine ⟨⟨m, o2, d⟩, ?_⟩
        rintro ⟨_, o3, _⟩
        omega
    have key := Finset.sum_sdiff (f := fun img => pulse a img i) hsub
    rw [hsd] at key
    have p1 : ∀ img, pulse (withOrder a k) img i = pulse a img i := fun _ => rfl
    have p2 : ∀ img, pulse (withOrder a k') img i = pulse a img i := fun _ => rfl
    simp only [p1, p2]
    linarith
  · intro img h
    rw [injected_withOrder] at h ⊢
    exact ⟨Or.inr rfl, h.2⟩

/-- C4 at a concrete input: the scenario of the specification, limits `0` and `1`. -/
theorem reflection_order_monotone_witness :
    scenario.impulse_len = ((4000 : ℕ) : ℤ) ∧ scenario.high_pass = 0 ∧
    (0 : ℤ) ≤ 0 ∧ (0 : ℤ) ≤ 1 ∧
    ∀ img, injected (withOrder scenario 0) img →
      injected (withOrder scenario 1) img ∧
      ∀ i, contribution (withOrder scenario 0) img i
        = contribution (withOrder scenario 1) img i :=
  ⟨rfl, rfl, le_refl 0, by decide,
    (reflection_order_monotone scenario 4000 0 1 rfl rfl (le_refl 0) (by decide)).1⟩

/-- C5 (causality / locality): on a buffer of length at least `impulse_len`, the loop body
for the direct-path image succeeds, keeps the buffer length and leaves unchanged every
sample whose index is not among the `Tw` consecutive indices
`floor(d) - Tw/2 + 1 .. floor(d) + Tw/2` intersected with `[0, impulse_len)`; in particular
every index earlier than `floor(d) - Tw/2`. -/
theorem direct_path_locality (a : Args) (buf : List ℝ)
    (hb : a.impulse_len ≤ (buf.length : ℤ)) :
    ∃ out, imageStep a Image.direct buf = some out ∧ out.length = buf.length ∧
      (∀ i : ℕ, ¬ (⌊imgDist a Image.direct⌋ - (Tw a.fs).tdiv 2 + 1 ≤ (i : ℤ)
          ∧ (i : ℤ) ≤ ⌊imgDist a Image.direct⌋ + (Tw a.fs).tdiv 2
          ∧ (i : ℤ) < a.impulse_len) →
        out.getD i 0 = buf.getD i 0) ∧
      (∀ i : ℕ, (i : ℤ) < ⌊imgDist a Image.direct⌋ - (Tw a.fs).tdiv 2 →
        out.getD i 0 = buf.getD i 0) ∧
      (⌊imgDist a Image.direct⌋ + (Tw a.fs).tdiv 2
        - (⌊imgDist a Image.direct⌋ - (Tw a.fs).tdiv 2 + 1) + 1 = Tw a.fs) := by
  obtain ⟨out, h1, h2, h3⟩ := imageStep_adds a Image.direct buf hb
  have hout : ∀ i : ℕ, ¬ (⌊imgDist a Image.direct⌋ - (Tw a.fs).tdiv 2 + 1 ≤ (i : ℤ)
      ∧ (i : ℤ) ≤ ⌊imgDist a Image.direct⌋ + (Tw a.fs).tdiv 2
      ∧ (i : ℤ) < a.impulse_len) → out.getD i 0 = buf.getD i 0 := by
    intro i hi
    rw [h3 i, contribution_outside a Image.direct i hi, add_zero]
  refine ⟨out, h1, h2, hout, fun i hi => hout i ?_, ?_⟩
  · intro hc
    have := hc.1
    omega
  · have e := Tw_eq_two_mul_half a.fs
    omega

/-- C5 at a concrete input: the direct path of the scenario on a zeroed buffer of length
4000. -/
theorem direct_path_locality_witness :
    scenario.impulse_len ≤ ((List.replicate 4000 (0 : ℝ)).length : ℤ) ∧
    ∃ out, imageStep scenario Image.direct (List.replicate 4000 0) = some out ∧
      ∀ i : ℕ, (i : ℤ) < ⌊imgDist scenario Image.direct⌋ - (Tw scenario.fs).tdiv 2 →
        out.getD i 0 = (List.replicate 4000 (0 : ℝ)).getD i 0 := by
  have hb : scenario.impulse_len ≤ ((List.replicate 4000 (0 : ℝ)).length : ℤ) := by
    rw [List.length_replicate]
    exact le_of_eq rfl
  obtain ⟨out, h1, _, _, h4, _⟩ := direct_path_locality scenario (List.replicate 4000 0) hb
  exact ⟨hb, out, h1, h4⟩

/-- C6 (scenario): for the scenario of the specification on a zeroed buffer of length 4000,
`Tw = 128`, the only injected image is the direct path, with `floor(dist) = 23` and gain
`1 / (4π * 0.5)`, and every output sample whose index is outside `[24 - Tw/2, 24 + Tw/2]`, in
particular every index from 89 to 3999, is exactly `0`. -/
theorem scenario_direct_only :
    Tw scenario.fs = 128 ∧
    (∀ img, img ∈ imageSet scenario ↔ img = Image.direct) ∧
    ⌊imgDist scenario Image.direct⌋ = 23 ∧
    imgGain scenario Image.direct = 1 / (4 * Real.pi * 0.5) ∧
    ∃ out, comp_rir scenario (List.replicate 4000 0) = some out ∧ out.length = 4000 ∧
      (∀ i : ℕ, ((i : ℤ) < 24 - (Tw scenario.fs).tdiv 2
          ∨ 24 + (Tw scenario.fs).tdiv 2 < (i : ℤ)) → out.getD i 0 = 0) ∧
      (∀ i : ℕ, 89 ≤ i → i ≤ 3999 → out.getD i 0 = 0) := by
  have hN : scenario.impulse_len = ((4000 : ℕ) : ℤ) := rfl
  have hd : Image.direct ∈ latticeBox scenario :=
    direct_mem_latticeBox scenario scenario_valid (by rw [hN]; norm_num)
  have hhalf : (Tw scenario.fs).tdiv 2 = 64 := by
    rw [scenario_Tw]; rfl
  refine ⟨scenario_Tw, fun img => ⟨imageSet_order_zero scenario rfl img, ?_⟩,
    scenario_floor, scenario_gain, ?_⟩
  · rintro rfl
    exact (mem_imageSet _ _).2 ⟨hd, scenario_injected⟩
  · obtain ⟨out, h1, h2, h3⟩ := comp_rir_zero_buffer scenario 4000 hN rfl
    have hz : ∀ i : ℕ, ((i : ℤ) < 24 - (Tw scenario.fs).tdiv 2
        ∨ 24 + (Tw scenario.fs).tdiv 2 < (i : ℤ)) → out.getD i 0 = 0 := by
      intro i hi
      rw [h3 i, sum_imageSet_order_zero scenario rfl hd i]
      apply contribution_outside
      rw [scenario_floor]
      rw [hhalf] at hi ⊢
      omega
    refine ⟨out, h1, h2, hz, fun i hi _ => hz i ?_⟩
    right
    rw [hhalf]
    omega

/-- C7: the high-pass stage maps an all-zero buffer of any length `m ≥ impulse_len` to the
same all-zero buffer, for every sample rate `fs`. -/
theorem high_pass_zero_buffer (fs : ℝ) (N : ℤ) (m : ℕ) (hN : N ≤ (m : ℤ)) :
    highPass fs N (List.replicate m 0) = some (List.replicate m 0) :=
  highPass_replicate_zero fs N m hN

/-- C7 at a concrete input: `fs = 16000`, three zero samples. -/
theorem high_pass_zero_buffer_witness :
    (3 : ℤ) ≤ ((3 : ℕ) : ℤ) ∧
    highPass 16000 3 (List.replicate 3 0) = some (List.replicate 3 0) :=
  ⟨le_refl _, high_pass_zero_buffer 16000 3 3 (le_refl _)⟩

/-- C8: for every `fs` and every buffer of length at least `N = impulse_len`, the filter
loop of `comp_rir` (which shifts `Y[2] ← Y[1]`, `Y[1] ← Y[0]` before computing the new
`Y[0]`) succeeds and replaces the first `N` samples by the output sequence of the specified
recurrence started from zero state, leaving the remaining samples as they are. -/
theorem high_pass_refines_recurrence (fs : ℝ) (buf : List ℝ) (N : ℕ) (hN : N ≤ buf.length) :
    highPass fs (N : ℤ) buf = some (specFilter fs 0 0 (buf.take N) ++ buf.drop N) :=
  highPass_eq_spec fs buf N hN

/-- C8 at a concrete input: `fs = 16000` and the buffer `[1, 2, 3]` filtered over its whole
length. -/
theorem high_pass_refines_recurrence_witness :
    3 ≤ ([1, 2, 3] : List ℝ).length ∧
    highPass 16000 ((3 : ℕ) : ℤ) [1, 2, 3]
      = some (specFilter 16000 0 0 (([1, 2, 3] : List ℝ).take 3) ++ ([1, 2, 3] : List ℝ).drop 3) :=
  ⟨le_refl _, high_pass_refines_recurrence 16000 [1, 2, 3] 3 (le_refl _)⟩

/-- C9: for every `mic_type` other than `'d'`, `'c'`, `'s'`, `'h'`, `comp_rir` uses `omni`,
which returns exactly `1` for every position and orientation, and the result of `comp_rir`
is the same for every value of `mic_azimuth` and `mic_elevation`. -/
theorem omni_default (a : Args) (hd : a.mic_type ≠ 'd') (hc : a.mic_type ≠ 'c')
    (hs : a.mic_type ≠ 's') (hh : a.mic_type ≠ 'h') :
    beam_ptr a.mic_type = omni ∧
    (∀ x y z angle1 angle2 : ℝ, omni x y z angle1 angle2 = 1) ∧
    ∀ (az el az' el' : ℝ) (buf : List ℝ),
      comp_rir (withOrientation a az el) buf = comp_rir (withOrientation a az' el') buf := by
  have hb := beam_ptr_other a.mic_type hd hc hs hh
  refine ⟨hb, fun _ _ _ _ _ => by unfold omni; norm_num, fun az el az' el' buf => ?_⟩
  rw [comp_rir_orientation a az el hb, comp_rir_orientation a az' el' hb]

/-- C9 at a concrete input: the scenario of the specification, whose `mic_type` is `'o'`. -/
theorem omni_default_witness :
    scenario.mic_type ≠ 'd' ∧ scenario.mic_type ≠ 'c' ∧ scenario.mic_type ≠ 's' ∧
    scenario.mic_type ≠ 'h' ∧ beam_ptr scenario.mic_type = omni :=
  ⟨by decide, by decide, by decide, by decide,
    (omni_default scenario (by decide) (by decide) (by decide) (by decide)).1⟩

/-- C10, in exact real arithmetic (no rounding, `M_PI = π`): for every nonzero relative
position `(x, y, z)` and every orientation, `dipole` lies in `[-1, 1]`,
`cardioid = 0.5 + 0.5 * dipole` lies in `[0, 1]`, `subcardioid = 0.75 + 0.25 * dipole` lies in
`[0.5, 1]`, and `hypercardioid = 0.25 + 0.75 * dipole` lies in `[-0.5, 1]`. -/
theorem beam_pattern_ranges (x y z azimuth elevation : ℝ)
    (_hne : ¬ (x = 0 ∧ y = 0 ∧ z = 0)) :
    (-1 ≤ dipole x y z azimuth elevation ∧ dipole x y z azimuth elevation ≤ 1) ∧
    (cardioid x y z azimuth elevation = 0.5 + 0.5 * dipole x y z azimuth elevation ∧
      0 ≤ cardioid x y z azimuth elevation ∧ cardioid x y z azimuth elevation ≤ 1) ∧
    (subcardioid x y z azimuth elevation = 0.75 + 0.25 * dipole x y z azimuth elevation ∧
      0.5 ≤ subcardioid x y z azimuth elevation ∧ subcardioid x y z azimuth elevation ≤ 1) ∧
    (hypercardioid x y z azimuth elevation = 0.25 + 0.75 * dipole x y z azimuth elevation ∧
      -0.5 ≤ hypercardioid x y z azimuth elevation ∧
      hypercardioid x y z azimuth elevation ≤ 1) := by
  obtain ⟨h1, h2⟩ := dipole_bounds x y z azimuth elevation
  refine ⟨⟨h1, h2⟩, ⟨rfl, ?_, ?_⟩, ⟨rfl, ?_, ?_⟩, ⟨rfl, ?_, ?_⟩⟩ <;>
    simp only [cardioid, subcardioid, hypercardioid] <;> linarith

/-- C10 at a concrete input: the position `(1, 0, 0)` with orientation `(0, 0)`. -/
theorem beam_pattern_ranges_witness :
    ¬ ((1 : ℝ) = 0 ∧ (0 : ℝ) = 0 ∧ (0 : ℝ) = 0) ∧
    (-1 ≤ dipole 1 0 0 0 0 ∧ dipole 1 0 0 0 0 ≤ 1) :=
  ⟨by norm_num, (beam_pattern_ranges 1 0 0 0 0 (by norm_num)).1⟩

/-! ## Exponents and reflection order -/

theorem axis_exponents (m q : ℤ) (hq : q = 0 ∨ q = 1) : |m - q| + |m| = |2 * m - q| := by
  rcases hq with rfl | rfl
  · rcases abs_cases m with ⟨h1, _⟩ | ⟨h1, _⟩ <;>
      rcases abs_cases (2 * m - 0) with ⟨h2, _⟩ | ⟨h2, _⟩ <;>
      rcases abs_cases (m - 0) with ⟨h3, _⟩ | ⟨h3, _⟩ <;> omega
  · rcases abs_cases m with ⟨h1, _⟩ | ⟨h1, _⟩ <;>
      rcases abs_cases (2 * m - 1) with ⟨h2, _⟩ | ⟨h2, _⟩ <;>
      rcases abs_cases (m - 1) with ⟨h3, _⟩ | ⟨h3, _⟩ <;> omega

theorem axis_exponents_natAbs (m q : ℤ) (hq : q = 0 ∨ q = 1) :
    (m - q).natAbs + m.natAbs = (|2 * m - q|).toNat := by
  have h := axis_exponents m q hq
  rw [← h]
  rw [Int.abs_eq_natAbs, Int.abs_eq_natAbs]
  omega

theorem refl_axis_equal (b : ℝ) (m q : ℤ) (hq : q = 0 ∨ q = 1) :
    powAbs b (m - q) * powAbs b m = b ^ (|2 * m - q|).toNat := by
  unfold powAbs
  rw [← pow_add, axis_exponents_natAbs m q hq]

theorem refl_product_equal (a : Args) (img : Image) (b : ℝ) (hb : ∀ w, a.beta_arr w = b)
    (hq : img.q = 0 ∨ img.q = 1) (hj : img.j = 0 ∨ img.j = 1) (hk : img.k = 0 ∨ img.k = 1) :
    reflX a img * reflY a img * reflZ a img = b ^ (imgOrder img).toNat := by
  unfold reflX reflY reflZ imgOrder
  simp only [hb]
  rw [refl_axis_equal b _ _ hq, refl_axis_equal b _ _ hj, refl_axis_equal b _ _ hk,
    ← pow_add, ← pow_add]
  congr 1
  have px := abs_nonneg (2 * img.mx - img.q)
  have py := abs_nonneg (2 * img.my - img.j)
  have pz := abs_nonneg (2 * img.mz - img.k)
  omega

/-- C13: for every lattice index `m` and sign `q ∈ {0, 1}`, `|m - q| + |m| = |2m - q|`;
hence for every image the number of wall-coefficient factors in
`refl[0] * refl[1] * refl[2]` equals the reflection order
`|2mx - q| + |2my - j| + |2mz - k|` used for pruning, and when all six coefficients equal
one value `b` the product is `b ^ order`. -/
theorem exponents_sum_to_order (a : Args) (img : Image) (b : ℝ)
    (hb : ∀ w, a.beta_arr w = b)
    (hq : img.q = 0 ∨ img.q = 1) (hj : img.j = 0 ∨ img.j = 1) (hk : img.k = 0 ∨ img.k = 1) :
    (∀ m q : ℤ, (q = 0 ∨ q = 1) → |m - q| + |m| = |2 * m - q|) ∧
    (((img.mx - img.q).natAbs + img.mx.natAbs + ((img.my - img.j).natAbs + img.my.natAbs)
        + ((img.mz - img.k).natAbs + img.mz.natAbs) : ℕ) : ℤ) = imgOrder img ∧
    reflX a img * reflY a img * reflZ a img = b ^ (imgOrder img).toNat := by
  refine ⟨axis_exponents, ?_, refl_product_equal a img b hb hq hj hk⟩
  have ex := axis_exponents_natAbs img.mx img.q hq
  have ey := axis_exponents_natAbs img.my img.j hj
  have ez := axis_exponents_natAbs img.mz img.k hk
  have px := abs_nonneg (2 * img.mx - img.q)
  have py := abs_nonneg (2 * img.my - img.j)
  have pz := abs_nonneg (2 * img.mz - img.k)
  unfold imgOrder
  omega

/-- C13 at a concrete input: the image `mx = 1, my = -2, mz = 0`, `q = 1, j = 0, k = 1` in
the scenario of the specification (all coefficients `0`). -/
theorem exponents_sum_to_order_witness :
    (∀ w, scenario.beta_arr w = 0) ∧
    ((1 : ℤ) = 0 ∨ (1 : ℤ) = 1) ∧ ((0 : ℤ) = 0 ∨ (0 : ℤ) = 1) ∧
    ((1 : ℤ) = 0 ∨ (1 : ℤ) = 1) ∧
    reflX scenario ⟨1, -2, 0, 1, 0, 1⟩ * reflY scenario ⟨1, -2, 0, 1, 0, 1⟩
        * reflZ scenario ⟨1, -2, 0, 1, 0, 1⟩
      = (0 : ℝ) ^ (imgOrder ⟨1, -2, 0, 1, 0, 1⟩).toNat :=
  ⟨fun _ => rfl, Or.inr rfl, Or.inl rfl, Or.inr rfl,
    (exponents_sum_to_order scenario ⟨1, -2, 0, 1, 0, 1⟩ 0 (fun _ => rfl)
      (Or.inr rfl) (Or.inl rfl) (Or.inr rfl)).2.2⟩

/-! ## The null of the high-pass filter -/

theorem hp_feedforward_sum (fs : ℝ) : 1 + hpA1 fs + hpR1 fs = 0 := by
  unfold hpA1
  ring

theorem hpStep_written (fs : ℝ) (st st' : HpState) (idx : ℕ)
    (h : hpStep fs st idx = some st') :
    st'.impulse.getD idx 0 = st'.Y0 + hpA1 fs * st'.Y1 + hpR1 fs * st'.Y2 := by
  unfold hpStep at h
  cases hx : st.impulse[idx]? with
  | none => rw [hx] at h; cases h
  | some X0 =>
    rw [hx] at h
    simp only [Option.some.injEq] at h
    subst h
    have hlt : idx < st.impulse.length := by
      by_contra hc
      rw [List.getElem?_eq_none (by omega)] at hx
      cases hx
    simp [List.getD_eq_getElem?_getD, List.getElem?_set, hlt]

/-- C20, in exact real arithmetic (no rounding): for every `fs` the feed-forward coefficients
of the high-pass filter satisfy `1 + A1 + R1 = 0`, so whenever the three state values `Y[0]`,
`Y[1]`, `Y[2]` are equal after an iteration of the filter loop, the sample
`Y[0] + A1*Y[1] + R1*Y[2]` it wrote is `0`. -/
theorem high_pass_dc_null (fs : ℝ) (st st' : HpState) (idx : ℕ)
    (h : hpStep fs st idx = some st') (h01 : st'.Y0 = st'.Y1) (h12 : st'.Y1 = st'.Y2) :
    1 + hpA1 fs + hpR1 fs = 0 ∧
    st'.impulse.getD idx 0 = st'.Y0 + hpA1 fs * st'.Y1 + hpR1 fs * st'.Y2 ∧
    st'.impulse.getD idx 0 = 0 := by
  have hw := hpStep_written fs st st' idx h
  refine ⟨hp_feedforward_sum fs, hw, ?_⟩
  rw [hw, ← h12, ← h01]
  have e := hp_feedforward_sum fs
  linear_combination st'.Y0 * e

theorem hpStep_constant_state (fs : ℝ) :
    hpStep fs ⟨1, 1, 0, [1 - hpB1 fs - hpB2 fs]⟩ 0 = some ⟨1, 1, 1, [0]⟩ := by
  unfold hpStep
  have e0 : ([1 - hpB1 fs - hpB2 fs] : List ℝ)[0]? = some (1 - hpB1 fs - hpB2 fs) := rfl
  simp only [e0]
  have e1 : hpB1 fs * 1 + hpB2 fs * 1 + (1 - hpB1 fs - hpB2 fs) = 1 := by ring
  have e2 : (1 : ℝ) + hpA1 fs * 1 + hpR1 fs * 1 = 0 := by
    have := hp_feedforward_sum fs
    linarith
  rw [e1, e2]
  rfl

/-- C20 at a concrete input: `fs = 16000`, state `Y[0] = Y[1] = 1` and the input sample
`1 - B1 - B2`, after which `Y[0] = Y[1] = Y[2] = 1`. -/
theorem high_pass_dc_null_witness :
    hpStep 16000 ⟨1, 1, 0, [1 - hpB1 16000 - hpB2 16000]⟩ 0 = some ⟨1, 1, 1, [0]⟩ ∧
    (HpState.mk 1 1 1 [0]).Y0 = (HpState.mk 1 1 1 [0]).Y1 ∧
    (HpState.mk 1 1 1 [0]).Y1 = (HpState.mk 1 1 1 [0]).Y2 ∧
    (HpState.mk 1 1 1 [0]).impulse.getD 0 0 = 0 :=
  ⟨hpStep_constant_state 16000, rfl, rfl,
    (high_pass_dc_null 16000 ⟨1, 1, 0, [1 - hpB1 16000 - hpB2 16000]⟩ ⟨1, 1, 1, [0]⟩ 0
      (hpStep_constant_state 16000) rfl rfl).2.2⟩

/-! ## Array bounds and additivity -/

theorem getD_append_drop (l1 buf : List ℝ) (n i : ℕ) (hl : l1.length = n) (hi : n ≤ i) :
    (l1 ++ buf.drop n).getD i 0 = buf.getD i 0 := by
  simp only [List.getD_eq_getElem?_getD]
  rw [List.getElem?_append_right (by omega), List.getElem?_drop, hl]
  congr 2
  omega

theorem highPass_safe (fs : ℝ) (N : ℤ) (buf : List ℝ) (h : N ≤ (buf.length : ℤ)) :
    ∃ out, highPass fs N buf = some out ∧ out.length = buf.length ∧
      ∀ i : ℕ, N ≤ (i : ℤ) → out.getD i 0 = buf.getD i 0 := by
  have hle : N.toNat ≤ buf.length := by omega
  have hlen : (specFilter fs 0 0 (buf.take N.toNat)).length = N.toNat := by
    rw [specFilter_length, List.length_take, Nat.min_eq_left hle]
  refine ⟨_, by rw [highPass_toNat, highPass_eq_spec fs buf N.toNat hle], ?_, fun i hi => ?_⟩
  · rw [List.length_append, hlen, List.length_drop]
    omega
  · exact getD_append_drop _ buf N.toNat i hlen (by omega)

theorem pulse_beyond (a : Args) (img : Image) (i : ℕ) (h : a.impulse_len ≤ (i : ℤ)) :
    pulse a img i = 0 := by
  unfold pulse
  rw [if_neg (by omega)]

theorem comp_rir_safe (a : Args) (buf : List ℝ) (hb : a.impulse_len ≤ (buf.length : ℤ)) :
    ∃ out, comp_rir a buf = some out ∧ out.length = buf.length ∧
      ∀ i : ℕ, a.impulse_len ≤ (i : ℤ) → out.getD i 0 = buf.getD i 0 := by
  obtain ⟨o1, h1, h2, h3⟩ := imageMethod_adds a buf hb
  have h4 : ∀ i : ℕ, a.impulse_len ≤ (i : ℤ) → o1.getD i 0 = buf.getD i 0 := by
    intro i hi
    rw [h3 i]
    have : ∑ img ∈ imageSet a, pulse a img i = 0 :=
      Finset.sum_eq_zero (fun img _ => pulse_beyond a img i hi)
    dsimp only
    rw [this, add_zero]
  unfold comp_rir
  rw [h1]
  dsimp only
  by_cases hp : a.high_pass ≠ 0
  · rw [if_pos hp]
    obtain ⟨o2, g1, g2, g3⟩ := highPass_safe a.fs a.impulse_len o1 (by rw [h2]; exact hb)
    exact ⟨o2, g1, by rw [g2, h2], fun i hi => by rw [g3 i hi, h4 i hi]⟩
  · rw [if_neg hp]
    exact ⟨o1, rfl, h2, h4⟩

theorem addTap_write_index (N start : ℤ) (gain : ℝ) (LPI b b' : List ℝ) (n i : ℕ)
    (h : addTap N start gain LPI b n = some b') (hne : b'.getD i 0 ≠ b.getD i 0) :
    (i : ℤ) = start + (n : ℤ) ∧ 0 ≤ (i : ℤ) ∧ (i : ℤ) < N ∧ n < LPI.length := by
  unfold addTap at h
  by_cases hc : start + (n : ℤ) ≥ 0 ∧ start + (n : ℤ) < N
  · rw [if_pos hc] at h
    cases h1 : LPI[n]? with
    | none => rw [h1] at h; cases h
    | some t =>
      cases h2 : b[(start + (n : ℤ)).toNat]? with
      | none => rw [h1, h2] at h; cases h
      | some old =>
        rw [h1, h2] at h
        simp only [Option.some.injEq] at h
        subst h
        have hn : n < LPI.length := by
          by_contra hcn
          rw [List.getElem?_eq_none (by omega)] at h1
          cases h1
        by_cases hi : i = (start + (n : ℤ)).toNat
        · refine ⟨by omega, by omega, by omega, hn⟩
        · exfalso
          apply hne
          have hi' : (start + (n : ℤ)).toNat ≠ i := fun e => hi e.symm
          simp [List.getD_eq_getElem?_getD, List.getElem?_set, hi']
  · rw [if_neg hc] at h
    simp only [Option.some.injEq] at h
    subst h
    exact absurd rfl hne

/-- C11: with a buffer of length at least `impulse_len`, `comp_rir` (accumulation and
filter) makes no out-of-range access, keeps the buffer length and leaves the samples at
indices `≥ impulse_len` unchanged; every write of the accumulation loop is at an index in
`[0, impulse_len)` and reads `LPI` at an index below its length; every tap index of the
loops lies in `[0, Tw)`, which is the length of `LPI`; and every index of the filter loop
is below `impulse_len`. -/
theorem no_out_of_range_access (a : Args) (buf : List ℝ)
    (hb : a.impulse_len ≤ (buf.length : ℤ)) :
    (∃ out, comp_rir a buf = some out ∧ out.length = buf.length ∧
      ∀ i : ℕ, a.impulse_len ≤ (i : ℤ) → out.getD i 0 = buf.getD i 0) ∧
    (∀ (start : ℤ) (gain : ℝ) (LPI b b' : List ℝ) (n i : ℕ),
      addTap a.impulse_len start gain LPI b n = some b' → b'.getD i 0 ≠ b.getD i 0 →
        (i : ℤ) = start + (n : ℤ) ∧ 0 ≤ (i : ℤ) ∧ (i : ℤ) < a.impulse_len ∧ n < LPI.length) ∧
    (∀ (d f : ℝ) (n : ℕ), n ∈ forBelow (Tw a.fs) →
      (n : ℤ) < Tw a.fs ∧ n < (fillLPI (Tw a.fs) d f).length) ∧
    (∀ idx : ℕ, idx ∈ forBelow a.impulse_len → (idx : ℤ) < a.impulse_len) := by
  refine ⟨comp_rir_safe a buf hb, ?_, ?_, ?_⟩
  · intro start gain LPI b b' n i h hne
    exact addTap_write_index a.impulse_len start gain LPI b b' n i h hne
  · intro d f n hn
    rw [fillLPI_length]
    unfold forBelow at hn
    rw [List.mem_range] at hn
    exact ⟨by omega, hn⟩
  · intro idx hidx
    unfold forBelow at hidx
    rw [List.mem_range] at hidx
    omega

/-- C11 at a concrete input: the scene `unitDelay` with the filter switched on, on the
buffer `[1, 2, 3, 4, 5]` for `impulse_len = 4`. -/
theorem no_out_of_range_access_witness :
    ({ unitDelay with high_pass := 1 } : Args).impulse_len
      ≤ ((([1, 2, 3, 4, 5] : List ℝ).length : ℕ) : ℤ) ∧
    ∃ out, comp_rir { unitDelay with high_pass := 1 } [1, 2, 3, 4, 5] = some out ∧
      out.length = ([1, 2, 3, 4, 5] : List ℝ).length ∧
      ∀ i : ℕ, ({ unitDelay with high_pass := 1 } : Args).impulse_len ≤ (i : ℤ) →
        out.getD i 0 = ([1, 2, 3, 4, 5] : List ℝ).getD i 0 :=
  ⟨by decide,
    (no_out_of_range_access { unitDelay with high_pass := 1 } [1, 2, 3, 4, 5] (by decide)).1⟩

/-- C14 (additivity): for every initial buffer `b` of length `N = impulse_len` and
`high_pass = 0`, `comp_rir` succeeds on `b` and on the all-zero buffer of the same length,
and the buffer obtained from `b` is, sample by sample, `b` plus the buffer obtained from the
all-zero buffer. -/
theorem accumulation_additive (a : Args) (b : List ℝ)
    (hN : a.impulse_len = (b.length : ℤ)) (hp : a.high_pass = 0) :
    ∃ out z, comp_rir a b = some out ∧
      comp_rir a (List.replicate b.length 0) = some z ∧
      out.length = b.length ∧ z.length = b.length ∧
      ∀ i, out.getD i 0 = b.getD i 0 + z.getD i 0 := by
  obtain ⟨out, h1, h2, h3⟩ := imageMethod_adds a b (le_of_eq hN)
  obtain ⟨z, g1, g2, g3⟩ := comp_rir_zero_buffer a b.length hN hp
  refine ⟨out, z, by rw [comp_rir_no_filter a hp]; exact h1, g1, h2, g2, fun i => ?_⟩
  rw [h3 i, g3 i]

/-- C14 at a concrete input: the scene `unitDelay` on the buffer `[1, 2, 3, 4]`. -/
theorem accumulation_additive_witness :
    unitDelay.impulse_len = ((([1, 2, 3, 4] : List ℝ).length : ℕ) : ℤ) ∧
    unitDelay.high_pass = 0 ∧
    ∃ out z, comp_rir unitDelay [1, 2, 3, 4] = some out ∧
      comp_rir unitDelay (List.replicate ([1, 2, 3, 4] : List ℝ).length 0) = some z ∧
      out.length = ([1, 2, 3, 4] : List ℝ).length ∧
      z.length = ([1, 2, 3, 4] : List ℝ).length ∧
      ∀ i, out.getD i 0 = ([1, 2, 3, 4] : List ℝ).getD i 0 + z.getD i 0 :=
  ⟨rfl, rfl, accumulation_additive unitDelay [1, 2, 3, 4] rfl rfl⟩

/-! ## Geometry of one axis -/

theorem int_trichotomy_cast (m : ℤ) :
    (m : ℝ) ≤ -1 ∨ m = 0 ∨ (1 : ℝ) ≤ (m : ℝ) := by
  rcases lt_trichotomy m 0 with h | h | h
  · left
    have : m ≤ -1 := by omega
    exact_mod_cast this
  · right; left; exact h
  · right; right
    have : 1 ≤ m := by omega
    exact_mod_cast this

theorem sign_cast (q : ℤ) (hq : q = 0 ∨ q = 1) : (q : ℝ) = 0 ∨ (q : ℝ) = 1 := by
  rcases hq with h | h
  · left; exact_mod_cast h
  · right; exact_mod_cast h

/-- On one axis, every image is at least as far from the microphone as the source. -/
theorem axis_min (s r L : ℝ) (m q : ℤ) (hs0 : 0 ≤ s) (hsL : s ≤ L) (hr0 : 0 ≤ r)
    (hrL : r ≤ L) (hq : q = 0 ∨ q = 1) :
    |s - r| ≤ |(1 - 2 * (q : ℝ)) * s - r + 2 * (m : ℝ) * L| := by
  have hL : 0 ≤ L := le_trans hs0 hsL
  rcases sign_cast q hq with hq' | hq' <;> rw [hq']
  · rcases int_trichotomy_cast m with hm | hm | hm
    · have h1 : (m : ℝ) * L ≤ -1 * L := mul_le_mul_of_nonneg_right hm hL
      rw [abs_le]
      constructor
      · have : (1 - 2 * (0 : ℝ)) * s - r + 2 * (m : ℝ) * L ≤ 0 := by nlinarith
        rw [abs_of_nonpos this]
        nlinarith
      · have : (1 - 2 * (0 : ℝ)) * s - r + 2 * (m : ℝ) * L ≤ 0 := by nlinarith
        rw [abs_of_nonpos this]
        nlinarith
    · subst hm
      simp
    · have h1 : 1 * L ≤ (m : ℝ) * L := mul_le_mul_of_nonneg_right hm hL
      have : 0 ≤ (1 - 2 * (0 : ℝ)) * s - r + 2 * (m : ℝ) * L := by nlinarith
      rw [abs_of_nonneg this, abs_le]
      constructor <;> nlinarith
  · rcases int_trichotomy_cast m with hm | hm | hm
    · have h1 : (m : ℝ) * L ≤ -1 * L := mul_le_mul_of_nonneg_right hm hL
      have : (1 - 2 * (1 : ℝ)) * s - r + 2 * (m : ℝ) * L ≤ 0 := by nlinarith
      rw [abs_of_nonpos this, abs_le]
      constructor <;> nlinarith
    · subst hm
      have : (1 - 2 * (1 : ℝ)) * s - r + 2 * ((0 : ℤ) : ℝ) * L ≤ 0 := by
        push_cast; nlinarith
      rw [abs_of_nonpos this, abs_le]
      push_cast
      constructor <;> nlinarith
    · have h1 : 1 * L ≤ (m : ℝ) * L := mul_le_mul_of_nonneg_right hm hL
      have : 0 ≤ (1 - 2 * (1 : ℝ)) * s - r + 2 * (m : ℝ) * L := by nlinarith
      rw [abs_of_nonneg this, abs_le]
      constructor <;> nlinarith

/-- On one axis, with source and microphone strictly inside, the offset vanishes only for
the unmirrored source at the microphone position. -/
theorem axis_zero (s r L : ℝ) (m q : ℤ) (hs0 : 0 < s) (hsL : s < L) (hr0 : 0 < r)
    (hrL : r < L) (hq : q = 0 ∨ q = 1) :
    (1 - 2 * (q : ℝ)) * s - r + 2 * (m : ℝ) * L = 0 ↔ (m = 0 ∧ q = 0 ∧ s = r) := by
  have hL : 0 < L := lt_trans hs0 hsL
  constructor
  · intro h
    rcases hq with hq' | hq'
    · subst hq'
      push_cast at h
      rcases int_trichotomy_cast m with hm | hm | hm
      · have h1 : (m : ℝ) * L ≤ -1 * L := mul_le_mul_of_nonneg_right hm hL.le
        nlinarith
      · subst hm
        push_cast at h
        exact ⟨rfl, rfl, by linarith⟩
      · have h1 : 1 * L ≤ (m : ℝ) * L := mul_le_mul_of_nonneg_right hm hL.le
        nlinarith
    · subst hq'
      push_cast at h
      rcases int_trichotomy_cast m with hm | hm | hm
      · have h1 : (m : ℝ) * L ≤ -1 * L := mul_le_mul_of_nonneg_right hm hL.le
        nlinarith
      · subst hm
        push_cast at h
        nlinarith
      · have h1 : 1 * L ≤ (m : ℝ) * L := mul_le_mul_of_nonneg_right hm hL.le
        nlinarith
  · rintro ⟨rfl, rfl, rfl⟩
    push_cast
    ring

/-! ## Distances of the images -/

theorem offX_direct (a : Args) : offX a Image.direct = a.src_x / cTs a - a.mic_x / cTs a := by
  simp [offX, Image.direct]

theorem offY_direct (a : Args) : offY a Image.direct = a.src_y / cTs a - a.mic_y / cTs a := by
  simp [offY, Image.direct]

theorem offZ_direct (a : Args) : offZ a Image.direct = a.src_z / cTs a - a.mic_z / cTs a := by
  simp [offZ, Image.direct]

theorem sum_sq_eq_zero_iff (x y z : ℝ) : x ^ 2 + y ^ 2 + z ^ 2 = 0 ↔ x = 0 ∧ y = 0 ∧ z = 0 := by
  constructor
  · intro h
    have hx : x ^ 2 = 0 := by nlinarith [sq_nonneg x, sq_nonneg y, sq_nonneg z]
    have hy : y ^ 2 = 0 := by nlinarith [sq_nonneg x, sq_nonneg y, sq_nonneg z]
    have hz : z ^ 2 = 0 := by nlinarith [sq_nonneg x, sq_nonneg y, sq_nonneg z]
    exact ⟨pow_eq_zero_iff (by decide) |>.1 hx, pow_eq_zero_iff (by decide) |>.1 hy,
      pow_eq_zero_iff (by decide) |>.1 hz⟩
  · rintro ⟨rfl, rfl, rfl⟩
    norm_num

theorem imgDist_eq_zero_iff (a : Args) (img : Image) :
    imgDist a img = 0 ↔ offX a img = 0 ∧ offY a img = 0 ∧ offZ a img = 0 := by
  unfold imgDist
  rw [Real.sqrt_eq_zero (by positivity), sum_sq_eq_zero_iff]

theorem direct_dist_le (a : Args) (hin : InRoom a) (img : Image)
    (hs : img.binarySigns) : imgDist a Image.direct ≤ imgDist a img := by
  have hx : offX a Image.direct ^ 2 ≤ offX a img ^ 2 := by
    rw [sq_le_sq, offX_direct]
    exact axis_min _ _ _ img.mx img.q hin.1.1 hin.1.2 hin.2.2.2.1.1 hin.2.2.2.1.2 hs.1
  have hy : offY a Image.direct ^ 2 ≤ offY a img ^ 2 := by
    rw [sq_le_sq, offY_direct]
    exact axis_min _ _ _ img.my img.j hin.2.1.1 hin.2.1.2 hin.2.2.2.2.1.1
      hin.2.2.2.2.1.2 hs.2.1
  have hz : offZ a Image.direct ^ 2 ≤ offZ a img ^ 2 := by
    rw [sq_le_sq, offZ_direct]
    exact axis_min _ _ _ img.mz img.k hin.2.2.1.1 hin.2.2.1.2 hin.2.2.2.2.2.1
      hin.2.2.2.2.2.2 hs.2.2
  unfold imgDist
  exact Real.sqrt_le_sqrt (by linarith)

theorem binarySigns_of_mem (a : Args) (img : Image) (h : img ∈ latticeBox a) :
    img.binarySigns := by
  rw [mem_latticeBox] at h
  exact ⟨h.2.2.2.1, h.2.2.2.2.1, h.2.2.2.2.2⟩

theorem output_zero_before_direct (a : Args) (hin : InRoom a) (i : ℕ)
    (hi : (i : ℤ) < ⌊imgDist a Image.direct⌋ - (Tw a.fs).tdiv 2 + 1) :
    ∑ img ∈ imageSet a, pulse a img i = 0 := by
  apply Finset.sum_eq_zero
  intro img himg
  rw [mem_imageSet] at himg
  have hs := binarySigns_of_mem a img himg.1
  have hfl : ⌊imgDist a Image.direct⌋ ≤ ⌊imgDist a img⌋ :=
    Int.floor_le_floor (direct_dist_le a hin img hs)
  have hz : contribution a img i = 0 := by
    apply contribution_outside
    intro hcon
    have := hcon.1
    omega
  unfold contribution at hz
  rw [if_pos himg.2] at hz
  exact hz

/-- C15 (the direct path is the earliest arrival): with source and microphone coordinates
in `[0, L_axis]` on every axis (in samples), every image with `q, j, k ∈ {0, 1}` has `dist`
at least the direct-path distance `d0`; and with `high_pass = 0` on a zeroed buffer of
length `N = impulse_len`, every output sample at an index below `floor(d0) - Tw/2 + 1` is
exactly `0`, whatever the wall coefficients, the microphone type and the reflection-order
limit. -/
theorem direct_path_earliest (a : Args) (N : ℕ) (hN : a.impulse_len = (N : ℤ))
    (hp : a.high_pass = 0) (hin : InRoom a) :
    (∀ img : Image, img.binarySigns → imgDist a Image.direct ≤ imgDist a img) ∧
    ∃ out, comp_rir a (List.replicate N 0) = some out ∧ out.length = N ∧
      ∀ i : ℕ, (i : ℤ) < ⌊imgDist a Image.direct⌋ - (Tw a.fs).tdiv 2 + 1 →
        out.getD i 0 = 0 := by
  refine ⟨fun img hs => direct_dist_le a hin img hs, ?_⟩
  obtain ⟨out, h1, h2, h3⟩ := comp_rir_zero_buffer a N hN hp
  exact ⟨out, h1, h2, fun i hi => by rw [h3 i, output_zero_before_direct a hin i hi]⟩

theorem scenario_inRoom : InRoom scenario := by
  unfold InRoom cTs scenario
  norm_num

/-- C15 at a concrete input: the scenario of the specification with `N = 4000`. -/
theorem direct_path_earliest_witness :
    scenario.impulse_len = ((4000 : ℕ) : ℤ) ∧ scenario.high_pass = 0 ∧ InRoom scenario ∧
    ∀ img : Image, img.binarySigns →
      imgDist scenario Image.direct ≤ imgDist scenario img :=
  ⟨rfl, rfl, scenario_inRoom, (direct_path_earliest scenario 4000 rfl rfl scenario_inRoom).1⟩

/-! ## Images at distance zero -/

theorem cTs_ne_zero_of_strict (a : Args) (hin : StrictlyInRoom a) : cTs a ≠ 0 := by
  intro h0
  have h := hin.1.1
  rw [h0, div_zero] at h
  exact lt_irrefl 0 h

theorem offX_eq_zero_iff (a : Args) (hin : StrictlyInRoom a) (img : Image)
    (hq : img.q = 0 ∨ img.q = 1) :
    offX a img = 0 ↔ (img.mx = 0 ∧ img.q = 0 ∧ a.src_x = a.mic_x) := by
  unfold offX
  rw [axis_zero _ _ _ img.mx img.q hin.1.1 hin.1.2 hin.2.2.2.1.1 hin.2.2.2.1.2 hq,
    div_left_inj' (cTs_ne_zero_of_strict a hin)]

theorem offY_eq_zero_iff (a : Args) (hin : StrictlyInRoom a) (img : Image)
    (hj : img.j = 0 ∨ img.j = 1) :
    offY a img = 0 ↔ (img.my = 0 ∧ img.j = 0 ∧ a.src_y = a.mic_y) := by
  unfold offY
  rw [axis_zero _ _ _ img.my img.j hin.2.1.1 hin.2.1.2 hin.2.2.2.2.1.1 hin.2.2.2.2.1.2 hj,
    div_left_inj' (cTs_ne_zero_of_strict a hin)]

theorem offZ_eq_zero_iff (a : Args) (hin : StrictlyInRoom a) (img : Image)
    (hk : img.k = 0 ∨ img.k = 1) :
    offZ a img = 0 ↔ (img.mz = 0 ∧ img.k = 0 ∧ a.src_z = a.mic_z) := by
  unfold offZ
  rw [axis_zero _ _ _ img.mz img.k hin.2.2.1.1 hin.2.2.1.2 hin.2.2.2.2.2.1 hin.2.2.2.2.2.2 hk,
    div_left_inj' (cTs_ne_zero_of_strict a hin)]

theorem dist_zero_iff (a : Args) (hin : StrictlyInRoom a) (img : Image)
    (hs : img.binarySigns) :
    imgDist a img = 0 ↔
      (img = Image.direct ∧ a.src_x = a.mic_x ∧ a.src_y = a.mic_y ∧ a.src_z = a.mic_z) := by
  rw [imgDist_eq_zero_iff, offX_eq_zero_iff a hin img hs.1,
    offY_eq_zero_iff a hin img hs.2.1, offZ_eq_zero_iff a hin img hs.2.2,
    image_eq_direct_iff]
  tauto

/-- C19, in exact real arithmetic (no rounding): with source and microphone strictly inside
the room (`0 < coordinate < L_axis` on every axis, in samples), an image with
`q, j, k ∈ {0, 1}` has `dist = 0` if and only if it is the direct-path image and the source
position equals the microphone position; so if the two positions differ, `dist > 0`, and
neither the divisor `4 * M_PI * dist * cTs` of the gain nor the divisor
`sqrt(x*x + y*y + z*z)` in `dipole` is zero. -/
theorem no_division_by_zero (a : Args) (hin : StrictlyInRoom a) (img : Image)
    (hs : img.binarySigns) :
    (imgDist a img = 0 ↔
      (img = Image.direct ∧ a.src_x = a.mic_x ∧ a.src_y = a.mic_y ∧ a.src_z = a.mic_z)) ∧
    (¬ (a.src_x = a.mic_x ∧ a.src_y = a.mic_y ∧ a.src_z = a.mic_z) →
      0 < imgDist a img ∧
      4 * M_PI * imgDist a img * cTs a ≠ 0 ∧
      Real.sqrt (offX a img * offX a img + offY a img * offY a img
        + offZ a img * offZ a img) ≠ 0) := by
  have hc : cTs a ≠ 0 := cTs_ne_zero_of_strict a hin
  have hiff := dist_zero_iff a hin img hs
  refine ⟨hiff, fun hne => ?_⟩
  have hd0 : imgDist a img ≠ 0 := fun h0 => hne (hiff.1 h0).2
  have hpos : 0 < imgDist a img :=
    lt_of_le_of_ne (Real.sqrt_nonneg _) (Ne.symm hd0)
  refine ⟨hpos, ?_, ?_⟩
  · have hpi : M_PI ≠ 0 := Real.pi_ne_zero
    exact mul_ne_zero (mul_ne_zero (mul_ne_zero (by norm_num) hpi) hd0) hc
  · have e : offX a img * offX a img + offY a img * offY a img + offZ a img * offZ a img
        = offX a img ^ 2 + offY a img ^ 2 + offZ a img ^ 2 := by ring
    rw [e]
    exact hd0

theorem scenario_strictlyInRoom : StrictlyInRoom scenario := by
  unfold StrictlyInRoom cTs scenario
  norm_num

/-- C19 at a concrete input: the direct path of the scenario of the specification, whose
source and microphone differ along `x`. -/
theorem no_division_by_zero_witness :
    StrictlyInRoom scenario ∧ Image.direct.binarySigns ∧
    ¬ (scenario.src_x = scenario.mic_x ∧ scenario.src_y = scenario.mic_y
      ∧ scenario.src_z = scenario.mic_z) ∧
    0 < imgDist scenario Image.direct :=
  have hs : Image.direct.binarySigns := ⟨Or.inl rfl, Or.inl rfl, Or.inl rfl⟩
  have hne : ¬ (scenario.src_x = scenario.mic_x ∧ scenario.src_y = scenario.mic_y
      ∧ scenario.src_z = scenario.mic_z) := by
    intro h
    have h1 := h.1
    unfold scenario at h1
    norm_num at h1
  ⟨scenario_strictlyInRoom, hs, hne,
    ((no_division_by_zero scenario scenario_strictlyInRoom Image.direct hs).2 hne).1⟩

/-! ## The dipole pattern as a cosine -/

theorem radius_pos (x y z : ℝ) (hne : ¬ (x = 0 ∧ y = 0 ∧ z = 0)) :
    0 < Real.sqrt (x * x + y * y + z * z) := by
  apply Real.sqrt_pos.2
  have h : x ^ 2 + y ^ 2 + z ^ 2 ≠ 0 := fun h0 => hne ((sum_sq_eq_zero_iff x y z).1 h0)
  have h2 : 0 ≤ x ^ 2 + y ^ 2 + z ^ 2 := by positivity
  have h3 : x * x + y * y + z * z = x ^ 2 + y ^ 2 + z ^ 2 := by ring
  rw [h3]
  exact lt_of_le_of_ne h2 (Ne.symm h)

theorem cos_theta (x y z : ℝ) (hne : ¬ (x = 0 ∧ y = 0 ∧ z = 0)) :
    Real.cos (Real.arccos (z / Real.sqrt (x * x + y * y + z * z)))
      = z / Real.sqrt (x * x + y * y + z * z) := by
  have hR := radius_pos x y z hne
  have hz : |z| ≤ Real.sqrt (x * x + y * y + z * z) := by
    apply Real.abs_le_sqrt
    nlinarith [mul_self_nonneg x, mul_self_nonneg y]
  obtain ⟨h1, h2⟩ := abs_le.1 hz
  apply Real.cos_arccos
  · rw [le_div_iff₀ hR]; linarith
  · rw [div_le_one hR]; exact h2

theorem sin_theta (x y z : ℝ) (hne : ¬ (x = 0 ∧ y = 0 ∧ z = 0)) :
    Real.sin (Real.arccos (z / Real.sqrt (x * x + y * y + z * z)))
      = Real.sqrt (x * x + y * y) / Real.sqrt (x * x + y * y + z * z) := by
  have hR := radius_pos x y z hne
  have hS : 0 ≤ x * x + y * y + z * z := by
    nlinarith [mul_self_nonneg x, mul_self_nonneg y, mul_self_nonneg z]
  have hRR : Real.sqrt (x * x + y * y + z * z) ^ 2 = x * x + y * y + z * z := Real.sq_sqrt hS
  rw [Real.sin_arccos]
  have e : 1 - (z / Real.sqrt (x * x + y * y + z * z)) ^ 2
      = (x * x + y * y) / Real.sqrt (x * x + y * y + z * z) ^ 2 := by
    have hS0 : x * x + y * y + z * z ≠ 0 := by
      intro h0
      rw [h0, Real.sqrt_zero] at hR
      exact lt_irrefl 0 hR
    rw [div_pow, hRR]
    field_simp
    ring
  rw [e, Real.sqrt_div (by nlinarith [mul_self_nonneg x, mul_self_nonneg y]),
    Real.sqrt_sq hR.le]

theorem sin_theta_cos_phi (x y z : ℝ) (hne : ¬ (x = 0 ∧ y = 0 ∧ z = 0)) :
    Real.sin (Real.arccos (z / Real.sqrt (x * x + y * y + z * z))) * Real.cos (atan2 y x)
      = x / Real.sqrt (x * x + y * y + z * z) := by
  rw [sin_theta x y z hne]
  unfold atan2
  by_cases h0 : (⟨x, y⟩ : ℂ) = 0
  · have hx : x = 0 := congrArg Complex.re h0
    have hy : y = 0 := congrArg Complex.im h0
    subst hx hy
    simp
  · rw [Complex.cos_arg h0]
    have habs : Complex.abs ⟨x, y⟩ = Real.sqrt (x * x + y * y) := by
      rw [Complex.abs_apply, Complex.normSq_mk]
    have hpos : Complex.abs ⟨x, y⟩ ≠ 0 := (map_ne_zero Complex.abs).2 h0
    rw [habs] at hpos ⊢
    have hR := (radius_pos x y z hne).ne'
    field_simp
    ring

theorem sin_theta_sin_phi (x y z : ℝ) (hne : ¬ (x = 0 ∧ y = 0 ∧ z = 0)) :
    Real.sin (Real.arccos (z / Real.sqrt (x * x + y * y + z * z))) * Real.sin (atan2 y x)
      = y / Real.sqrt (x * x + y * y + z * z) := by
  rw [sin_theta x y z hne]
  unfold atan2
  by_cases h0 : (⟨x, y⟩ : ℂ) = 0
  · have hx : x = 0 := congrArg Complex.re h0
    have hy : y = 0 := congrArg Complex.im h0
    subst hx hy
    simp
  · rw [Complex.sin_arg]
    have habs : Complex.abs ⟨x, y⟩ = Real.sqrt (x * x + y * y) := by
      rw [Complex.abs_apply, Complex.normSq_mk]
    have hpos : Complex.abs ⟨x, y⟩ ≠ 0 := (map_ne_zero Complex.abs).2 h0
    rw [habs] at hpos ⊢
    have hR := (radius_pos x y z hne).ne'
    field_simp
    ring

theorem dipole_eq_cosine (x y z azimuth elevation : ℝ) (hne : ¬ (x = 0 ∧ y = 0 ∧ z = 0)) :
    dipole x y z azimuth elevation
      = (x * Real.cos elevation * Real.cos azimuth + y * Real.cos elevation * Real.sin azimuth
          + z * Real.sin elevation) / Real.sqrt (x ^ 2 + y ^ 2 + z ^ 2) := by
  have e : x ^ 2 + y ^ 2 + z ^ 2 = x * x + y * y + z * z := by ring
  rw [e]
  unfold dipole
  dsimp only
  have h1 : (0.5 : ℝ) * M_PI - elevation = Real.pi / 2 - elevation := by
    unfold M_PI; ring
  rw [h1, Real.sin_pi_div_two_sub, Real.cos_pi_div_two_sub, Real.cos_sub, cos_theta x y z hne]
  have hc := sin_theta_cos_phi x y z hne
  have hs := sin_theta_sin_phi x y z hne
  have hR := (radius_pos x y z hne).ne'
  calc Real.cos elevation * Real.sin (Real.arccos (z / Real.sqrt (x * x + y * y + z * z)))
          * (Real.cos azimuth * Real.cos (atan2 y x) + Real.sin azimuth * Real.sin (atan2 y x))
        + Real.sin elevation * (z / Real.sqrt (x * x + y * y + z * z))
      = Real.cos elevation * Real.cos azimuth
          * (Real.sin (Real.arccos (z / Real.sqrt (x * x + y * y + z * z)))
            * Real.cos (atan2 y x))
        + Real.cos elevation * Real.sin azimuth
          * (Real.sin (Real.arccos (z / Real.sqrt (x * x + y * y + z * z)))
            * Real.sin (atan2 y x))
        + Real.sin elevation * (z / Real.sqrt (x * x + y * y + z * z)) := by ring
    _ = (x * Real.cos elevation * Real.cos azimuth + y * Real.cos elevation * Real.sin azimuth
          + z * Real.sin elevation) / Real.sqrt (x * x + y * y + z * z) := by
      rw [hc, hs]
      field_simp
      ring

/-- C17: for every nonzero `(x, y, z)` with `R = sqrt(x² + y² + z²)` and every orientation,
`dipole(x, y, z, azimuth, elevation)` is the cosine of the angle between the offset vector
and the facing direction of the microphone:
`(x cos(elevation) cos(azimuth) + y cos(elevation) sin(azimuth) + z sin(elevation)) / R`. -/
theorem dipole_is_cosine (x y z azimuth elevation : ℝ) (hne : ¬ (x = 0 ∧ y = 0 ∧ z = 0)) :
    dipole x y z azimuth elevation
      = (x * Real.cos elevation * Real.cos azimuth + y * Real.cos elevation * Real.sin azimuth
          + z * Real.sin elevation) / Real.sqrt (x ^ 2 + y ^ 2 + z ^ 2) :=
  dipole_eq_cosine x y z azimuth elevation hne

/-- C17 at a concrete input: the position `(3, 0, 4)` and the orientation `(0, 0)`. -/
theorem dipole_is_cosine_witness :
    ¬ ((3 : ℝ) = 0 ∧ (0 : ℝ) = 0 ∧ (4 : ℝ) = 0) ∧
    dipole 3 0 4 0 0
      = (3 * Real.cos 0 * Real.cos 0 + 0 * Real.cos 0 * Real.sin 0 + 4 * Real.sin 0)
          / Real.sqrt (3 ^ 2 + 0 ^ 2 + 4 ^ 2) :=
  ⟨by norm_num, dipole_is_cosine 3 0 4 0 0 (by norm_num)⟩

/-! ## Integer delays -/

theorem sinc_int_mul_pi (k : ℤ) : sinc (M_PI * Fc * (k : ℝ)) = if k = 0 then 1 else 0 := by
  unfold sinc M_PI Fc
  by_cases hk : k = 0
  · subst hk
    norm_num
  · have hk' : (k : ℝ) ≠ 0 := by exact_mod_cast hk
    have hne : Real.pi * 1 * (k : ℝ) ≠ 0 := by
      have := Real.pi_ne_zero
      positivity
    rw [if_neg hne, if_neg hk]
    have e : Real.pi * 1 * (k : ℝ) = (k : ℝ) * Real.pi := by ring
    rw [e, Real.sin_int_mul_pi, zero_div]

theorem integer_delay_tap (T : ℤ) (d : ℝ) (n : ℕ) (hT : 2 ≤ T) (hn : (n : ℤ) < T)
    (heven : T = 2 * T.tdiv 2) :
    (fillLPI T d d).getD n 0 = if (n : ℤ) = T.tdiv 2 - 1 then 1 else 0 := by
  rw [fillLPI_getD T d d n (by omega)]
  have hh : ((T.tdiv 2 : ℤ) : ℝ) * 2 = (T : ℝ) := by
    have : T.tdiv 2 * 2 = T := by omega
    exact_mod_cast this
  have e : (n : ℝ) + 1 - (d - d) - 0.5 * (T : ℝ) = (((n : ℤ) + 1 - T.tdiv 2 : ℤ) : ℝ) := by
    push_cast
    rw [← hh]
    ring
  rw [e, sinc_int_mul_pi]
  by_cases hc : (n : ℤ) = T.tdiv 2 - 1
  · have h0 : (n : ℤ) + 1 - T.tdiv 2 = 0 := by omega
    rw [if_pos h0, if_pos hc]
    have hT0 : (T : ℝ) ≠ 0 := by
      have : T ≠ 0 := by omega
      exact_mod_cast this
    have harg : 2 * M_PI * (((n : ℝ) + 1 - (d - d)) / (T : ℝ)) = Real.pi := by
      have hn1 : (n : ℝ) + 1 = ((T.tdiv 2 : ℤ) : ℝ) := by
        have : (n : ℤ) + 1 = T.tdiv 2 := by omega
        exact_mod_cast this
      unfold M_PI
      rw [sub_self, sub_zero, hn1, ← hh]
      have hhalf : ((T.tdiv 2 : ℤ) : ℝ) ≠ 0 := by
        intro h0'
        rw [h0', zero_mul] at hh
        exact hT0 hh.symm
      field_simp
      ring
    rw [harg, Real.cos_pi]
    unfold Fc
    norm_num
  · have h0 : ¬ ((n : ℤ) + 1 - T.tdiv 2 = 0) := by omega
    rw [if_neg h0, if_neg hc, mul_zero]

theorem integer_delay_imgTap (a : Args) (img : Image) (d : ℤ) (hT : 2 ≤ Tw a.fs)
    (hd : imgDist a img = (d : ℝ)) (t : ℤ) :
    imgTap a img t = if t = (Tw a.fs).tdiv 2 - 1 then 1 else 0 := by
  have heven := Tw_eq_two_mul_half a.fs
  unfold imgTap
  by_cases ht : 0 ≤ t ∧ t < Tw a.fs
  · rw [if_pos ht, hd, Int.floor_intCast]
    have hn : ((t.toNat : ℕ) : ℤ) = t := Int.toNat_of_nonneg ht.1
    rw [integer_delay_tap (Tw a.fs) (d : ℝ) t.toNat hT (by omega) heven, hn]
  · rw [if_neg ht]
    have : ¬ (t = (Tw a.fs).tdiv 2 - 1) := by
      intro h
      apply ht
      omega
    rw [if_neg this]

theorem integer_delay_contribution (a : Args) (img : Image) (d : ℤ) (hT : 2 ≤ Tw a.fs)
    (hd : imgDist a img = (d : ℝ)) (hinj : injected a img) (i : ℕ) :
    contribution a img i = if (i : ℤ) = d then imgGain a img else 0 := by
  have hfl : ⌊imgDist a img⌋ = d := by rw [hd, Int.floor_intCast]
  have hlt : d < a.impulse_len := by
    have h2 := hinj.2
    rw [hfl] at h2
    exact_mod_cast h2
  unfold contribution pulse
  rw [if_pos hinj, integer_delay_imgTap a img d hT hd]
  unfold imgStart
  rw [hfl]
  by_cases hi : (i : ℤ) = d
  · have e : (i : ℤ) - (d - (Tw a.fs).tdiv 2 + 1) = (Tw a.fs).tdiv 2 - 1 := by omega
    rw [if_pos (by omega), if_pos e, if_pos hi, mul_one]
  · have e : ¬ ((i : ℤ) - (d - (Tw a.fs).tdiv 2 + 1) = (Tw a.fs).tdiv 2 - 1) := by omega
    rw [if_neg e, if_neg hi, mul_zero]
    split <;> rfl

/-- C18, in exact real arithmetic (no rounding, `M_PI = π`): when `Tw ≥ 2` and the distance
`dist` of an injected image is an integer `d`, its kernel taps are `LPI[Tw/2 - 1] = 1` and
`LPI[n] = 0` for every other `n`, so the loop body adds exactly the gain of the image to
`impulse[d]` and changes no other sample. -/
theorem integer_delay_impulse (a : Args) (img : Image) (d : ℤ) (buf : List ℝ)
    (hb : a.impulse_len ≤ (buf.length : ℤ)) (hT : 2 ≤ Tw a.fs)
    (hd : imgDist a img = (d : ℝ)) (hinj : injected a img) :
    (∀ n : ℕ, (n : ℤ) < Tw a.fs →
      (fillLPI (Tw a.fs) (imgDist a img) ((⌊imgDist a img⌋ : ℤ) : ℝ)).getD n 0
        = if (n : ℤ) = (Tw a.fs).tdiv 2 - 1 then 1 else 0) ∧
    ∃ out, imageStep a img buf = some out ∧ out.length = buf.length ∧
      ∀ i : ℕ, out.getD i 0 = buf.getD i 0 + if (i : ℤ) = d then imgGain a img else 0 := by
  constructor
  · intro n hn
    rw [hd, Int.floor_intCast]
    exact integer_delay_tap (Tw a.fs) (d : ℝ) n hT hn (Tw_eq_two_mul_half a.fs)
  · obtain ⟨out, h1, h2, h3⟩ := imageStep_adds a img buf hb
    exact ⟨out, h1, h2, fun i => by
      rw [h3 i, integer_delay_contribution a img d hT hd hinj i]⟩

/-- C18 at a concrete input: the direct path of `unitDelay` (`Tw = 2`, `dist = 1`) on a
zeroed buffer of length 4. -/
theorem integer_delay_impulse_witness :
    unitDelay.impulse_len ≤ (((List.replicate 4 (0 : ℝ)).length : ℕ) : ℤ) ∧
    2 ≤ Tw unitDelay.fs ∧ imgDist unitDelay Image.direct = ((1 : ℤ) : ℝ) ∧
    injected unitDelay Image.direct ∧
    ∃ out, imageStep unitDelay Image.direct (List.replicate 4 0) = some out ∧
      out.length = (List.replicate 4 (0 : ℝ)).length ∧
      ∀ i : ℕ, out.getD i 0 = (List.replicate 4 (0 : ℝ)).getD i 0
        + if (i : ℤ) = 1 then imgGain unitDelay Image.direct else 0 :=
  have hb : unitDelay.impulse_len ≤ (((List.replicate 4 (0 : ℝ)).length : ℕ) : ℤ) := by
    decide
  have hT : 2 ≤ Tw unitDelay.fs := by rw [unitDelay_Tw]
  have hd : imgDist unitDelay Image.direct = ((1 : ℤ) : ℝ) := by
    rw [unitDelay_dist]; norm_num
  ⟨hb, hT, hd, unitDelay_injected,
    (integer_delay_impulse unitDelay Image.direct 1 (List.replicate 4 0) hb hT hd
      unitDelay_injected).2⟩

/-! ## Exchanging source and microphone -/

theorem flip_flip (img : Image) : img.flip.flip = img := by
  cases img with
  | mk mx my mz q j k =>
    simp only [Image.flip, flipIndex, Image.mk.injEq, and_true]
    refine ⟨?_, ?_, ?_⟩ <;> split <;> simp

theorem flipIndex_abs (m s : ℤ) : |flipIndex m s| = |m| := by
  unfold flipIndex
  split
  · exact abs_neg m
  · rfl

theorem flip_mem_latticeBox (a : Args) (img : Image) (h : img ∈ latticeBox a) :
    img.flip ∈ latticeBox a := by
  rw [mem_latticeBox] at h ⊢
  simp only [Image.flip, flipIndex_abs]
  exact h

theorem axis_swap_sq (s r L : ℝ) (m q : ℤ) (hq : q = 0 ∨ q = 1) :
    ((1 - 2 * (q : ℝ)) * r - s + 2 * (m : ℝ) * L) ^ 2
      = ((1 - 2 * (q : ℝ)) * s - r + 2 * ((flipIndex m q : ℤ) : ℝ) * L) ^ 2 := by
  unfold flipIndex
  rcases hq with rfl | rfl
  · rw [if_pos rfl]
    push_cast
    ring
  · rw [if_neg (by decide)]
    push_cast
    ring

theorem axis_swap_refl (b0 b1 : ℝ) (m q : ℤ) (hq : q = 0 ∨ q = 1) :
    powAbs b0 (m - q) * powAbs b1 m
      = powAbs b0 (flipIndex m q - q) * powAbs b1 (flipIndex m q) := by
  unfold flipIndex powAbs
  rcases hq with rfl | rfl
  · rw [if_pos rfl]
    simp only [sub_zero, Int.natAbs_neg]
  · rw [if_neg (by decide)]

theorem axis_swap_order (m q : ℤ) (hq : q = 0 ∨ q = 1) :
    |2 * flipIndex m q - q| = |2 * m - q| := by
  unfold flipIndex
  rcases hq with rfl | rfl
  · rw [if_pos rfl]
    have : 2 * -m - 0 = -(2 * m - 0) := by ring
    rw [this, abs_neg]
  · rw [if_neg (by decide)]

theorem swap_offX_sq (a : Args) (img : Image) (hs : img.binarySigns) :
    offX (swapPositions a) img ^ 2 = offX a img.flip ^ 2 :=
  axis_swap_sq _ _ _ img.mx img.q hs.1

theorem swap_offY_sq (a : Args) (img : Image) (hs : img.binarySigns) :
    offY (swapPositions a) img ^ 2 = offY a img.flip ^ 2 :=
  axis_swap_sq _ _ _ img.my img.j hs.2.1

theorem swap_offZ_sq (a : Args) (img : Image) (hs : img.binarySigns) :
    offZ (swapPositions a) img ^ 2 = offZ a img.flip ^ 2 :=
  axis_swap_sq _ _ _ img.mz img.k hs.2.2

theorem swap_dist (a : Args) (img : Image) (hs : img.binarySigns) :
    imgDist (swapPositions a) img = imgDist a img.flip := by
  unfold imgDist
  rw [swap_offX_sq a img hs, swap_offY_sq a img hs, swap_offZ_sq a img hs]

theorem swap_refl (a : Args) (img : Image) (hs : img.binarySigns) :
    reflX (swapPositions a) img = reflX a img.flip ∧
    reflY (swapPositions a) img = reflY a img.flip ∧
    reflZ (swapPositions a) img = reflZ a img.flip :=
  ⟨axis_swap_refl _ _ img.mx img.q hs.1, axis_swap_refl _ _ img.my img.j hs.2.1,
    axis_swap_refl _ _ img.mz img.k hs.2.2⟩

theorem flip_order (img : Image) (hs : img.binarySigns) : imgOrder img.flip = imgOrder img := by
  unfold imgOrder
  simp only [Image.flip]
  rw [axis_swap_order _ _ hs.1, axis_swap_order _ _ hs.2.1, axis_swap_order _ _ hs.2.2]

theorem flip_binarySigns (img : Image) (hs : img.binarySigns) : img.flip.binarySigns := hs

theorem swap_injected (a : Args) (img : Image) (hs : img.binarySigns) :
    injected (swapPositions a) img ↔ injected a img.flip := by
  unfold injected passesOrder
  rw [swap_dist a img hs, flip_order img hs]
  exact Iff.rfl

theorem swap_pulse (a : Args) (h : beam_ptr a.mic_type = omni) (img : Image)
    (hs : img.binarySigns) (i : ℕ) :
    pulse (swapPositions a) img i = pulse a img.flip i := by
  have hd := swap_dist a img hs
  obtain ⟨hx, hy, hz⟩ := swap_refl a img hs
  have h2 : beam_ptr (swapPositions a).mic_type = omni := h
  have hg : imgGain (swapPositions a) img = imgGain a img.flip := by
    unfold imgGain
    rw [hd, hx, hy, hz, h, h2]
    rfl
  have hst : imgStart (swapPositions a) img = imgStart a img.flip := by
    unfold imgStart
    rw [hd]
    rfl
  have ht : ∀ t, imgTap (swapPositions a) img t = imgTap a img.flip t := by
    intro t
    unfold imgTap
    rw [hd]
    rfl
  unfold pulse
  rw [hg, hst, ht]
  rfl

theorem swap_sum (a : Args) (h : beam_ptr a.mic_type = omni) (i : ℕ) :
    ∑ img ∈ imageSet (swapPositions a), pulse (swapPositions a) img i
      = ∑ img ∈ imageSet a, pulse a img i := by
  have hbox : ∀ img, img ∈ latticeBox (swapPositions a) ↔ img ∈ latticeBox a :=
    fun _ => Iff.rfl
  refine Finset.sum_nbij' Image.flip Image.flip ?_ ?_ ?_ ?_ ?_
  · intro img himg
    rw [mem_imageSet] at himg ⊢
    have hmem := (hbox img).1 himg.1
    have hs := binarySigns_of_mem a img hmem
    exact ⟨flip_mem_latticeBox a img hmem, (swap_injected a img hs).1 himg.2⟩
  · intro img himg
    rw [mem_imageSet] at himg ⊢
    have hs := binarySigns_of_mem a img himg.1
    have hmem := flip_mem_latticeBox a img himg.1
    refine ⟨(hbox _).2 hmem, (swap_injected a img.flip (flip_binarySigns img hs)).2 ?_⟩
    rw [flip_flip]
    exact himg.2
  · intro img _
    exact flip_flip img
  · intro img _
    exact flip_flip img
  · intro img himg
    rw [mem_imageSet] at himg
    exact swap_pulse a h img (binarySigns_of_mem a img ((hbox img).1 himg.1)) i

theorem swap_imageMethod (a : Args) (h : beam_ptr a.mic_type = omni) (buf : List ℝ)
    (hb : a.impulse_len ≤ (buf.length : ℤ)) :
    imageMethod (swapPositions a) buf = imageMethod a buf := by
  obtain ⟨o1, h1, h2, h3⟩ := imageMethod_adds a buf hb
  obtain ⟨o2, g1, g2, g3⟩ := imageMethod_adds (swapPositions a) buf hb
  rw [h1, g1]
  congr 1
  apply ext_getD
  · rw [g2, h2]
  · intro i
    rw [g3 i, h3 i]
    dsimp only
    rw [swap_sum a h i]

theorem swap_comp_rir (a : Args) (h : beam_ptr a.mic_type = omni) (buf : List ℝ)
    (hb : a.impulse_len ≤ (buf.length : ℤ)) :
    comp_rir (swapPositions a) buf = comp_rir a buf := by
  unfold comp_rir
  rw [swap_imageMethod a h buf hb]
  rfl

/-- C16 (source/microphone reciprocity for the omni pattern): for every `mic_type` that
selects `omni` and every buffer of length at least `impulse_len`, `comp_rir` with the
microphone and source positions exchanged returns the same buffer; the map
`(m, 0) ↦ (-m, 0)`, `(m, 1) ↦ (m, 1)` on each axis is an involution of the enumerated
lattice, and the image of an image under it has, in the original scene, the same
`|offset|` on every axis, the same `dist`, the same `refl` factors and the same reflection
order as the image has in the exchanged scene. -/
theorem omni_reciprocity (a : Args) (hd : a.mic_type ≠ 'd') (hc : a.mic_type ≠ 'c')
    (hs : a.mic_type ≠ 's') (hh : a.mic_type ≠ 'h') (buf : List ℝ)
    (hb : a.impulse_len ≤ (buf.length : ℤ)) :
    (∃ out, comp_rir a buf = some out ∧ comp_rir (swapPositions a) buf = some out) ∧
    (∀ img : Image, img.binarySigns →
      img.flip.flip = img ∧
      (img ∈ latticeBox (swapPositions a) → img.flip ∈ latticeBox a) ∧
      |offX (swapPositions a) img| = |offX a img.flip| ∧
      |offY (swapPositions a) img| = |offY a img.flip| ∧
      |offZ (swapPositions a) img| = |offZ a img.flip| ∧
      imgDist (swapPositions a) img = imgDist a img.flip ∧
      reflX (swapPositions a) img = reflX a img.flip ∧
      reflY (swapPositions a) img = reflY a img.flip ∧
      reflZ (swapPositions a) img = reflZ a img.flip ∧
      imgOrder img.flip = imgOrder img) := by
  have hbeam := beam_ptr_other a.mic_type hd hc hs hh
  constructor
  · obtain ⟨out, h1, _, _⟩ := comp_rir_safe a buf hb
    exact ⟨out, h1, by rw [swap_comp_rir a hbeam buf hb]; exact h1⟩
  · intro img hsg
    obtain ⟨rx, ry, rz⟩ := swap_refl a img hsg
    exact ⟨flip_flip img, fun hm => flip_mem_latticeBox a img hm,
      sq_eq_sq_iff_abs_eq_abs _ _ |>.1 (swap_offX_sq a img hsg),
      sq_eq_sq_iff_abs_eq_abs _ _ |>.1 (swap_offY_sq a img hsg),
      sq_eq_sq_iff_abs_eq_abs _ _ |>.1 (swap_offZ_sq a img hsg),
      swap_dist a img hsg, rx, ry, rz, flip_order img hsg⟩

/-- C16 at a concrete input: the scenario of the specification on a zeroed buffer of
length 4000. -/
theorem omni_reciprocity_witness :
    scenario.mic_type ≠ 'd' ∧ scenario.mic_type ≠ 'c' ∧ scenario.mic_type ≠ 's' ∧
    scenario.mic_type ≠ 'h' ∧
    scenario.impulse_len ≤ (((List.replicate 4000 (0 : ℝ)).length : ℕ) : ℤ) ∧
    ∃ out, comp_rir scenario (List.replicate 4000 0) = some out ∧
      comp_rir (swapPositions scenario) (List.replicate 4000 0) = some out :=
  have hb : scenario.impulse_len ≤ (((List.replicate 4000 (0 : ℝ)).length : ℕ) : ℤ) := by
    rw [List.length_replicate]
    exact le_of_eq rfl
  ⟨by decide, by decide, by decide, by decide, hb,
    (omni_reciprocity scenario (by decide) (by decide) (by decide) (by decide)
      (List.replicate 4000 0) hb).1⟩

/-! ## Scenes given in metres -/

theorem inRoom_of_metres (a : Args) (hss : 0 < a.sound_speed) (hfs : 0 < a.fs)
    (hsx : 0 ≤ a.src_x ∧ a.src_x ≤ a.size_x) (hsy : 0 ≤ a.src_y ∧ a.src_y ≤ a.size_y)
    (hsz : 0 ≤ a.src_z ∧ a.src_z ≤ a.size_z) (hrx : 0 ≤ a.mic_x ∧ a.mic_x ≤ a.size_x)
    (hry : 0 ≤ a.mic_y ∧ a.mic_y ≤ a.size_y) (hrz : 0 ≤ a.mic_z ∧ a.mic_z ≤ a.size_z) :
    InRoom a := by
  have hc : 0 < cTs a := div_pos hss hfs
  have key : ∀ s L : ℝ, 0 ≤ s ∧ s ≤ L → 0 ≤ s / cTs a ∧ s / cTs a ≤ L / cTs a :=
    fun s L h => ⟨div_nonneg h.1 hc.le, div_le_div_of_nonneg_right h.2 hc.le⟩
  exact ⟨key _ _ hsx, key _ _ hsy, key _ _ hsz, key _ _ hrx, key _ _ hry, key _ _ hrz⟩

theorem strictlyInRoom_of_metres (a : Args) (hss : 0 < a.sound_speed) (hfs : 0 < a.fs)
    (hsx : 0 < a.src_x ∧ a.src_x < a.size_x) (hsy : 0 < a.src_y ∧ a.src_y < a.size_y)
    (hsz : 0 < a.src_z ∧ a.src_z < a.size_z) (hrx : 0 < a.mic_x ∧ a.mic_x < a.size_x)
    (hry : 0 < a.mic_y ∧ a.mic_y < a.size_y) (hrz : 0 < a.mic_z ∧ a.mic_z < a.size_z) :
    StrictlyInRoom a := by
  have hc : 0 < cTs a := div_pos hss hfs
  have key : ∀ s L : ℝ, 0 < s ∧ s < L → 0 < s / cTs a ∧ s / cTs a < L / cTs a :=
    fun s L h => ⟨div_pos h.1 hc, div_lt_div_of_pos_right h.2 hc⟩
  exact ⟨key _ _ hsx, key _ _ hsy, key _ _ hsz, key _ _ hrx, key _ _ hry, key _ _ hrz⟩

theorem positiveLengths_of_valid (a : Args) (h : ValidRoom a) : PositiveLengths a :=
  ⟨div_pos h.2.2.1 (cTs_pos a h), div_pos h.2.2.2.1 (cTs_pos a h),
    div_pos h.2.2.2.2 (cTs_pos a h)⟩

/-! ## Binary64 rounding -/

theorem roundEven_eq (t : ℝ) (m : ℤ) (h1 : (m : ℝ) - 1 / 2 < t) (h2 : t < (m : ℝ) + 1 / 2) :
    roundEven t = m := by
  unfold roundEven
  by_cases hm : (m : ℝ) ≤ t
  · have hf : ⌊t⌋ = m := Int.floor_eq_iff.2 ⟨hm, by linarith⟩
    rw [hf, if_pos (by linarith)]
  · push_neg at hm
    have hf : ⌊t⌋ = m - 1 := Int.floor_eq_iff.2 ⟨by push_cast; linarith, by push_cast; linarith⟩
    rw [hf]
    push_cast
    rw [if_neg (by linarith), if_pos (by linarith)]
    ring

theorem log_two_eq (x : ℝ) (e : ℤ) (h1 : (2 : ℝ) ^ e ≤ |x|) (h2 : |x| < (2 : ℝ) ^ (e + 1)) :
    Int.log 2 |x| = e := by
  have hpos : 0 < |x| := lt_of_lt_of_le (by positivity) h1
  have a1 : e ≤ Int.log 2 |x| := (Int.zpow_le_iff_le_log (by norm_num) hpos).1 (by exact_mod_cast h1)
  have a2 : Int.log 2 |x| < e + 1 := (Int.lt_zpow_iff_log_lt (by norm_num) hpos).1 (by exact_mod_cast h2)
  omega

theorem fl_eq (x : ℝ) (e m : ℤ) (h1 : (2 : ℝ) ^ e ≤ |x|) (h2 : |x| < (2 : ℝ) ^ (e + 1))
    (h3 : ((m : ℝ) - 1 / 2) * (2 : ℝ) ^ (e - 52) < x)
    (h4 : x < ((m : ℝ) + 1 / 2) * (2 : ℝ) ^ (e - 52)) :
    fl x = (m : ℝ) * (2 : ℝ) ^ (e - 52) := by
  have hx : x ≠ 0 := by
    intro h0
    rw [h0, abs_zero] at h1
    have : (0 : ℝ) < (2 : ℝ) ^ e := by positivity
    linarith
  have hp : (0 : ℝ) < (2 : ℝ) ^ (e - 52) := by positivity
  unfold fl
  rw [if_neg hx, log_two_eq x e h1 h2]
  rw [roundEven_eq _ m ((lt_div_iff₀ hp).2 h3) ((div_lt_iff₀ hp).2 h4)]

theorem fl_eq_pos (x : ℝ) (e m : ℤ) (h1 : (2 : ℝ) ^ e ≤ x) (h2 : x < (2 : ℝ) ^ (e + 1))
    (h3 : ((m : ℝ) - 1 / 2) * (2 : ℝ) ^ (e - 52) < x)
    (h4 : x < ((m : ℝ) + 1 / 2) * (2 : ℝ) ^ (e - 52)) :
    fl x = (m : ℝ) * (2 : ℝ) ^ (e - 52) := by
  have hpos : 0 < x := lt_of_lt_of_le (by positivity) h1
  exact fl_eq x e m (by rwa [abs_of_pos hpos]) (by rwa [abs_of_pos hpos]) h3 h4

theorem fl_eq_neg (x : ℝ) (e m : ℤ) (h1 : (2 : ℝ) ^ e ≤ -x) (h2 : -x < (2 : ℝ) ^ (e + 1))
    (h3 : ((m : ℝ) - 1 / 2) * (2 : ℝ) ^ (e - 52) < x)
    (h4 : x < ((m : ℝ) + 1 / 2) * (2 : ℝ) ^ (e - 52)) :
    fl x = (m : ℝ) * (2 : ℝ) ^ (e - 52) := by
  have hneg : x < 0 := by
    have : (0 : ℝ) < (2 : ℝ) ^ e := by positivity
    linarith
  exact fl_eq x e m (by rwa [abs_of_neg hneg]) (by rwa [abs_of_neg hneg]) h3 h4

theorem fl_zero : fl 0 = 0 := by
  unfold fl
  rw [if_pos rfl]

theorem roundEven_ge_floor (t : ℝ) : ⌊t⌋ ≤ roundEven t := by
  unfold roundEven
  split
  · exact le_refl _
  · split
    · omega
    · split
      · exact le_refl _
      · omega

theorem roundEven_le_floor_succ (t : ℝ) : roundEven t ≤ ⌊t⌋ + 1 := by
  unfold roundEven
  split
  · omega
  · split
    · exact le_refl _
    · split
      · omega
      · exact le_refl _

theorem fl_pos (x : ℝ) (hx : 0 < x) : 0 < fl x := by
  unfold fl
  rw [if_neg hx.ne']
  have hp : (0 : ℝ) < (2 : ℝ) ^ (Int.log 2 |x| - 52) := by positivity
  apply mul_pos _ hp
  have hlog : ((2 : ℕ) : ℝ) ^ Int.log 2 |x| ≤ |x| := Int.zpow_log_le_self (by norm_num) (abs_pos.2 hx.ne')
  rw [abs_of_pos hx] at hlog
  have ht : (1 : ℝ) ≤ x / (2 : ℝ) ^ (Int.log 2 x - 52) := by
    rw [abs_of_pos hx] at hp
    rw [le_div_iff₀ hp, one_mul]
    refine le_trans ?_ (by exact_mod_cast hlog)
    exact zpow_le_zpow_right₀ (by norm_num) (by omega)
  rw [abs_of_pos hx]
  have h1 : (1 : ℤ) ≤ ⌊x / (2 : ℝ) ^ (Int.log 2 x - 52)⌋ := Int.le_floor.2 (by exact_mod_cast ht)
  have h2 := roundEven_ge_floor (x / (2 : ℝ) ^ (Int.log 2 x - 52))
  have : (1 : ℤ) ≤ roundEven (x / (2 : ℝ) ^ (Int.log 2 x - 52)) := le_trans h1 h2
  exact_mod_cast lt_of_lt_of_le zero_lt_one this

theorem fl_neg_of_neg (x : ℝ) (hx : x < 0) : fl x < 0 := by
  unfold fl
  rw [if_neg hx.ne]
  have hp : (0 : ℝ) < (2 : ℝ) ^ (Int.log 2 |x| - 52) := by positivity
  apply mul_neg_of_neg_of_pos _ hp
  have hlog : ((2 : ℕ) : ℝ) ^ Int.log 2 |x| ≤ |x| :=
    Int.zpow_log_le_self (by norm_num) (abs_pos.2 hx.ne)
  have ht : x / (2 : ℝ) ^ (Int.log 2 |x| - 52) ≤ -2 := by
    rw [div_le_iff₀ hp]
    have h2 : (2 : ℝ) ^ (Int.log 2 |x| - 52 + 1) ≤ (2 : ℝ) ^ Int.log 2 |x| :=
      zpow_le_zpow_right₀ (by norm_num) (by omega)
    rw [zpow_add_one₀ (by norm_num)] at h2
    have h3 : (2 : ℝ) ^ Int.log 2 |x| ≤ -x := by
      rw [abs_of_neg hx] at hlog ⊢
      exact_mod_cast hlog
    linarith
  have h1 : ⌊x / (2 : ℝ) ^ (Int.log 2 |x| - 52)⌋ ≤ -2 := by
    have := Int.floor_le (x / (2 : ℝ) ^ (Int.log 2 |x| - 52))
    have h5 : ((⌊x / (2 : ℝ) ^ (Int.log 2 |x| - 52)⌋ : ℤ) : ℝ) ≤ ((-2 : ℤ) : ℝ) := by
      push_cast; linarith
    exact_mod_cast h5
  have h2 := roundEven_le_floor_succ (x / (2 : ℝ) ^ (Int.log 2 |x| - 52))
  have h6 : roundEven (x / (2 : ℝ) ^ (Int.log 2 |x| - 52)) < 0 := by omega
  exact_mod_cast h6

theorem fl_exact_pos (m e : ℤ) (h1 : (2 : ℤ) ^ 52 ≤ m) (h2 : m < (2 : ℤ) ^ 53) :
    fl ((m : ℝ) * (2 : ℝ) ^ (e - 52)) = (m : ℝ) * (2 : ℝ) ^ (e - 52) := by
  have hp : (0 : ℝ) < (2 : ℝ) ^ (e - 52) := by positivity
  have e1 : (2 : ℝ) ^ e = (2 : ℝ) ^ (52 : ℕ) * (2 : ℝ) ^ (e - 52) := by
    rw [← zpow_natCast, ← zpow_add₀ (by norm_num)]
    congr 1
    omega
  have e2 : (2 : ℝ) ^ (e + 1) = (2 : ℝ) ^ (53 : ℕ) * (2 : ℝ) ^ (e - 52) := by
    rw [← zpow_natCast, ← zpow_add₀ (by norm_num)]
    congr 1
    omega
  have c1 : ((2 : ℝ) ^ (52 : ℕ)) ≤ (m : ℝ) := by exact_mod_cast h1
  have c2 : (m : ℝ) < (2 : ℝ) ^ (53 : ℕ) := by exact_mod_cast h2
  apply fl_eq_pos
  · rw [e1]
    exact mul_le_mul_of_nonneg_right c1 hp.le
  · rw [e2]
    exact mul_lt_mul_of_pos_right c2 hp
  · exact mul_lt_mul_of_pos_right (by linarith) hp
  · exact mul_lt_mul_of_pos_right (by linarith) hp

theorem fl_fl_pos (x : ℝ) (hx : 0 < x) : fl (fl x) = fl x := by
  have hp : (0 : ℝ) < (2 : ℝ) ^ (Int.log 2 |x| - 52) := by positivity
  have hlo : ((2 : ℕ) : ℝ) ^ Int.log 2 |x| ≤ |x| :=
    Int.zpow_log_le_self (by norm_num) (abs_pos.2 hx.ne')
  have hhi : |x| < ((2 : ℕ) : ℝ) ^ (Int.log 2 |x| + 1) :=
    Int.lt_zpow_succ_log_self (by norm_num) _
  rw [abs_of_pos hx] at hp hlo hhi
  push_cast at hlo hhi
  have e1 : (2 : ℝ) ^ Int.log 2 x = (2 : ℝ) ^ (52 : ℕ) * (2 : ℝ) ^ (Int.log 2 x - 52) := by
    rw [← zpow_natCast, ← zpow_add₀ (by norm_num)]
    congr 1
    omega
  have e2 : (2 : ℝ) ^ (Int.log 2 x + 1)
      = (2 : ℝ) ^ (53 : ℕ) * (2 : ℝ) ^ (Int.log 2 x - 52) := by
    rw [← zpow_natCast, ← zpow_add₀ (by norm_num)]
    congr 1
    omega
  have t1 : (2 : ℝ) ^ (52 : ℕ) ≤ x / (2 : ℝ) ^ (Int.log 2 x - 52) := by
    rw [le_div_iff₀ hp, ← e1]
    exact hlo
  have t2 : x / (2 : ℝ) ^ (Int.log 2 x - 52) < (2 : ℝ) ^ (53 : ℕ) := by
    rw [div_lt_iff₀ hp, ← e2]
    exact hhi
  have f1 : (2 : ℤ) ^ 52 ≤ ⌊x / (2 : ℝ) ^ (Int.log 2 x - 52)⌋ :=
    Int.le_floor.2 (by exact_mod_cast t1)
  have f2 : ⌊x / (2 : ℝ) ^ (Int.log 2 x - 52)⌋ < (2 : ℤ) ^ 53 :=
    Int.floor_lt.2 (by exact_mod_cast t2)
  have r1 := roundEven_ge_floor (x / (2 : ℝ) ^ (Int.log 2 x - 52))
  have r2 := roundEven_le_floor_succ (x / (2 : ℝ) ^ (Int.log 2 x - 52))
  have hfl : fl x = (roundEven (x / (2 : ℝ) ^ (Int.log 2 x - 52)) : ℝ)
      * (2 : ℝ) ^ (Int.log 2 x - 52) := by
    unfold fl
    rw [if_neg hx.ne', abs_of_pos hx]
  rw [hfl]
  by_cases hm : roundEven (x / (2 : ℝ) ^ (Int.log 2 x - 52)) < (2 : ℤ) ^ 53
  · exact fl_exact_pos _ _ (le_trans f1 r1) hm
  · have hm' : roundEven (x / (2 : ℝ) ^ (Int.log 2 x - 52)) = (2 : ℤ) ^ 53 := by omega
    rw [hm']
    have e3 : (((2 : ℤ) ^ 53 : ℤ) : ℝ) * (2 : ℝ) ^ (Int.log 2 x - 52)
        = (((2 : ℤ) ^ 52 : ℤ) : ℝ) * (2 : ℝ) ^ (Int.log 2 x + 1 - 52) := by
      have : (2 : ℝ) ^ (Int.log 2 x + 1 - 52) = (2 : ℝ) ^ (Int.log 2 x - 52) * 2 := by
        rw [← zpow_add_one₀ (by norm_num)]
        congr 1
        omega
      rw [this]
      push_cast
      ring
    rw [e3]
    exact fl_exact_pos _ _ (le_refl _) (by norm_num)

/-! ## Distinct positions at distance zero in binary64 -/

theorem offsetD_direct (c src mic size : ℝ) (hs : 0 < src / c)
    (h : fl (src / c) = fl (mic / c)) : offsetD c src mic size 0 0 = 0 := by
  unfold offsetD
  have e1 : (((1 - 2 * 0 : ℤ) : ℤ) : ℝ) = 1 := by norm_num
  have e2 : (((2 * 0 : ℤ) : ℤ) : ℝ) = 0 := by norm_num
  rw [e1, e2, one_mul, zero_mul, fl_fl_pos _ hs, h, sub_self, fl_zero, add_zero, fl_zero]

theorem nearby_cTsD : cTsD nearby = 6124895493223875 / 288230376151711744 := by
  unfold cTsD nearby
  rw [fl_eq_pos (340 / 16000) (-6) 6124895493223875 (by norm_num) (by norm_num) (by norm_num)
    (by norm_num)]
  norm_num

theorem nearby_src_scaled :
    fl (nearby.src_x / cTsD nearby) = 5298352502788819 / 70368744177664 := by
  rw [nearby_cTsD]
  unfold nearby
  rw [fl_eq_pos _ 6 5298352502788819 (by norm_num) (by norm_num) (by norm_num) (by norm_num)]
  norm_num

theorem nearby_mic_scaled :
    fl (nearby.mic_x / cTsD nearby) = 5298352502788819 / 70368744177664 := by
  rw [nearby_cTsD]
  unfold nearby
  rw [fl_eq_pos _ 6 5298352502788819 (by norm_num) (by norm_num) (by norm_num) (by norm_num)]
  norm_num

theorem nearby_cTsD_pos : 0 < cTsD nearby := by
  rw [nearby_cTsD]
  norm_num

theorem nearby_offsets :
    offXD nearby Image.direct = 0 ∧ offYD nearby Image.direct = 0
      ∧ offZD nearby Image.direct = 0 := by
  have hc := nearby_cTsD_pos
  refine ⟨?_, ?_, ?_⟩
  · exact offsetD_direct _ _ _ _ (div_pos (by unfold nearby; norm_num) hc)
      (by rw [nearby_src_scaled, nearby_mic_scaled])
  · exact offsetD_direct _ _ _ _ (div_pos (by unfold nearby; norm_num) hc) rfl
  · exact offsetD_direct _ _ _ _ (div_pos (by unfold nearby; norm_num) hc) rfl

theorem nearby_distD : distD nearby Image.direct = 0 := by
  obtain ⟨hx, hy, hz⟩ := nearby_offsets
  unfold distD
  rw [hx, hy, hz]
  norm_num [fl_zero]

theorem nearby_strictlyInRoom : StrictlyInRoom nearby := by
  unfold StrictlyInRoom cTs nearby
  norm_num

/-- C19, counterexample: in the room of the scenario, with the source at `x = 1.6` and the
microphone at `x = 1.6000000000000003`, both strictly inside and at different positions,
the binary64 quotients `src_x / cTs` and `mic_x / cTs` are the same double
`75.29411764705883`; the direct-path image then has `Rp_plus_Rm = (0, 0, 0)` and `dist = 0`,
and both the divisor `4 * M_PI * dist * cTs` of the gain and the divisor
`sqrt(x*x + y*y + z*z)` in `dipole` are zero. -/
theorem division_by_zero_counterexample :
    ((0 < nearby.src_x ∧ nearby.src_x < nearby.size_x) ∧
      (0 < nearby.src_y ∧ nearby.src_y < nearby.size_y) ∧
      (0 < nearby.src_z ∧ nearby.src_z < nearby.size_z) ∧
      (0 < nearby.mic_x ∧ nearby.mic_x < nearby.size_x) ∧
      (0 < nearby.mic_y ∧ nearby.mic_y < nearby.size_y) ∧
      (0 < nearby.mic_z ∧ nearby.mic_z < nearby.size_z)) ∧
    StrictlyInRoom nearby ∧
    nearby.src_x ≠ nearby.mic_x ∧
    fl (nearby.src_x / cTsD nearby) = 5298352502788819 / 70368744177664 ∧
    fl (nearby.mic_x / cTsD nearby) = 5298352502788819 / 70368744177664 ∧
    offXD nearby Image.direct = 0 ∧ offYD nearby Image.direct = 0 ∧
    offZD nearby Image.direct = 0 ∧
    distD nearby Image.direct = 0 ∧
    gainDivisorD nearby Image.direct = 0 ∧
    radiusD (offXD nearby Image.direct) (offYD nearby Image.direct)
      (offZD nearby Image.direct) = 0 := by
  obtain ⟨hx, hy, hz⟩ := nearby_offsets
  refine ⟨by unfold nearby; norm_num, nearby_strictlyInRoom, by unfold nearby; norm_num,
    nearby_src_scaled, nearby_mic_scaled, hx, hy, hz, nearby_distD, ?_, ?_⟩
  · unfold gainDivisorD
    rw [nearby_distD, mul_zero, fl_zero, zero_mul, fl_zero]
  · unfold radiusD
    rw [hx, hy, hz]
    norm_num [fl_zero]

/-! ## The filter coefficients in binary64 -/

theorem roundEven_tie_even (k : ℤ) (hk : Even k) : roundEven ((k : ℝ) + 1 / 2) = k := by
  have hf : ⌊(k : ℝ) + 1 / 2⌋ = k :=
    Int.floor_eq_iff.2 ⟨by linarith, by linarith⟩
  unfold roundEven
  rw [hf]
  rw [if_neg (by norm_num), if_neg (by norm_num), if_pos hk]

theorem fl_tie_even_pos (x : ℝ) (e k : ℤ) (h1 : (2 : ℝ) ^ e ≤ x) (h2 : x < (2 : ℝ) ^ (e + 1))
    (hx : x = ((k : ℝ) + 1 / 2) * (2 : ℝ) ^ (e - 52)) (hk : Even k) :
    fl x = (k : ℝ) * (2 : ℝ) ^ (e - 52) := by
  have hpos : 0 < x := lt_of_lt_of_le (by positivity) h1
  have hp : (0 : ℝ) < (2 : ℝ) ^ (e - 52) := by positivity
  unfold fl
  rw [if_neg hpos.ne', log_two_eq x e (by rwa [abs_of_pos hpos]) (by rwa [abs_of_pos hpos])]
  have ht : x / (2 : ℝ) ^ (e - 52) = (k : ℝ) + 1 / 2 := by
    rw [hx, mul_div_assoc, div_self hp.ne', mul_one]
  rw [ht, roundEven_tie_even k hk]

theorem M_PI_D_eq : M_PI_D = 884279719003555 / 281474976710656 := by
  unfold M_PI_D
  rw [fl_eq_pos _ 1 7074237752028440 (by norm_num) (by norm_num) (by norm_num) (by norm_num)]
  norm_num

theorem hpWD_44100 : hpWD 44100 = 2053293497187393 / 144115188075855872 := by
  have s1 : fl (2 * (884279719003555 / 281474976710656)) = 884279719003555 / 140737488355328 := by
    rw [fl_eq_pos _ 2 7074237752028440 (by norm_num) (by norm_num) (by norm_num) (by norm_num)]
    norm_num
  have s2 : fl (884279719003555 / 140737488355328 * 100) = 5526748243772219 / 8796093022208 := by
    rw [fl_eq_pos _ 9 5526748243772219 (by norm_num) (by norm_num) (by norm_num) (by norm_num)]
    norm_num
  have s3 : fl (5526748243772219 / 8796093022208 / 44100)
      = 2053293497187393 / 144115188075855872 := by
    rw [fl_eq_pos _ (-7) 8213173988749572 (by norm_num) (by norm_num) (by norm_num)
      (by norm_num)]
    norm_num
  unfold hpWD
  rw [M_PI_D_eq, s1, s2, s3]

theorem exp_enclosure_44100 :
    ((8879778287210001 : ℝ) - 1 / 2) * (2 : ℝ) ^ ((-1 : ℤ) - 52)
        < Real.exp (-(2053293497187393 / 144115188075855872)) ∧
    Real.exp (-(2053293497187393 / 144115188075855872))
        < ((8879778287210001 : ℝ) + 1 / 2) * (2 : ℝ) ^ ((-1 : ℤ) - 52) := by
  have hx : |(-(2053293497187393 / 144115188075855872) : ℝ)| ≤ 1 := by
    rw [abs_le]; constructor <;> norm_num
  have hb := Real.exp_bound hx (n := 9) (by norm_num)
  rw [abs_le] at hb
  obtain ⟨h1, h2⟩ := hb
  have habs : |(-(2053293497187393 / 144115188075855872) : ℝ)|
      = 2053293497187393 / 144115188075855872 := by
    rw [abs_neg, abs_of_pos (by norm_num)]
  rw [habs] at h1 h2
  simp only [Finset.sum_range_succ, Finset.sum_range_zero, Nat.factorial] at h1 h2
  constructor
  · norm_num at h1 ⊢
    linarith
  · norm_num at h2 ⊢
    linarith

theorem hpR1D_44100 : hpR1D 44100 = 8879778287210001 / 9007199254740992 := by
  unfold hpR1D
  rw [hpWD_44100]
  obtain ⟨h1, h2⟩ := exp_enclosure_44100
  have hlo : (2 : ℝ) ^ (-1 : ℤ) ≤ Real.exp (-(2053293497187393 / 144115188075855872)) := by
    refine le_trans ?_ h1.le
    norm_num
  have hhi : Real.exp (-(2053293497187393 / 144115188075855872)) < (2 : ℝ) ^ ((-1 : ℤ) + 1) := by
    refine lt_trans h2 ?_
    norm_num
  rw [fl_eq_pos _ (-1) 8879778287210001 hlo hhi h1 h2]
  norm_num

theorem hpA1D_44100 : hpA1D 44100 = -(8943488770975496 / 4503599627370496) := by
  unfold hpA1D
  rw [hpR1D_44100]
  rw [fl_tie_even_pos (1 + 8879778287210001 / 9007199254740992) 0 8943488770975496
    (by norm_num) (by norm_num) (by norm_num) (by decide)]
  norm_num

theorem writtenD_44100_ones : writtenD 44100 1 1 1 = 1 / 9007199254740992 := by
  have s1 : fl (-(8943488770975496 / 4503599627370496)) = -(8943488770975496 / 4503599627370496) := by
    rw [fl_eq_neg _ 0 (-8943488770975496) (by norm_num) (by norm_num) (by norm_num)
      (by norm_num)]
    norm_num
  have s2 : fl (1 + -(8943488770975496 / 4503599627370496))
      = -(8879778287210000 / 9007199254740992) := by
    rw [fl_eq_neg _ (-1) (-8879778287210000) (by norm_num) (by norm_num) (by norm_num)
      (by norm_num)]
    norm_num
  have s3 : fl (8879778287210001 / 9007199254740992) = 8879778287210001 / 9007199254740992 := by
    rw [fl_eq_pos _ (-1) 8879778287210001 (by norm_num) (by norm_num) (by norm_num)
      (by norm_num)]
    norm_num
  have s4 : fl (-(8879778287210000 / 9007199254740992) + 8879778287210001 / 9007199254740992)
      = 1 / 9007199254740992 := by
    rw [fl_eq_pos _ (-53) 4503599627370496 (by norm_num) (by norm_num) (by norm_num)
      (by norm_num)]
    norm_num
  unfold writtenD
  rw [hpA1D_44100, hpR1D_44100, mul_one, mul_one, s1, s2, s3, s4]

/-- C20, counterexample: at `fs = 44100` the binary64 constants of the filter are
`R1 = 0x1.f8c1c7e7e4e11p-1` and `A1 = -0x1.fc60e3f3f2708p+0`; since `1 + R1` is not a
double, `1 + A1 + R1 = 2^-53`, not `0`, and for `Y[0] = Y[1] = Y[2] = 1` the written sample
`Y[0] + A1*Y[1] + R1*Y[2]` evaluates to `2^-53 ≈ 1.1e-16`, not `0`. -/
theorem dc_null_counterexample :
    hpR1D 44100 = 8879778287210001 / 9007199254740992 ∧
    hpA1D 44100 = -(8943488770975496 / 4503599627370496) ∧
    1 + hpA1D 44100 + hpR1D 44100 = 1 / 9007199254740992 ∧
    1 + hpA1D 44100 + hpR1D 44100 ≠ 0 ∧
    writtenD 44100 1 1 1 = 1 / 9007199254740992 ∧
    writtenD 44100 1 1 1 ≠ 0 := by
  have hsum : 1 + hpA1D 44100 + hpR1D 44100 = 1 / 9007199254740992 := by
    rw [hpA1D_44100, hpR1D_44100]
    norm_num
  refine ⟨hpR1D_44100, hpA1D_44100, hsum, ?_, writtenD_44100_ones, ?_⟩
  · rw [hsum]; norm_num
  · rw [writtenD_44100_ones]; norm_num

/-! ## Integer delays in binary64 -/

theorem fl_one : fl (1) = 1 := by
  rw [fl_eq_pos _ 0 4503599627370496 (by norm_num) (by norm_num) (by norm_num) (by norm_num)]
  norm_num

theorem fl_three : fl (3) = 3 := by
  rw [fl_eq_pos _ 1 6755399441055744 (by norm_num) (by norm_num) (by norm_num) (by norm_num)]
  norm_num

theorem fl_four : fl (4) = 4 := by
  rw [fl_eq_pos _ 2 4503599627370496 (by norm_num) (by norm_num) (by norm_num) (by norm_num)]
  norm_num

theorem fl_five : fl (5) = 5 := by
  rw [fl_eq_pos _ 2 5629499534213120 (by norm_num) (by norm_num) (by norm_num) (by norm_num)]
  norm_num

theorem fl_ten : fl (10) = 10 := by
  rw [fl_eq_pos _ 3 5629499534213120 (by norm_num) (by norm_num) (by norm_num) (by norm_num)]
  norm_num

theorem fl_sixteen : fl (16) = 16 := by
  rw [fl_eq_pos _ 4 4503599627370496 (by norm_num) (by norm_num) (by norm_num) (by norm_num)]
  norm_num

theorem fl_neg_one : fl (-1) = -1 := by
  rw [fl_eq_neg _ 0 (-4503599627370496) (by norm_num) (by norm_num) (by norm_num) (by norm_num)]
  norm_num

theorem fl_four_half : fl (4 + 0.5) = 9 / 2 := by
  rw [fl_eq_pos _ 2 5066549580791808 (by norm_num) (by norm_num) (by norm_num) (by norm_num)]
  norm_num

theorem fl_three_eighths : fl (3 / 8) = 3 / 8 := by
  rw [fl_eq_pos _ (-2) 6755399441055744 (by norm_num) (by norm_num) (by norm_num) (by norm_num)]
  norm_num

theorem fl_milli : fl (0.004) = 1152921504606847 / 288230376151711744 := by
  rw [fl_eq_pos _ (-8) 4611686018427388 (by norm_num) (by norm_num) (by norm_num) (by norm_num)]
  norm_num

theorem fl_milli_thousand : fl (1152921504606847 / 288230376151711744 * 1000) = 4 := by
  rw [fl_eq_pos _ 2 4503599627370496 (by norm_num) (by norm_num) (by norm_num) (by norm_num)]
  norm_num

theorem fl_two_pi : fl (2 * (884279719003555 / 281474976710656)) = 884279719003555 / 140737488355328 := by
  rw [fl_eq_pos _ 2 7074237752028440 (by norm_num) (by norm_num) (by norm_num) (by norm_num)]
  norm_num

theorem fl_window_arg : fl (884279719003555 / 140737488355328 * (3 / 8)) = 2652839157010665 / 1125899906842624 := by
  rw [fl_eq_pos _ 1 5305678314021330 (by norm_num) (by norm_num) (by norm_num) (by norm_num)]
  norm_num

theorem fl_pi_exact : fl (884279719003555 / 281474976710656) = 884279719003555 / 281474976710656 := by
  rw [fl_eq_pos _ 1 7074237752028440 (by norm_num) (by norm_num) (by norm_num) (by norm_num)]
  norm_num

theorem fl_neg_pi : fl (884279719003555 / 281474976710656 * -1) = -(884279719003555 / 281474976710656) := by
  rw [fl_eq_neg _ 1 (-7074237752028440) (by norm_num) (by norm_num) (by norm_num) (by norm_num)]
  norm_num

theorem fl_four_pi : fl (4 * (884279719003555 / 281474976710656)) = 884279719003555 / 70368744177664 := by
  rw [fl_eq_pos _ 3 7074237752028440 (by norm_num) (by norm_num) (by norm_num) (by norm_num)]
  norm_num

theorem fl_unit_ratio : fl (1000 / 1000) = 1 := by
  rw [fl_eq_pos _ 0 4503599627370496 (by norm_num) (by norm_num) (by norm_num) (by norm_num)]
  norm_num

theorem fourDelay_TwD : TwD fourDelay.fs = 8 := by
  unfold TwD ROUND_D fourDelay
  rw [fl_milli, fl_milli_thousand, if_pos (by norm_num), fl_four_half]
  rw [toLong_of_floor _ 4 (by norm_num) (by norm_num) (by norm_num)]
  rfl

theorem fourDelay_cTsD : cTsD fourDelay = 1 := by
  unfold cTsD fourDelay
  exact fl_unit_ratio

theorem fourDelay_offXD : offXD fourDelay Image.direct = 4 := by
  unfold offXD offsetD
  rw [fourDelay_cTsD]
  unfold fourDelay Image.direct
  norm_num [fl_five, fl_one, fl_four, fl_zero]

theorem fourDelay_offYD : offYD fourDelay Image.direct = 0 := by
  unfold offYD offsetD
  rw [fourDelay_cTsD]
  unfold fourDelay Image.direct
  norm_num [fl_one, fl_zero]

theorem fourDelay_offZD : offZD fourDelay Image.direct = 0 := by
  unfold offZD offsetD
  rw [fourDelay_cTsD]
  unfold fourDelay Image.direct
  norm_num [fl_one, fl_zero]

theorem sqrt_sixteen : Real.sqrt 16 = 4 := by
  have h : (16 : ℝ) = 4 ^ 2 := by norm_num
  rw [h, Real.sqrt_sq (by norm_num)]

theorem fourDelay_distD : distD fourDelay Image.direct = 4 := by
  unfold distD
  rw [fourDelay_offXD, fourDelay_offYD, fourDelay_offZD]
  norm_num [fl_sixteen, fl_zero, fl_four, sqrt_sixteen]

theorem fourDelay_divisor_pos : 0 < gainDivisorD fourDelay Image.direct := by
  unfold gainDivisorD
  rw [fourDelay_distD, fourDelay_cTsD, M_PI_D_eq, fl_four_pi]
  exact fl_pos _ (mul_pos (fl_pos _ (by norm_num)) one_pos)

theorem fourDelay_gain_pos : 0 < omniGainD fourDelay Image.direct := by
  have hr : ∀ b0 b1 : ℝ, reflD b0 b1 0 0 = 1 := by
    intro b0 b1
    unfold reflD
    norm_num [fl_one]
  unfold omniGainD
  simp only [Image.direct, hr]
  unfold omni
  norm_num [fl_one]
  exact fl_pos _ (inv_pos.2 fourDelay_divisor_pos)

theorem window_arg_cos_neg : Real.cos (2652839157010665 / 1125899906842624) < 0 := by
  apply Real.cos_neg_of_pi_div_two_lt_of_lt
  · have := Real.pi_le_four
    norm_num
    linarith
  · have := Real.pi_gt_three
    norm_num
    linarith

theorem sin_neg_M_PI_D : Real.sin (-(884279719003555 / 281474976710656)) < 0 := by
  apply Real.sin_neg_of_neg_of_neg_pi_lt
  · norm_num
  · have := Real.pi_gt_d20
    have h : (884279719003555 / 281474976710656 : ℝ) < 3.14159265358979323846 := by norm_num
    linarith

theorem fourDelay_tap_pos : 0 < lpiTapD 8 4 4 2 := by
  have c1 : ((((2 : ℕ) : ℤ) + 1 : ℤ) : ℝ) = 3 := by norm_num
  have c2 : ((8 : ℤ) : ℝ) = 8 := by norm_num
  have c3 : (0.5 : ℝ) * 8 = 4 := by norm_num
  have c4 : (3 : ℝ) - 4 = -1 := by norm_num
  unfold lpiTapD
  rw [c1, c2, sub_self, fl_zero, sub_zero, fl_three, c3, fl_four, c4, fl_neg_one,
    M_PI_D_eq, fl_two_pi, fl_three_eighths, fl_window_arg]
  unfold Fc
  simp only [mul_one]
  rw [fl_pi_exact, fl_neg_pi]
  unfold sincD
  rw [if_neg (by norm_num)]
  have hc := fl_neg_of_neg _ window_arg_cos_neg
  have hs := fl_neg_of_neg _ sin_neg_M_PI_D
  apply fl_pos
  apply mul_pos
  · apply fl_pos
    apply fl_pos
    apply mul_pos (by norm_num)
    apply fl_pos
    linarith
  · apply fl_pos
    exact div_pos_of_neg_of_neg hs (by norm_num)

/-- C18, counterexample: in the scene `fourDelay` the binary64 program has `Tw = 8` and the
direct-path image has the integer distance `dist = 4 < impulse_len`; its tap `LPI[2]`, with
`2 ≠ Tw/2 - 1 = 3`, is not `0` (the sine of the double `M_PI` is not `0`), and
`impulse[3] += gain * LPI[2]` turns the sample at index `3 ≠ dist` of a zeroed buffer into a
non-zero value. -/
theorem integer_delay_counterexample :
    TwD fourDelay.fs = 8 ∧ (2 : ℤ) ≤ TwD fourDelay.fs ∧
    distD fourDelay Image.direct = 4 ∧
    ⌊distD fourDelay Image.direct⌋ = 4 ∧
    ((⌊distD fourDelay Image.direct⌋ : ℤ) : ℝ) < (fourDelay.impulse_len : ℝ) ∧
    imgOrder Image.direct ≤ fourDelay.reflect_order ∧
    ((2 : ℕ) : ℤ) ≠ (TwD fourDelay.fs).tdiv 2 - 1 ∧
    ⌊distD fourDelay Image.direct⌋ - (TwD fourDelay.fs).tdiv 2 + 1 + ((2 : ℕ) : ℤ) = 3 ∧
    lpiTapD (TwD fourDelay.fs) (distD fourDelay Image.direct)
      ((⌊distD fourDelay Image.direct⌋ : ℤ) : ℝ) 2 ≠ 0 ∧
    addTapD 0 (omniGainD fourDelay Image.direct)
      (lpiTapD (TwD fourDelay.fs) (distD fourDelay Image.direct)
        ((⌊distD fourDelay Image.direct⌋ : ℤ) : ℝ) 2) ≠ 0 := by
  have hfloor : ⌊distD fourDelay Image.direct⌋ = 4 := by
    rw [fourDelay_distD]
    exact Int.floor_eq_iff.2 ⟨by norm_num, by norm_num⟩
  have htap : 0 < lpiTapD (TwD fourDelay.fs) (distD fourDelay Image.direct)
      ((⌊distD fourDelay Image.direct⌋ : ℤ) : ℝ) 2 := by
    rw [hfloor, fourDelay_TwD, fourDelay_distD]
    have e : (((4 : ℤ) : ℤ) : ℝ) = 4 := by norm_num
    rw [e]
    exact fourDelay_tap_pos
  refine ⟨fourDelay_TwD, by rw [fourDelay_TwD]; norm_num, fourDelay_distD, hfloor, ?_, ?_, ?_,
    ?_, htap.ne', ?_⟩
  · rw [hfloor]
    unfold fourDelay
    norm_num
  · unfold imgOrder Image.direct fourDelay
    norm_num
  · rw [fourDelay_TwD]
    decide
  · rw [hfloor, fourDelay_TwD]
    decide
  · unfold addTapD
    rw [zero_add]
    exact (fl_pos _ (fl_pos _ (mul_pos fourDelay_gain_pos htap))).ne'

/-! ## Series enclosures of sine and cosine -/

theorem expI_series (x : ℝ) (n : ℕ) :
    Finset.sum (Finset.range (2 * n))
        (fun (m : ℕ) => ((x : ℂ) * Complex.I) ^ m / (m.factorial : ℂ))
      = ((cosT x n : ℝ) : ℂ) + ((sinT x n : ℝ) : ℂ) * Complex.I := by
  induction n with
  | zero => simp [cosT, sinT]
  | succ n ih =>
    rw [show 2 * (n + 1) = 2 * n + 1 + 1 by ring, Finset.sum_range_succ, Finset.sum_range_succ, ih]
    unfold cosT sinT
    rw [Finset.sum_range_succ, Finset.sum_range_succ]
    have hI : (Complex.I) ^ (2 * n) = (-1) ^ n := by rw [pow_mul, Complex.I_sq]
    rw [mul_pow, mul_pow, pow_succ Complex.I, hI]
    push_cast
    ring

theorem exp_I_sub (x : ℝ) (n : ℕ) :
    Complex.exp ((x : ℂ) * Complex.I)
        - Finset.sum (Finset.range (2 * n))
            (fun (m : ℕ) => ((x : ℂ) * Complex.I) ^ m / (m.factorial : ℂ))
      = ((Real.cos x - cosT x n : ℝ) : ℂ) + ((Real.sin x - sinT x n : ℝ) : ℂ) * Complex.I := by
  rw [expI_series, Complex.exp_mul_I]
  push_cast
  ring

theorem taylor_abs (x : ℝ) (hx : |x| ≤ 1) (n : ℕ) (hn : 0 < n) :
    Complex.abs (((Real.cos x - cosT x n : ℝ) : ℂ) + ((Real.sin x - sinT x n : ℝ) : ℂ) * Complex.I)
      ≤ |x| ^ (2 * n)
          * (((2 * n : ℕ).succ : ℝ) * (((2 * n).factorial : ℝ) * ((2 * n : ℕ) : ℝ))⁻¹) := by
  have hI : Complex.abs ((x : ℂ) * Complex.I) = |x| := by
    rw [map_mul, Complex.abs_I, mul_one, Complex.abs_ofReal]
  have h := Complex.exp_bound (x := (x : ℂ) * Complex.I) (by rw [hI]; exact hx) (n := 2 * n)
    (by omega)
  rw [exp_I_sub, hI] at h
  exact h

theorem cos_taylor (x : ℝ) (hx : |x| ≤ 1) (n : ℕ) (hn : 0 < n) :
    |Real.cos x - cosT x n|
      ≤ |x| ^ (2 * n)
          * (((2 * n : ℕ).succ : ℝ) * (((2 * n).factorial : ℝ) * ((2 * n : ℕ) : ℝ))⁻¹) := by
  refine le_trans ?_ (taylor_abs x hx n hn)
  have := Complex.abs_re_le_abs
    (((Real.cos x - cosT x n : ℝ) : ℂ) + ((Real.sin x - sinT x n : ℝ) : ℂ) * Complex.I)
  simpa using this

theorem sin_taylor (x : ℝ) (hx : |x| ≤ 1) (n : ℕ) (hn : 0 < n) :
    |Real.sin x - sinT x n|
      ≤ |x| ^ (2 * n)
          * (((2 * n : ℕ).succ : ℝ) * (((2 * n).factorial : ℝ) * ((2 * n : ℕ) : ℝ))⁻¹) := by
  refine le_trans ?_ (taylor_abs x hx n hn)
  have := Complex.abs_im_le_abs
    (((Real.cos x - cosT x n : ℝ) : ℂ) + ((Real.sin x - sinT x n : ℝ) : ℂ) * Complex.I)
  simpa using this

theorem taylor_tail (x : ℝ) (hx : |x| ≤ 1) :
    |x| ^ (2 * 11)
        * (((2 * 11 : ℕ).succ : ℝ) * (((2 * 11).factorial : ℝ) * ((2 * 11 : ℕ) : ℝ))⁻¹)
      ≤ 1 / 10 ^ 21 := by
  have h1 : |x| ^ (2 * 11) ≤ 1 := pow_le_one₀ (abs_nonneg x) hx
  have h2 : ((2 * 11 : ℕ).succ : ℝ) * (((2 * 11).factorial : ℝ) * ((2 * 11 : ℕ) : ℝ))⁻¹
      ≤ 1 / 10 ^ 21 := by
    norm_num [Nat.factorial]
  have h3 : (0 : ℝ) ≤ ((2 * 11 : ℕ).succ : ℝ) * (((2 * 11).factorial : ℝ) * ((2 * 11 : ℕ) : ℝ))⁻¹ := by
    positivity
  calc |x| ^ (2 * 11)
        * (((2 * 11 : ℕ).succ : ℝ) * (((2 * 11).factorial : ℝ) * ((2 * 11 : ℕ) : ℝ))⁻¹)
      ≤ 1 * (((2 * 11 : ℕ).succ : ℝ) * (((2 * 11).factorial : ℝ) * ((2 * 11 : ℕ) : ℝ))⁻¹) :=
        mul_le_mul_of_nonneg_right h1 h3
    _ ≤ 1 / 10 ^ 21 := by rw [one_mul]; exact h2

theorem cos_enclosure (x : ℝ) (h0 : 0 ≤ x) (h1 : x ≤ 1) :
    cosT x 11 - 1 / 10 ^ 21 ≤ Real.cos x ∧ Real.cos x ≤ cosT x 11 + 1 / 10 ^ 21 := by
  have hx : |x| ≤ 1 := by rw [abs_of_nonneg h0]; exact h1
  have h := abs_le.1 (le_trans (cos_taylor x hx 11 (by norm_num)) (taylor_tail x hx))
  constructor <;> linarith [h.1, h.2]

theorem sin_enclosure (x : ℝ) (h0 : 0 ≤ x) (h1 : x ≤ 1) :
    sinT x 11 - 1 / 10 ^ 21 ≤ Real.sin x ∧ Real.sin x ≤ sinT x 11 + 1 / 10 ^ 21 := by
  have hx : |x| ≤ 1 := by rw [abs_of_nonneg h0]; exact h1
  have h := abs_le.1 (le_trans (sin_taylor x hx 11 (by norm_num)) (taylor_tail x hx))
  constructor <;> linarith [h.1, h.2]

theorem arccos_enclosure (t A B : ℝ) (hA : 0 ≤ A) (hAB : A ≤ B) (hB : B ≤ 1)
    (h1 : cosT B 11 + 1 / 10 ^ 21 < t) (h2 : t < cosT A 11 - 1 / 10 ^ 21) :
    A < Real.arccos t ∧ Real.arccos t < B := by
  have hcB := (cos_enclosure B (le_trans hA hAB) hB).2
  have hcA := (cos_enclosure A hA (le_trans hAB hB)).1
  have hpi : (1 : ℝ) ≤ Real.pi := by linarith [Real.pi_gt_three]
  have ht : t ∈ Set.Icc (-1 : ℝ) 1 :=
    ⟨by linarith [Real.neg_one_le_cos B], by linarith [Real.cos_le_one A]⟩
  have hcosA : Real.cos A ∈ Set.Icc (-1 : ℝ) 1 := ⟨Real.neg_one_le_cos A, Real.cos_le_one A⟩
  have hcosB : Real.cos B ∈ Set.Icc (-1 : ℝ) 1 := ⟨Real.neg_one_le_cos B, Real.cos_le_one B⟩
  constructor
  · have h := Real.strictAntiOn_arccos ht hcosA (by linarith)
    rwa [Real.arccos_cos hA (by linarith)] at h
  · have h := Real.strictAntiOn_arccos hcosB ht (by linarith)
    rwa [Real.arccos_cos (le_trans hA hAB) (by linarith)] at h

theorem fl_eq_mid (x : ℝ) (e m : ℤ) (hm1 : (2 : ℤ) ^ 52 < m) (hm2 : m < (2 : ℤ) ^ 53)
    (h3 : ((m : ℝ) - 1 / 2) * (2 : ℝ) ^ (e - 52) < x)
    (h4 : x < ((m : ℝ) + 1 / 2) * (2 : ℝ) ^ (e - 52)) :
    fl x = (m : ℝ) * (2 : ℝ) ^ (e - 52) := by
  have hp : (0 : ℝ) < (2 : ℝ) ^ (e - 52) := by positivity
  have e1 : (2 : ℝ) ^ e = (2 : ℝ) ^ (52 : ℕ) * (2 : ℝ) ^ (e - 52) := by
    rw [← zpow_natCast, ← zpow_add₀ (by norm_num)]
    congr 1
    omega
  have e2 : (2 : ℝ) ^ (e + 1) = (2 : ℝ) ^ (53 : ℕ) * (2 : ℝ) ^ (e - 52) := by
    rw [← zpow_natCast, ← zpow_add₀ (by norm_num)]
    congr 1
    omega
  have c1 : ((2 : ℝ) ^ (52 : ℕ)) + 1 ≤ (m : ℝ) := by
    have : (2 : ℤ) ^ 52 + 1 ≤ m := by omega
    exact_mod_cast this
  have c2 : (m : ℝ) + 1 ≤ (2 : ℝ) ^ (53 : ℕ) := by
    have : m + 1 ≤ (2 : ℤ) ^ 53 := by omega
    exact_mod_cast this
  refine fl_eq_pos x e m ?_ ?_ h3 h4
  · rw [e1]
    nlinarith
  · rw [e2]
    nlinarith

theorem roundEven_tie_odd (k : ℤ) (hk : ¬ Even k) : roundEven ((k : ℝ) + 1 / 2) = k + 1 := by
  have hf : ⌊(k : ℝ) + 1 / 2⌋ = k :=
    Int.floor_eq_iff.2 ⟨by linarith, by linarith⟩
  unfold roundEven
  rw [hf]
  rw [if_neg (by norm_num), if_neg (by norm_num), if_neg hk]

theorem fl_tie_odd_pos (x : ℝ) (e k : ℤ) (h1 : (2 : ℝ) ^ e ≤ x) (h2 : x < (2 : ℝ) ^ (e + 1))
    (hx : x = ((k : ℝ) + 1 / 2) * (2 : ℝ) ^ (e - 52)) (hk : ¬ Even k) :
    fl x = ((k : ℝ) + 1) * (2 : ℝ) ^ (e - 52) := by
  have hpos : 0 < x := lt_of_lt_of_le (by positivity) h1
  have hp : (0 : ℝ) < (2 : ℝ) ^ (e - 52) := by positivity
  unfold fl
  rw [if_neg hpos.ne', log_two_eq x e (by rwa [abs_of_pos hpos]) (by rwa [abs_of_pos hpos])]
  have ht : x / (2 : ℝ) ^ (e - 52) = (k : ℝ) + 1 / 2 := by
    rw [hx, mul_div_assoc, div_self hp.ne', mul_one]
  rw [ht, roundEven_tie_odd k hk]
  push_cast
  ring

/-! ## A dipole gain above one in binary64 -/

theorem sinT_incidence :
    (13677551005963755 / 18014398509481984 : ℝ) < sinT (3882868736929321 / 4503599627370496) 11 - 1 / 10 ^ 21 ∧
    sinT (3882868736929321 / 4503599627370496) 11 + 1 / 10 ^ 21 < 13677551005963757 / 18014398509481984 := by
  unfold sinT
  simp only [Finset.sum_range_succ, Finset.sum_range_zero, Nat.factorial]
  norm_num

theorem cosT_incidence :
    (11723615147968931 / 18014398509481984 : ℝ) < cosT (3882868736929321 / 4503599627370496) 11 - 1 / 10 ^ 21 ∧
    cosT (3882868736929321 / 4503599627370496) 11 + 1 / 10 ^ 21 < 11723615147968933 / 18014398509481984 := by
  unfold cosT
  simp only [Finset.sum_range_succ, Finset.sum_range_zero, Nat.factorial]
  norm_num

theorem cosT_upper :
    cosT (15531474947717285 / 18014398509481984) 11 + 1 / 10 ^ 21 < (2930903786992233 / 4503599627370496 : ℝ) := by
  unfold cosT
  simp only [Finset.sum_range_succ, Finset.sum_range_zero, Nat.factorial]
  norm_num

theorem cosT_lower :
    (2930903786992233 / 4503599627370496 : ℝ) < cosT (15531474947717283 / 18014398509481984) 11 - 1 / 10 ^ 21 := by
  unfold cosT
  simp only [Finset.sum_range_succ, Finset.sum_range_zero, Nat.factorial]
  norm_num

theorem fl_sin_incidence : fl (Real.sin (3882868736929321 / 4503599627370496)) = 3419387751490939 / 4503599627370496 := by
  have h := sin_enclosure (3882868736929321 / 4503599627370496) (by norm_num) (by norm_num)
  rw [fl_eq_mid _ (-1) 6838775502981878 (by norm_num) (by norm_num)
      (by norm_num; linarith [sinT_incidence.1, h.1])
      (by norm_num; linarith [sinT_incidence.2, h.2])]
  norm_num

theorem fl_cos_incidence : fl (Real.cos (3882868736929321 / 4503599627370496)) = 2930903786992233 / 4503599627370496 := by
  have h := cos_enclosure (3882868736929321 / 4503599627370496) (by norm_num) (by norm_num)
  rw [fl_eq_mid _ (-1) 5861807573984466 (by norm_num) (by norm_num)
      (by norm_num; linarith [cosT_incidence.1, h.1])
      (by norm_num; linarith [cosT_incidence.2, h.2])]
  norm_num

theorem fl_arccos_quotient : fl (Real.arccos (2930903786992233 / 4503599627370496)) = 3882868736929321 / 4503599627370496 := by
  have h := arccos_enclosure (2930903786992233 / 4503599627370496) (15531474947717283 / 18014398509481984) (15531474947717285 / 18014398509481984)
    (by norm_num) (by norm_num) (by norm_num) cosT_upper cosT_lower
  rw [fl_eq_mid _ (-1) 7765737473858642 (by norm_num) (by norm_num)
      (by norm_num; linarith [h.1])
      (by norm_num; linarith [h.2])]
  norm_num

theorem fl_sqrt_eighty_five : fl (Real.sqrt 85) = 2595071061399373 / 281474976710656 := by
  have h1 : (10380284245597491 / 1125899906842624 : ℝ) < Real.sqrt 85 := (Real.lt_sqrt (by norm_num)).2 (by norm_num)
  have h2 : Real.sqrt 85 < (10380284245597493 / 1125899906842624 : ℝ) := (Real.sqrt_lt' (by norm_num)).2 (by norm_num)
  rw [fl_eq_mid _ 3 5190142122798746 (by norm_num) (by norm_num)
      (by norm_num; linarith [h1])
      (by norm_num; linarith [h2])]
  norm_num

theorem fl_seven_sq : fl (7 * 7) = 49 := by
  rw [fl_eq_pos _ 5 6896136929411072 (by norm_num) (by norm_num) (by norm_num) (by norm_num)]
  norm_num

theorem fl_six_sq : fl (6 * 6) = 36 := by
  rw [fl_eq_pos _ 5 5066549580791808 (by norm_num) (by norm_num) (by norm_num) (by norm_num)]
  norm_num

theorem fl_forty_nine : fl (49 + 0) = 49 := by
  rw [fl_eq_pos _ 5 6896136929411072 (by norm_num) (by norm_num) (by norm_num) (by norm_num)]
  norm_num

theorem fl_eighty_five : fl (49 + 36) = 85 := by
  rw [fl_eq_pos _ 6 5981343255101440 (by norm_num) (by norm_num) (by norm_num) (by norm_num)]
  norm_num

theorem fl_quotient : fl (6 / (2595071061399373 / 281474976710656)) = 2930903786992233 / 4503599627370496 := by
  rw [fl_eq_pos _ (-1) 5861807573984466 (by norm_num) (by norm_num) (by norm_num) (by norm_num)]
  norm_num

theorem fl_half_pi : fl (0.5 * (884279719003555 / 281474976710656)) = 884279719003555 / 562949953421312 := by
  rw [fl_eq_pos _ 0 7074237752028440 (by norm_num) (by norm_num) (by norm_num) (by norm_num)]
  norm_num

theorem fl_incidence : fl (884279719003555 / 562949953421312 - 3191369015099119 / 4503599627370496) = 3882868736929321 / 4503599627370496 := by
  rw [fl_eq_pos _ (-1) 7765737473858642 (by norm_num) (by norm_num) (by norm_num) (by norm_num)]
  norm_num

theorem fl_sin_sq : fl (3419387751490939 / 4503599627370496 * (3419387751490939 / 4503599627370496)) = 1298096363183261 / 2251799813685248 := by
  rw [fl_eq_pos _ (-1) 5192385452733044 (by norm_num) (by norm_num) (by norm_num) (by norm_num)]
  norm_num

theorem fl_sin_sq_one : fl (1298096363183261 / 2251799813685248 * 1) = 1298096363183261 / 2251799813685248 := by
  rw [fl_eq_pos _ (-1) 5192385452733044 (by norm_num) (by norm_num) (by norm_num) (by norm_num)]
  norm_num

theorem fl_cos_sq : fl (2930903786992233 / 4503599627370496 * (2930903786992233 / 4503599627370496)) = 7629627604015899 / 18014398509481984 := by
  rw [fl_eq_pos _ (-2) 7629627604015899 (by norm_num) (by norm_num) (by norm_num) (by norm_num)]
  norm_num

theorem fl_sq_sum : fl (1298096363183261 / 2251799813685248 + 7629627604015899 / 18014398509481984) = 4503599627370497 / 4503599627370496 := by
  rw [fl_eq_pos _ 0 4503599627370497 (by norm_num) (by norm_num) (by norm_num) (by norm_num)]
  norm_num

theorem fl_hyper_sum : fl (0.25 + 3377699720527873 / 4503599627370496) = 4503599627370497 / 4503599627370496 := by
  rw [fl_eq_pos _ 0 4503599627370497 (by norm_num) (by norm_num) (by norm_num) (by norm_num)]
  norm_num

theorem fl_hyper_prod :
    fl (0.75 * (4503599627370497 / 4503599627370496)) = 3377699720527873 / 4503599627370496 := by
  rw [fl_tie_odd_pos _ (-1) 6755399441055745 (by norm_num) (by norm_num) (by norm_num)
    (by decide)]
  norm_num

theorem atan2_zero_seven : atan2 0 7 = 0 := by
  unfold atan2
  have h : (⟨7, 0⟩ : ℂ) = ((7 : ℝ) : ℂ) := by
    apply Complex.ext <;> simp
  rw [h]
  exact Complex.arg_ofReal_of_nonneg (by norm_num)

theorem dipoleD_above_one :
    dipoleD 7 0 6 0 (3191369015099119 / 4503599627370496)
      = 4503599627370497 / 4503599627370496 := by
  unfold dipoleD radiusD
  dsimp only
  rw [fl_seven_sq, mul_zero, fl_zero, fl_forty_nine, fl_six_sq, fl_eighty_five,
    fl_sqrt_eighty_five, fl_quotient, fl_arccos_quotient, atan2_zero_seven, fl_zero, sub_zero, fl_zero,
    Real.cos_zero, fl_one, M_PI_D_eq, fl_half_pi, fl_incidence, fl_sin_incidence,
    fl_cos_incidence, fl_sin_sq, fl_sin_sq_one, fl_cos_sq, fl_sq_sum]

theorem hypercardioidD_above_one :
    hypercardioidD 7 0 6 0 (3191369015099119 / 4503599627370496)
      = 4503599627370497 / 4503599627370496 := by
  unfold hypercardioidD
  dsimp only
  rw [dipoleD_above_one, fl_hyper_prod, fl_hyper_sum]

/-- C10, counterexample: in binary64 the position `(7, 0, 6)` with azimuth `0` and elevation
`0.7086262721276702` (the double `3191369015099119 / 2 ^ 52`, for which `0.5 * M_PI - angle2`
is the double `theta` of the position) gives `dipole = 1.0000000000000002 > 1`, and
`hypercardioid = 0.25 + 0.75 * dipole = 1.0000000000000002 > 1`. -/
theorem beam_range_counterexample :
    ¬ ((7 : ℝ) = 0 ∧ (0 : ℝ) = 0 ∧ (6 : ℝ) = 0) ∧
    dipoleD 7 0 6 0 (3191369015099119 / 4503599627370496)
      = 4503599627370497 / 4503599627370496 ∧
    ¬ (dipoleD 7 0 6 0 (3191369015099119 / 4503599627370496) ≤ 1) ∧
    hypercardioidD 7 0 6 0 (3191369015099119 / 4503599627370496)
      = 4503599627370497 / 4503599627370496 ∧
    ¬ (hypercardioidD 7 0 6 0 (3191369015099119 / 4503599627370496) ≤ 1) := by
  refine ⟨by norm_num, dipoleD_above_one, ?_, hypercardioidD_above_one, ?_⟩
  · rw [dipoleD_above_one]
    norm_num
  · rw [hypercardioidD_above_one]
    norm_num

end Rir

end
